import Mathlib

/-!
# gong: a wrapper around the go tool (main.go)

A shallow embedding of `main.go`: the environment rewrite and exit-status
translation of `execGo`, the root search `rootDir`, the provisioning routine
`setup` with its prompt loop, and the dispatch in `main`.

Go strings are modelled as lists of characters.  The operating system is an
explicit `World` value: working directory, file tree, standard input,
inherited environment and the behaviour of the child process.  Library
routines (`strings`, `path/filepath`, `os`) are modelled after their Unix
behaviour: paths are resolved element by element with symbolic links
followed, system calls fail with the error numbers of a missing, taken or
wrong kind of name.  Permissions are not modelled, and the child process is
seen through its end only.  Loops that Go writes without a bound are functions
with a bound, together with a proof that the bound is never reached
(`rootDirFuel_stable`, `relLoop_stable`, `mkdirAllFuel_stable`); the prompt
loop runs over the finite input and never ends at end of file.
-/

namespace Gong

/-- A Go string, as its sequence of characters. -/
abbrev GoString := List Char

/-! ## package strings -/

/-- The Go function strings.HasPrefix. -/
def HasPrefix (s pre : GoString) : Bool := pre.isPrefixOf s

/-- The Go function strings.HasSuffix. -/
def HasSuffix (s suf : GoString) : Bool := suf.reverse.isPrefixOf s.reverse

/-- The Go function strings.Contains: `sub` occurs somewhere in `s`. -/
def Contains : GoString → GoString → Bool
  | [], sub => HasPrefix [] sub
  | c :: s, sub => HasPrefix (c :: s) sub || Contains s sub

/-- The Go predicate unicode.IsSpace: the white space characters of Unicode. -/
def isSpace (c : Char) : Bool :=
  let n := c.toNat
  n == 0x09 || n == 0x0A || n == 0x0B || n == 0x0C || n == 0x0D || n == 0x20 ||
  n == 0x85 || n == 0xA0 || n == 0x1680 || (0x2000 ≤ n && n ≤ 0x200A) ||
  n == 0x2028 || n == 0x2029 || n == 0x202F || n == 0x205F || n == 0x3000

/-- The Go function strings.TrimSpace: leading and trailing white space removed. -/
def TrimSpace (s : GoString) : GoString :=
  ((s.dropWhile isSpace).reverse.dropWhile isSpace).reverse

/-- The Go function strings.TrimSuffix: one trailing occurrence of `suf` removed. -/
def TrimSuffix (s suf : GoString) : GoString :=
  if HasSuffix s suf then s.take (s.length - suf.length) else s

/-- The string "/". -/
def slash : GoString := ['/']

/-- The string "//". -/
def slash2 : GoString := ['/', '/']

/-- The string "GOPATH=". -/
def gopathEq : GoString := ['G', 'O', 'P', 'A', 'T', 'H', '=']

/-! ## execGo: the environment handed to the child (main.go lines 21-31) -/

/-- One iteration of `for i, v := range cmd.Env` (lines 22-27).  `arr` is the
backing array shared by the ranged slice and `cmd.Env`, `len` the current
length of `cmd.Env`.  `v` is read from the array at index `i`; on a match
`append(cmd.Env[:i], cmd.Env[i+1:]...)` shifts the cells `i+1 .. len-1` one place
down in the same array and shortens `cmd.Env` by one.  The slice expression
`cmd.Env[i+1:]` is out of range when `i+1 > len`: the result is `none`. -/
def envStep (st : List GoString × Nat) (i : Nat) : Option (List GoString × Nat) :=
  let arr := st.1
  let len := st.2
  let v := arr.getD i []
  if HasPrefix v gopathEq then
    if i + 1 ≤ len then
      some (arr.take i ++ (arr.take len).drop (i + 1) ++ arr.drop (len - 1), len - 1)
    else none
  else some (arr, len)

/-- The range loop of lines 22-27 over the inherited environment: the indices
`0 .. len(environ)-1` fixed when the loop starts.  Returns the final `cmd.Env`. -/
def stripGopath (environ : List GoString) : Option (List GoString) :=
  ((List.range environ.length).foldlM envStep (environ, environ.length)).map
    fun st => st.1.take st.2

/-- The environment of the child process (lines 21-31): the stripped inherited
environment, with `GOPATH=<gopath>` appended when `gopath` is not empty.
`none` is a run-time panic. -/
def childEnv (environ : List GoString) (gopath : GoString) : Option (List GoString) :=
  (stripGopath environ).map fun env =>
    if gopath ≠ [] then env ++ [gopathEq ++ gopath] else env

/-! ## execGo: the exit status (main.go lines 36-50) -/

/-- How the child process ended. -/
inductive ChildResult where
  /-- The child could not be started. -/
  | startFailed
  /-- The child called exit with this code (0 .. 255). -/
  | exited (code : Nat)
  /-- The child was killed by this signal (1 .. 126). -/
  | signaled (sig : Nat) (core : Bool)
deriving DecidableEq, Repr

/-- The error value of `cmd.Run()`. -/
inductive RunErr where
  /-- An `*exec.ExitError`; `sys` is `exitErr.Sys()` when it is a `syscall.WaitStatus`. -/
  | exitError (sys : Option Nat)
  /-- Any other error. -/
  | other
deriving DecidableEq, Repr

/-- The wait status the kernel reports for a finished child (Linux encoding). -/
def waitStatus : ChildResult → Nat
  | .startFailed => 0
  | .exited code => (code % 256) * 256
  | .signaled sig core => sig % 128 + (if core then 128 else 0)

/-- The Go method syscall.WaitStatus.Exited (Linux): the low seven bits are zero. -/
def Exited (w : Nat) : Bool := w % 128 == 0

/-- The Go method syscall.WaitStatus.ExitStatus (Linux): -1 unless the child exited. -/
def ExitStatus (w : Nat) : Int :=
  if Exited w then ((w / 256 % 256 : Nat) : Int) else -1

/-- The Go method `cmd.Run()`: nil when the child exits with status 0, an
`*exec.ExitError` when it ran and ended otherwise, another error when it could
not be started. -/
def cmdRun (r : ChildResult) : Option RunErr :=
  match r with
  | .startFailed => some .other
  | r => if ExitStatus (waitStatus r) = 0 then none else some (.exitError (some (waitStatus r)))

/-- The return value of execGo for the error of `cmd.Run()` (lines 37-50). -/
def execGoCode (err : Option RunErr) : Int :=
  match err with
  | some (.exitError (some status)) => ExitStatus status
  | some (.exitError none) => 2
  | some .other => 2
  | none => 0

/-! ## package path/filepath (Unix) -/

/-- The string ".". -/
def dot : GoString := ['.']

/-- The string "..". -/
def dotdot : GoString := ['.', '.']

/-- The Go call strings.Split(s, "/"): the elements between the separators. -/
def splitSlash : GoString → List GoString
  | [] => [[]]
  | c :: s =>
    if c = '/' then [] :: splitSlash s
    else (c :: (splitSlash s).headD []) :: (splitSlash s).tail

/-- The Go call strings.Join(elems, "/"). -/
def joinSlash (elems : List GoString) : GoString := slash.intercalate elems

/-- One element processed by filepath.Clean.  `out` is the output so far as a
stack of elements, last one first.  Empty and "." elements are dropped; ".."
removes the last ordinary element, is kept at the start of a relative path and
dropped at the start of a rooted one; any other element is appended. -/
def cleanStep (rooted : Bool) (out : List GoString) (e : GoString) : List GoString :=
  if e = [] ∨ e = dot then out
  else if e = dotdot then
    match out with
    | [] => if rooted then [] else [dotdot]
    | top :: rest => if top = dotdot then dotdot :: top :: rest else rest
  else e :: out

/-- The elements of the cleaned path, in order. -/
def cleanElems (rooted : Bool) (elems : List GoString) : List GoString :=
  (elems.foldl (cleanStep rooted) []).reverse

/-- The Go function filepath.Clean on Unix: the shortest equivalent path by
purely lexical processing.  The empty path becomes ".". -/
def Clean (path : GoString) : GoString :=
  if path = [] then dot
  else
    let rooted := HasPrefix path slash
    let out := cleanElems rooted (splitSlash path)
    if rooted then '/' :: joinSlash out
    else if out = [] then dot
    else joinSlash out

/-- The Go function filepath.Join: the elements after the leading empty ones,
joined by separators and cleaned; the empty string when all are empty. -/
def Join (elem : List GoString) : GoString :=
  match elem.dropWhile (fun e => e.isEmpty) with
  | [] => []
  | es => Clean (joinSlash es)

/-- The text `path[:i+1]` of filepath.Dir, `i` the index of the last separator:
everything up to and including the last separator. -/
def dirPart (path : GoString) : GoString :=
  (path.reverse.dropWhile (fun c => c != '/')).reverse

/-- The Go function filepath.Dir on Unix: all but the last element, cleaned. -/
def Dir (path : GoString) : GoString := Clean (dirPart path)

/-- The scanning loop of filepath.Rel over the remaining texts `base[b0:]` and
`targ[t0:]`: equal leading elements are skipped.  Returns the remaining texts
and `base[b0:bi]`, the base element at which the loop stopped (empty when it
stopped because one of the texts was used up).  The first argument bounds the
number of iterations; `len(base)` is enough (`relLoop_stable`). -/
def relLoop : Nat → GoString → GoString → GoString × GoString × GoString
  | 0, b, t => (b, t, [])
  | n + 1, b, t =>
    if b ≠ [] ∧ t ≠ [] then
      let eb := b.takeWhile (fun c => c != '/')
      let et := t.takeWhile (fun c => c != '/')
      if et ≠ eb then (b, t, eb)
      else relLoop n (b.drop (eb.length + 1)) (t.drop (et.length + 1))
    else (b, t, [])

/-- The Go function filepath.Rel on Unix: a relative path that leads from
`basepath` to `targpath`; `none` when there is none to be computed lexically. -/
def Rel (basepath targpath : GoString) : Option GoString :=
  let base := Clean basepath
  let targ := Clean targpath
  if targ = base then some dot
  else
    let base := if base = dot then [] else base
    if HasPrefix base slash ≠ HasPrefix targ slash then none
    else
      match relLoop base.length base targ with
      | (b, t, stop) =>
        if stop = dotdot then none
        else if b ≠ [] then
          let seps := b.count '/'
          some (dotdot ++ (List.replicate seps ('/' :: dotdot)).flatten ++
            (if t ≠ [] then '/' :: t else []))
        else some t

/-! ## The file tree and the system calls -/

/-- A resolved location in the file tree: the names from the root directory down. -/
abbrev PPath := List GoString

/-- What a location of the file tree holds. -/
inductive Node where
  /-- A regular file with its content. -/
  | file (data : GoString)
  /-- A directory. -/
  | dir
  /-- A symbolic link with its target text. -/
  | symlink (target : GoString)
deriving DecidableEq, Repr

deriving instance DecidableEq for Except

/-- Error numbers of the system calls used. -/
inductive Errno where
  | ENOENT
  | ENOTDIR
  | EEXIST
  | EISDIR
  | ELOOP
deriving DecidableEq, Repr

/-- The file tree: what each location holds, `none` for nothing. -/
abbrev Tree := PPath → Option Node

/-- The tree with location `p` set to `n`. -/
def Tree.set (t : Tree) (p : PPath) (n : Node) : Tree :=
  fun q => if q = p then some n else t q

/-- Path resolution from directory `cur` along the elements `elems`.  Every
step needs `cur` to be a directory; empty and "." elements stay, ".." goes to
the parent, a symbolic link is handed to `follow` (except a final one when
`followLast` is off).  The location returned may hold nothing: then its parent
is a directory. -/
def walkFrom (t : Tree) (follow : PPath → GoString → List GoString → Except Errno PPath)
    (followLast : Bool) : PPath → List GoString → Except Errno PPath
  | cur, [] => .ok cur
  | cur, c :: rest =>
    match t cur with
    | none => .error .ENOENT
    | some .dir =>
      if c = [] ∨ c = dot then walkFrom t follow followLast cur rest
      else if c = dotdot then walkFrom t follow followLast cur.dropLast rest
      else
        match t (cur ++ [c]) with
        | some (.symlink target) =>
          if rest = [] ∧ followLast = false then .ok (cur ++ [c])
          else follow cur target rest
        | _ => walkFrom t follow followLast (cur ++ [c]) rest
    | some _ => .error .ENOTDIR

/-- Path resolution that follows at most `n` symbolic links (ELOOP beyond). -/
def walk (t : Tree) (followLast : Bool) : Nat → PPath → List GoString → Except Errno PPath
  | 0 => walkFrom t (fun _ _ _ => .error .ELOOP) followLast
  | n + 1 => walkFrom t (fun cur target rest =>
      if target = [] then .error .ENOENT
      else walk t followLast n (if HasPrefix target slash then [] else cur)
        (splitSlash target ++ rest)) followLast

/-- Messages written to standard output, one constructor per Printf call. -/
inductive Msg where
  | runningAgain (root : GoString)
  | directoryIssues
  | cantGetwd
  | settingUp (root : GoString)
  | failed
  | done
  | askPath
  | promptMark
  | scanFailed
  | leadingSlash
  | doubleSlash
  | creatingSymlinks
  | completed
  | helpHeader
  | inProject (root : GoString)
  | usage
  | failedToEnd
  /-- The child process ran with these arguments and this environment. -/
  | child (args env : List GoString)
deriving DecidableEq, Repr

/-- What the scanner delivers for one call of `scanner.Scan()`. -/
inductive ScanEvent where
  /-- A line of text. -/
  | line (text : GoString)
  /-- A read error: `Scan` is false and `scanner.Err()` is not nil. -/
  | fail
deriving DecidableEq, Repr

/-- The state of the machine the program runs on. -/
structure World where
  /-- The result of os.Getwd. -/
  cwd : Except Errno GoString
  /-- The file tree. -/
  fs : Tree
  /-- The lines still to be read from standard input, then end of file. -/
  stdin : List ScanEvent
  /-- The result of os.Environ. -/
  environ : List GoString
  /-- How the go tool ends when run with the given arguments and environment. -/
  child : List GoString → List GoString → ChildResult
  /-- The messages written so far, oldest first. -/
  out : List Msg

/-- The world after a message is written. -/
def World.print (w : World) (m : Msg) : World := { w with out := w.out ++ [m] }

/-- The limit of the kernel on the number of symbolic links followed. -/
def maxSymlinks : Nat := 40

/-- Resolution of a path text: an absolute path from the root, a relative one
from the working directory; the empty path does not resolve. -/
def resolve (w : World) (followLast : Bool) (path : GoString) : Except Errno PPath :=
  if path = [] then .error .ENOENT
  else if HasPrefix path slash then walk w.fs followLast maxSymlinks [] (splitSlash path)
  else
    match w.cwd with
    | .error e => .error e
    | .ok cwd => walk w.fs followLast maxSymlinks [] (splitSlash cwd ++ splitSlash path)

/-- The Go function os.Stat: the node a path leads to, links followed. -/
def Stat (w : World) (path : GoString) : Except Errno Node :=
  match resolve w true path with
  | .error e => .error e
  | .ok p =>
    match w.fs p with
    | none => .error .ENOENT
    | some n => .ok n

/-- The Go function os.Lstat: as Stat, a final link not followed. -/
def Lstat (w : World) (path : GoString) : Except Errno Node :=
  match resolve w false path with
  | .error e => .error e
  | .ok p =>
    match w.fs p with
    | none => .error .ENOENT
    | some n => .ok n

/-- The Go function os.Mkdir: a new directory; EEXIST when the name is taken. -/
def Mkdir (w : World) (path : GoString) : Except Errno World :=
  match resolve w false path with
  | .error e => .error e
  | .ok p =>
    match w.fs p with
    | some _ => .error .EEXIST
    | none => .ok { w with fs := w.fs.set p .dir }

/-- The Go function os.Symlink: a new link at `linkpath`; EEXIST when the name is taken. -/
def Symlink (w : World) (target linkpath : GoString) : Except Errno World :=
  match resolve w false linkpath with
  | .error e => .error e
  | .ok p =>
    match w.fs p with
    | some _ => .error .EEXIST
    | none => .ok { w with fs := w.fs.set p (.symlink target) }

/-- The Go call os.OpenFile(path, O_CREATE|O_RDWR|O_TRUNC, 0644) followed by
Close: the file is created, or emptied when it exists. -/
def OpenFileTrunc (w : World) (path : GoString) : Except Errno World :=
  match resolve w true path with
  | .error e => .error e
  | .ok p =>
    match w.fs p with
    | some .dir => .error .EISDIR
    | some (.symlink _) => .error .ELOOP
    | _ => .ok { w with fs := w.fs.set p (.file []) }

/-- The text `path[:j]` of os.MkdirAll: the path without trailing separators
and without its last element. -/
def parentPart (path : GoString) : GoString :=
  ((path.reverse.dropWhile (fun c => c == '/')).dropWhile (fun c => c != '/')).reverse

/-- The Go function os.MkdirAll, with a bound on the depth of the recursion.
A path that is a directory is left alone; otherwise the parent `path[:j-1]` is
made first (when `j > 1`), then Mkdir is called, and its failure is forgiven
when the path is a directory after all.  The result is the world after the call
(parents made before a failure stay) and the error, if any. -/
def MkdirAllFuel : Nat → World → GoString → World × Option Errno
  | 0, w, _ => (w, some .ELOOP)
  | n + 1, w, path =>
    match Stat w path with
    | .ok .dir => (w, none)
    | .ok _ => (w, some .ENOTDIR)
    | .error _ =>
      let parent := parentPart path
      let made := if parent.length > 1 then MkdirAllFuel n w parent.dropLast else (w, none)
      match made.2 with
      | some e => (made.1, some e)
      | none =>
        match Mkdir made.1 path with
        | .ok w2 => (w2, none)
        | .error e =>
          match Lstat made.1 path with
          | .ok .dir => (made.1, none)
          | _ => (made.1, some e)

/-- The Go function os.MkdirAll: every recursive call is on a shorter path, so
the bound `len(path) + 1` is never reached (`mkdirAllFuel_stable`). -/
def MkdirAll (w : World) (path : GoString) : World × Option Errno :=
  MkdirAllFuel (path.length + 1) w path

/-! ## The program -/

/-- How a routine of the program ends. -/
inductive Outcome (α : Type) where
  /-- It returns a value. -/
  | ret (a : α) (w : World)
  /-- The process ends through os.Exit with this status. -/
  | exit (code : Int) (w : World)
  /-- It never ends: a loop that runs forever. -/
  | hang (w : World)
  /-- The process ends through a run-time panic. -/
  | crash (w : World)

/-- Sequencing: the continuation runs when the routine returns. -/
def Outcome.bind {α β : Type} (o : Outcome α) (k : α → World → Outcome β) : Outcome β :=
  match o with
  | .ret a w => k a w
  | .exit c w => .exit c w
  | .hang w => .hang w
  | .crash w => .crash w

/-- The world in which the routine ended. -/
def Outcome.world {α : Type} : Outcome α → World
  | .ret _ w => w
  | .exit _ w => w
  | .hang w => w
  | .crash w => w

/-- The exit status, when the process ended through os.Exit. -/
def Outcome.exitCode {α : Type} : Outcome α → Option Int
  | .exit c _ => some c
  | _ => none

/-- The value returned, when the routine returned. -/
def Outcome.value {α : Type} : Outcome α → Option α
  | .ret a _ => some a
  | _ => none

/-- The errors rootDir returns. -/
inductive RootErr where
  /-- The variable ErrNoRootDir. -/
  | ErrNoRootDir
  /-- The error of os.Getwd. -/
  | getwd (e : Errno)
deriving DecidableEq, Repr

/-- The string ".gong". -/
def dotGong : GoString := ['.', 'g', 'o', 'n', 'g']

/-- The string ".gong.deps". -/
def dotGongDeps : GoString := ['.', 'g', 'o', 'n', 'g', '.', 'd', 'e', 'p', 's']

/-- The string "src". -/
def srcName : GoString := ['s', 'r', 'c']

/-- The string "bin". -/
def binName : GoString := ['b', 'i', 'n']

/-- The string "pkg". -/
def pkgName : GoString := ['p', 'k', 'g']

/-- The string "setup". -/
def setupName : GoString := ['s', 'e', 't', 'u', 'p']

/-- The string "help". -/
def helpName : GoString := ['h', 'e', 'l', 'p']

/-- The loop of rootDir (lines 64-71) with a bound on the number of
iterations: `none` when the bound is reached.  The marker is looked up by the
relative name ".gong" in every iteration. -/
def rootDirLoop (w : World) : Nat → GoString → GoString → Option (Except RootErr GoString)
  | 0, _, _ => none
  | n + 1, dir, lastdir =>
    if lastdir ≠ dir then
      match Stat w dotGong with
      | .ok _ => some (.ok dir)
      | .error _ => rootDirLoop w n (Dir dir) dir
    else some (.error .ErrNoRootDir)

/-- The function rootDir (lines 56-74) with a bound on the loop. -/
def rootDirFuel (fuel : Nat) (w : World) : Option (Except RootErr GoString) :=
  match w.cwd with
  | .error e => some (.error (.getwd e))
  | .ok dir => rootDirLoop w fuel dir []

/-- The function rootDir (lines 56-74); the bound is never reached, see
`rootDirFuel_stable`. -/
def rootDir (w : World) : Option (Except RootErr GoString) :=
  match w.cwd with
  | .error e => some (.error (.getwd e))
  | .ok dir => rootDirLoop w (dir.length + 3) dir []

/-- The function gopath (lines 77-80); `none` when rootDir does not end. -/
def gopath (w : World) : Option GoString :=
  match rootDir w with
  | none => none
  | some (.ok root) => some (Join [root, dotGongDeps])
  | some (.error _) => some (Join [[], dotGongDeps])

/-- The function execGo (lines 19-51): the child runs with the rewritten
environment and its end is turned into a return value. -/
def execGo (gopath : GoString) (args : List GoString) (w : World) : Outcome Int :=
  match childEnv w.environ gopath with
  | none => .crash w
  | some env =>
    let w1 := w.print (.child args env)
    match cmdRun (w.child args env) with
    | some (.exitError (some status)) => .ret (ExitStatus status) w1
    | some (.exitError none) => .ret 2 (w1.print .failedToEnd)
    | some .other => .ret 2 (w1.print .failedToEnd)
    | none => .ret 0 w1

/-- One pass of lines 139-148 with its messages: the new value of `path`. -/
def promptCheck (w : World) (text : GoString) : GoString × World :=
  let path := TrimSuffix (TrimSpace text) slash
  let r1 := if HasPrefix path slash then (([] : GoString), w.print .leadingSlash) else (path, w)
  if Contains r1.1 slash2 then ([], r1.2.print .doubleSlash) else r1

/-- The prompt loop (lines 130-149) over the lines standard input still
holds.  At end of file `Scan` is false, `Err` is nil and `path` stays empty:
the loop runs forever. -/
def promptLoop (w : World) : List ScanEvent → Outcome GoString
  | [] => .hang { (w.print .promptMark) with stdin := [] }
  | .fail :: rest => .exit 2 { ((w.print .promptMark).print .scanFailed) with stdin := rest }
  | .line text :: rest =>
    let r := promptCheck { (w.print .promptMark) with stdin := rest } text
    if r.1 = [] then promptLoop r.2 rest else .ret r.1 r.2

/-- A step of setup that ends the process with status 2 when it fails. -/
def orFail (r : Except Errno World) (w : World) (k : World → Outcome Unit) : Outcome Unit :=
  match r with
  | .error _ => .exit 2 (w.print .failed)
  | .ok w1 => k w1

/-- A MkdirAll step of setup: the process ends with status 2 when it fails. -/
def orFailAll (r : World × Option Errno) (k : World → Outcome Unit) : Outcome Unit :=
  match r.2 with
  | some _ => .exit 2 (r.1.print .failed)
  | none => k r.1

/-- Lines 103-174 of setup: the marker, the three directories, the prompt and
the link, for the root directory chosen. -/
def provision (rootDir : GoString) (w : World) : Outcome Unit :=
  let w := w.print (.settingUp rootDir)
  orFail (OpenFileTrunc w (Join [rootDir, dotGong])) w fun w =>
  orFailAll (MkdirAll w (Join [rootDir, dotGongDeps, srcName])) fun w =>
  orFailAll (MkdirAll w (Join [rootDir, dotGongDeps, binName])) fun w =>
  orFailAll (MkdirAll w (Join [rootDir, dotGongDeps, pkgName])) fun w =>
  let w := (w.print .done).print .askPath
  (promptLoop w w.stdin).bind fun path w =>
  let w := w.print .creatingSymlinks
  let baseDir := Join [rootDir, dotGongDeps, srcName, Dir path]
  orFailAll (MkdirAll w baseDir) fun w =>
  match Rel (Join [rootDir, dotGongDeps, srcName, Dir path]) rootDir with
  | none => .exit 2 (w.print .failed)
  | some relDir =>
    orFail (Symlink w relDir (Join [rootDir, dotGongDeps, srcName, path])) w fun w =>
    .ret () ((w.print .done).print .completed)

/-- The function setup (lines 83-175). -/
def setup (force : Bool) (w : World) : Outcome Unit :=
  match rootDir w with
  | none => .hang w
  | some (.ok root) =>
    if force then provision root (w.print (.runningAgain root))
    else .ret () w
  | some (.error (.getwd _)) => .exit 2 (w.print .directoryIssues)
  | some (.error .ErrNoRootDir) =>
    match w.cwd with
    | .error _ => .exit 2 (w.print .cantGetwd)
    | .ok root => provision root w

/-- The function help (lines 177-198): it always ends the process. -/
def help (failed : Bool) (w : World) : Outcome Unit :=
  let w := w.print .helpHeader
  match rootDir w with
  | none => .hang w
  | some r =>
    let w := match r with
      | .ok str => w.print (.inProject str)
      | .error _ => w
    let w := w.print .usage
    (execGo [] [helpName] w).bind fun _ w =>
    if failed then .exit 2 w else .exit 0 w

/-- The function main (lines 200-222) for the arguments `os.Args[1:]`. -/
def main (args : List GoString) (w : World) : Outcome Unit :=
  match args with
  | [] => help true w
  | cmd :: rest =>
    if cmd = setupName then
      (setup true w).bind fun _ w => .exit 0 w
    else if cmd = helpName ∧ rest = [] then help false w
    else
      (setup false w).bind fun _ w =>
      match gopath w with
      | none => .hang w
      | some gp => (execGo gp (cmd :: rest) w).bind fun retcode w => .exit retcode w

/-! ## Reading of the specification and concrete inputs -/

/-- Following the specification: the candidate line with surrounding white
space trimmed and then one trailing "/" removed. -/
def specNormalize (s : GoString) : GoString := TrimSuffix (TrimSpace s) slash

/-- Following the specification: a normalised path is valid when it is not
empty, does not begin with "/" and does not contain "//". -/
def specValid (n : GoString) : Prop :=
  n ≠ [] ∧ HasPrefix n slash = false ∧ Contains n slash2 = false

instance (n : GoString) : Decidable (specValid n) := by
  unfold specValid; infer_instance

/-- An ordinary file name: not empty, not "." or "..", without a separator. -/
def ordinary (e : GoString) : Prop :=
  e ≠ [] ∧ e ≠ dot ∧ e ≠ dotdot ∧ '/' ∉ e

instance (e : GoString) : Decidable (ordinary e) := by
  unfold ordinary; infer_instance

/-- The absolute path text with the given elements: "/" followed by the
elements joined by separators. -/
def absPath (elems : List GoString) : GoString := '/' :: joinSlash elems

/-- The location `P` and all its ancestors up to the root are directories. -/
def realDirs (t : Tree) (P : PPath) : Prop :=
  ∀ k, k ≤ P.length → t (P.take k) = some .dir

/-- A file tree with the directories /a and /a/b and the marker /a/.gong only. -/
def treeAncestor : Tree := fun p =>
  if p = [] then some .dir
  else if p = [['a']] then some .dir
  else if p = [['a'], ['b']] then some .dir
  else if p = [['a'], dotGong] then some (.file [])
  else none

/-- A world with working directory /a/b, the marker in /a, one line "x/y" on
standard input and a go tool that exits with 0. -/
def worldAncestor : World :=
  { cwd := .ok ['/', 'a', '/', 'b'], fs := treeAncestor, stdin := [.line ['x', '/', 'y']],
    environ := [['H', '=', '1']], child := fun _ _ => .exited 0, out := [] }

/-- A world as `worldAncestor` with the given end of the go tool. -/
def worldChild (r : ChildResult) : World :=
  { worldAncestor with child := fun _ _ => r }

/-- A world as `worldAncestor` with the given inherited environment. -/
def worldEnv (environ : List GoString) : World :=
  { worldAncestor with environ := environ }

/-- Following the specification: the marker file ".gong" exists in directory
`d`, that is, the path `d/.gong` leads to something. -/
def hasMarker (w : World) (d : GoString) : Bool :=
  match Stat w (d ++ '/' :: dotGong) with
  | .ok _ => true
  | .error _ => false

/-- A file tree with the directories /a and /a/b and no marker. -/
def treeBare : Tree := fun p =>
  if p = [] then some .dir
  else if p = [['a']] then some .dir
  else if p = [['a'], ['b']] then some .dir
  else none

/-- A world with working directory /a/b and no marker anywhere. -/
def worldBare : World :=
  { worldAncestor with fs := treeBare }

/-- A provisioned root /r: the marker, the three workspace directories and the
link of the earlier import path "a/b". -/
def treeProvisioned : Tree := fun p =>
  if p = [] then some .dir
  else if p = [['r']] then some .dir
  else if p = [['r'], dotGong] then some (.file [])
  else if p = [['r'], dotGongDeps] then some .dir
  else if p = [['r'], dotGongDeps, srcName] then some .dir
  else if p = [['r'], dotGongDeps, binName] then some .dir
  else if p = [['r'], dotGongDeps, pkgName] then some .dir
  else if p = [['r'], dotGongDeps, srcName, ['a']] then some .dir
  else if p = [['r'], dotGongDeps, srcName, ['a'], ['b']] then
    some (.symlink ['.', '.', '/', '.', '.', '/', '.', '.'])
  else none

/-- A world with working directory /r, the provisioned root /r and the given
lines on standard input. -/
def worldProvisioned (lines : List GoString) : World :=
  { cwd := .ok ['/', 'r'], fs := treeProvisioned, stdin := lines.map ScanEvent.line,
    environ := [['H', '=', '1']], child := fun _ _ => .exited 0, out := [] }

/-- The import path "example.com/u/proj" of the specification. -/
def examplePath : GoString := "example.com/u/proj".toList

/-- The names of an absolute path text from the root down, by the lexical
rules of filepath.Clean. -/
def pathElems (path : GoString) : PPath := cleanElems true (splitSlash path)

/-- The last element of a path text: what follows its last separator. -/
def lastElem (path : GoString) : GoString := (splitSlash path).getLastD []

/-! ## Facts about the string routines -/

theorem hasPrefix_iff (s pre : GoString) : HasPrefix s pre = true ↔ pre <+: s := by
  unfold HasPrefix
  exact List.isPrefixOf_iff_prefix

theorem hasSuffix_iff (s suf : GoString) : HasSuffix s suf = true ↔ suf <:+ s := by
  unfold HasSuffix
  rw [List.isPrefixOf_iff_prefix, List.reverse_prefix]

theorem contains_iff (s sub : GoString) : Contains s sub = true ↔ sub <:+: s := by
  induction s with
  | nil =>
    simp only [Contains, hasPrefix_iff]
    constructor
    · intro h; exact h.isInfix
    · intro h
      have := List.eq_nil_of_infix_nil h
      subst this
      exact List.prefix_refl _
  | cons c s ih =>
    simp only [Contains, Bool.or_eq_true, hasPrefix_iff, ih, List.infix_cons_iff]

theorem contains_nil_slash2 : Contains [] slash2 = false := by decide

theorem isSpace_slash : isSpace '/' = false := by decide

/-- Dropping leading white space keeps an occurrence of "//". -/
theorem slash2_infix_dropWhile (s : GoString) (h : slash2 <:+: s) :
    slash2 <:+: s.dropWhile isSpace := by
  induction s with
  | nil => simpa using h
  | cons c s ih =>
    by_cases hc : isSpace c = true
    · rw [List.dropWhile_cons_of_pos hc]
      rcases List.infix_cons_iff.mp h with hp | hi
      · exfalso
        obtain ⟨t, ht⟩ := hp
        simp only [slash2, List.cons_append, List.cons.injEq] at ht
        rw [← ht.1] at hc
        simp [isSpace_slash] at hc
      · exact ih hi
    · rw [List.dropWhile_cons_of_neg hc]
      exact h

theorem slash2_reverse : slash2.reverse = slash2 := by decide

/-- Trimming white space keeps an occurrence of "//". -/
theorem slash2_infix_trimSpace (s : GoString) (h : slash2 <:+: s) :
    slash2 <:+: TrimSpace s := by
  unfold TrimSpace
  have h1 := slash2_infix_dropWhile s h
  have h2 : slash2 <:+: (s.dropWhile isSpace).reverse := by
    rw [← slash2_reverse, List.reverse_infix]; exact h1
  have h3 := slash2_infix_dropWhile _ h2
  rw [← slash2_reverse, List.reverse_infix]
  exact h3

/-- The text TrimSuffix leaves when the suffix is present. -/
theorem trimSuffix_append (u suf : GoString) : TrimSuffix (u ++ suf) suf = u := by
  unfold TrimSuffix
  have : HasSuffix (u ++ suf) suf = true := (hasSuffix_iff _ _).mpr (List.suffix_append _ _)
  simp [this]

theorem trimSuffix_of_not (t suf : GoString) (h : HasSuffix t suf = false) :
    TrimSuffix t suf = t := by
  unfold TrimSuffix
  simp [h]

/-- One trailing "/" removed keeps an occurrence of "//" that is not at the very
end. -/
theorem slash2_infix_trimSuffix (t : GoString) (h : slash2 <:+: t)
    (hend : HasSuffix t slash2 = false) : slash2 <:+: TrimSuffix t slash := by
  by_cases hs : HasSuffix t slash = true
  · obtain ⟨u, hu⟩ := (hasSuffix_iff _ _).mp hs
    subst hu
    rw [trimSuffix_append]
    have hr : slash2.reverse <:+: (u ++ slash).reverse := List.reverse_infix.mpr h
    rw [slash2_reverse] at hr
    simp only [slash, List.reverse_append, List.reverse_cons, List.reverse_nil, List.nil_append,
      List.singleton_append] at hr
    rcases List.infix_cons_iff.mp hr with hp | hi
    · exfalso
      have : slash2 <:+ u ++ slash := by
        have hq : slash2.reverse <+: (u ++ slash).reverse := by
          simpa [slash2_reverse, slash] using hp
        exact List.reverse_prefix.mp hq
      have := (hasSuffix_iff _ _).mpr this
      rw [hend] at this
      exact Bool.noConfusion this
    · have := List.reverse_infix.mp (by simpa [slash2_reverse] using hi :
        slash2.reverse <:+: u.reverse)
      exact this
  · rw [trimSuffix_of_not _ _ (by simpa using hs)]
    exact h

/-- A trimmed text that begins with "/" is "/" alone or still begins with "/"
after one trailing "/" is removed. -/
theorem trimSuffix_slash_of_prefix (t : GoString) (h : HasPrefix t slash = true) :
    TrimSuffix t slash = [] ∨ HasPrefix (TrimSuffix t slash) slash = true := by
  by_cases hs : HasSuffix t slash = true
  · obtain ⟨u, hu⟩ := (hasSuffix_iff _ _).mp hs
    subst hu
    rw [trimSuffix_append]
    cases u with
    | nil => exact Or.inl rfl
    | cons c u =>
      right
      obtain ⟨r, hr⟩ := (hasPrefix_iff _ _).mp h
      simp only [slash, List.cons_append, List.singleton_append, List.cons.injEq] at hr
      rw [hasPrefix_iff]
      exact ⟨u, by rw [← hr.1]; rfl⟩
  · rw [trimSuffix_of_not _ _ (by simpa using hs)]
    exact Or.inr h

/-! ## The prompt loop -/

/-- The value of `path` after one pass over a line, in closed form. -/
theorem promptCheck_fst (w : World) (s : GoString) :
    (promptCheck w s).1 =
      if HasPrefix (TrimSuffix (TrimSpace s) slash) slash = true
        ∨ Contains (TrimSuffix (TrimSpace s) slash) slash2 = true then []
      else TrimSuffix (TrimSpace s) slash := by
  unfold promptCheck
  by_cases h1 : HasPrefix (TrimSuffix (TrimSpace s) slash) slash = true
  · simp [h1, contains_nil_slash2]
  · by_cases h2 : Contains (TrimSuffix (TrimSpace s) slash) slash2 = true
    · simp [h1, h2]
    · simp [h1, h2]

/-- An accepted line prints no complaint. -/
theorem promptCheck_snd (w : World) (s : GoString)
    (h1 : HasPrefix (TrimSuffix (TrimSpace s) slash) slash = false)
    (h2 : Contains (TrimSuffix (TrimSpace s) slash) slash2 = false) :
    (promptCheck w s).2 = w := by
  unfold promptCheck
  simp [h1, h2]

/-! ## Claims on the prompt validation (C5, C6) -/

/-- The loop hands out only valid paths. -/
theorem promptLoop_ret_valid (inp : List ScanEvent) :
    ∀ (w : World) (p : GoString) (w2 : World), promptLoop w inp = .ret p w2 → specValid p := by
  induction inp with
  | nil => intro w p w2 h; simp [promptLoop] at h
  | cons e rest ih =>
    intro w p w2 h
    cases e with
    | fail => simp [promptLoop] at h
    | line text =>
      simp only [promptLoop] at h
      split at h
      · exact ih _ _ _ h
      · rename_i hne
        injection h with hp _
        subst hp
        rw [promptCheck_fst] at hne ⊢
        split at hne
        · exact absurd rfl hne
        · rename_i hc
          rw [if_neg hc]
          simp only [not_or, Bool.not_eq_true] at hc
          exact ⟨hne, hc.1, hc.2⟩

/-- A line with a valid normalised form ends the loop with that form. -/
theorem promptLoop_accept (w : World) (s : GoString) (rest : List ScanEvent)
    (hv : specValid (specNormalize s)) :
    promptLoop w (.line s :: rest)
      = .ret (specNormalize s) { (w.print .promptMark) with stdin := rest } := by
  obtain ⟨h0, h1, h2⟩ := hv
  unfold specNormalize at h0 h1 h2 ⊢
  have hf := promptCheck_fst { (w.print .promptMark) with stdin := rest } s
  rw [if_neg (by simp [h1, h2])] at hf
  have hs := promptCheck_snd { (w.print .promptMark) with stdin := rest } s h1 h2
  simp only [promptLoop]
  rw [if_neg (by rw [hf]; exact h0), hf, hs]

/-- A line without a valid normalised form resets the path; the loop goes on. -/
theorem promptLoop_reject (w : World) (s : GoString) (rest : List ScanEvent)
    (hv : ¬ specValid (specNormalize s)) :
    (promptCheck { (w.print .promptMark) with stdin := rest } s).1 = [] ∧
    promptLoop w (.line s :: rest)
      = promptLoop (promptCheck { (w.print .promptMark) with stdin := rest } s).2 rest := by
  have hf := promptCheck_fst { (w.print .promptMark) with stdin := rest } s
  have he : (promptCheck { (w.print .promptMark) with stdin := rest } s).1 = [] := by
    rw [hf]
    split
    · rfl
    · rename_i hc
      simp only [not_or, Bool.not_eq_true] at hc
      by_contra hne
      exact hv ⟨hne, hc.1, hc.2⟩
  refine ⟨he, ?_⟩
  simp only [promptLoop]
  rw [if_pos he]

/-- C6: a candidate line is accepted exactly when its normalised form (white
space trimmed, one trailing "/" removed) is not empty, does not begin with "/"
and does not contain "//"; the accepted path is that normalised form; a line
that is not accepted resets the path and the loop goes on with the next line;
every path the loop hands out is not empty, has no leading "/" and no "//". -/
theorem C6_prompt_accepts_iff_valid (w : World) (s : GoString) (rest : List ScanEvent) :
    (specValid (specNormalize s) →
      promptLoop w (.line s :: rest)
        = .ret (specNormalize s) { (w.print .promptMark) with stdin := rest }) ∧
    (¬ specValid (specNormalize s) →
      (promptCheck { (w.print .promptMark) with stdin := rest } s).1 = [] ∧
      promptLoop w (.line s :: rest)
        = promptLoop (promptCheck { (w.print .promptMark) with stdin := rest } s).2 rest) ∧
    (∀ (inp : List ScanEvent) (p : GoString) (w2 : World),
      promptLoop w inp = .ret p w2 → p ≠ [] ∧ HasPrefix p slash = false ∧ Contains p slash2 = false) :=
  ⟨promptLoop_accept w s rest, promptLoop_reject w s rest,
    fun inp p w2 h => promptLoop_ret_valid inp w p w2 h⟩

/-- C6 at the line "a/b/": accepted as "a/b". -/
theorem C6_prompt_accepts_iff_valid_witness :
    specValid (specNormalize ['a', '/', 'b', '/']) ∧
    promptLoop worldAncestor [.line ['a', '/', 'b', '/']]
      = .ret ['a', '/', 'b'] { (worldAncestor.print .promptMark) with stdin := [] } :=
  ⟨by decide,
   (C6_prompt_accepts_iff_valid worldAncestor ['a', '/', 'b', '/'] []).1 (by decide)⟩

/-- C5 as stated fails: the line "a//" contains "//" and is accepted, as "a/". -/
theorem C5_counterexample :
    Contains ['a', '/', '/'] slash2 = true ∧
    (promptLoop worldAncestor [.line ['a', '/', '/']]).value = some ['a', '/'] := by
  decide

/-- C5 (amended): a candidate line is rejected (the path is reset to empty and
the loop goes on with the next line, so the line itself is never accepted) when
its normalised form contains "//", which is so for every line that contains
"//" and whose trimmed form does not end in "//", or when its trimmed form
begins with "/". -/
theorem C5_prompt_rejects (w : World) (s : GoString) (rest : List ScanEvent)
    (h : Contains (specNormalize s) slash2 = true
      ∨ (Contains s slash2 = true ∧ HasSuffix (TrimSpace s) slash2 = false)
      ∨ HasPrefix (TrimSpace s) slash = true) :
    (promptCheck { (w.print .promptMark) with stdin := rest } s).1 = [] ∧
    promptLoop w (.line s :: rest)
      = promptLoop (promptCheck { (w.print .promptMark) with stdin := rest } s).2 rest ∧
    (promptLoop w [.line s]).value = none := by
  have hv : ¬ specValid (specNormalize s) := by
    rintro ⟨h0, h1, h2⟩
    rcases h with h | ⟨ha, hb⟩ | h
    · rw [h2] at h; exact Bool.noConfusion h
    · have := slash2_infix_trimSuffix _
        (slash2_infix_trimSpace s ((contains_iff _ _).mp ha)) hb
      have := (contains_iff _ _).mpr this
      unfold specNormalize at h2
      rw [h2] at this; exact Bool.noConfusion this
    · rcases trimSuffix_slash_of_prefix _ h with h' | h'
      · exact h0 h'
      · unfold specNormalize at h1
        rw [h1] at h'; exact Bool.noConfusion h'
  have h1 := promptLoop_reject w s rest hv
  have h2 := promptLoop_reject w s [] hv
  refine ⟨h1.1, h1.2, ?_⟩
  rw [h2.2]
  rfl

/-- C5 (amended) at the lines "a//b" and "/a/b": both are rejected. -/
theorem C5_prompt_rejects_witness :
    (promptLoop worldAncestor [.line ['a', '/', '/', 'b']]).value = none ∧
    (promptLoop worldAncestor [.line ['/', 'a', '/', 'b']]).value = none :=
  ⟨(C5_prompt_rejects worldAncestor ['a', '/', '/', 'b'] [] (Or.inl (by decide))).2.2,
   (C5_prompt_rejects worldAncestor ['/', 'a', '/', 'b'] []
      (Or.inr (Or.inr (by decide)))).2.2⟩

/-! ## Claims on execGo (C3, C4) -/

/-- C3 as stated fails: for a child killed by signal 9 execGo returns -1, not 2. -/
theorem C3_counterexample :
    (execGo [] [helpName] (worldChild (.signaled 9 false))).value = some (-1) ∧
    (execGo [] [helpName] (worldChild (.signaled 9 false))).value ≠ some 2 := by
  decide

/-- C3 (amended): execGo returns 0 when the child exits with status 0, the
code of the child when it exits with a code from 1 to 255, 2 when the child
could not be started, and -1 (the ExitStatus of a wait status that is not an
exit) when the child was ended by a signal. -/
theorem C3_execGo_status (w : World) (gp : GoString) (args env : List GoString)
    (henv : childEnv w.environ gp = some env) :
    (w.child args env = .exited 0 → (execGo gp args w).value = some 0) ∧
    (∀ c : Nat, 0 < c → c < 256 → w.child args env = .exited c →
      (execGo gp args w).value = some (c : Int)) ∧
    (w.child args env = .startFailed → (execGo gp args w).value = some 2) ∧
    (∀ (sig : Nat) (core : Bool), 0 < sig → sig < 128 → w.child args env = .signaled sig core →
      (execGo gp args w).value = some (-1)) := by
  refine ⟨?_, ?_, ?_, ?_⟩
  · intro h
    simp [execGo, henv, h, cmdRun, waitStatus, ExitStatus, Exited, Outcome.value]
  · intro c h0 h1 h
    have hm : c % 256 = c := Nat.mod_eq_of_lt h1
    have h2 : c * 256 % 128 = 0 := by omega
    have h3 : c * 256 / 256 % 256 = c := by
      rw [Nat.mul_div_cancel _ (by decide : 0 < 256)]; exact hm
    have hc : (c : Int) ≠ 0 := by omega
    simp [execGo, henv, h, cmdRun, waitStatus, ExitStatus, Exited, Outcome.value, hm, h2, h3, hc]
  · intro h
    simp [execGo, henv, h, cmdRun, Outcome.value]
  · intro sig core h0 h1 h
    have hm : sig % 128 = sig := Nat.mod_eq_of_lt h1
    have h2 : (sig + if core = true then 128 else 0) % 128 ≠ 0 := by
      cases core <;> simp <;> omega
    simp [execGo, henv, h, cmdRun, waitStatus, ExitStatus, Exited, Outcome.value, hm, h2]

/-- C3 (amended) at a child that exits with code 3. -/
theorem C3_execGo_status_witness :
    childEnv (worldChild (.exited 3)).environ [] = some [['H', '=', '1']] ∧
    (execGo [] [helpName] (worldChild (.exited 3))).value = some 3 :=
  ⟨by decide,
   (C3_execGo_status (worldChild (.exited 3)) [] [helpName] [['H', '=', '1']] (by decide)).2.1
      3 (by decide) (by decide) rfl⟩

/-- C4 fails on the code: with two inherited GOPATH entries the range loop
slices out of range (a panic), and with a third entry after them the second
GOPATH entry survives beside the new one. -/
theorem C4_env_two_gopath :
    childEnv [gopathEq ++ ['a'], gopathEq ++ ['b']] ['g'] = none ∧
    (execGo ['g'] [helpName] (worldEnv [gopathEq ++ ['a'], gopathEq ++ ['b']])).value = none ∧
    childEnv [gopathEq ++ ['a'], gopathEq ++ ['b'], ['X']] ['g']
      = some [gopathEq ++ ['b'], ['X'], gopathEq ++ ['g']] ∧
    childEnv [gopathEq ++ ['a'], ['X'], gopathEq ++ ['b']] ['g'] = none := by
  decide

/-! ## Facts about splitting, joining and cleaning paths -/

theorem splitSlash_ne_nil (s : GoString) : splitSlash s ≠ [] := by
  cases s with
  | nil => simp [splitSlash]
  | cons c s =>
    unfold splitSlash
    split <;> simp

theorem splitSlash_cons_slash (s : GoString) : splitSlash ('/' :: s) = [] :: splitSlash s := by
  simp [splitSlash]

theorem splitSlash_cons_of_ne (c : Char) (s : GoString) (h : c ≠ '/') :
    splitSlash (c :: s) = (c :: (splitSlash s).headD []) :: (splitSlash s).tail := by
  simp [splitSlash, h]

theorem joinSlash_nil : joinSlash [] = [] := rfl

theorem joinSlash_singleton (a : GoString) : joinSlash [a] = a := by
  simp [joinSlash, List.intercalate, List.intersperse]

theorem joinSlash_cons_cons (a b : GoString) (L : List GoString) :
    joinSlash (a :: b :: L) = a ++ '/' :: joinSlash (b :: L) := by
  simp [joinSlash, List.intercalate, List.intersperse, slash]

/-- Splitting and joining again gives the text back. -/
theorem joinSlash_splitSlash (s : GoString) : joinSlash (splitSlash s) = s := by
  induction s with
  | nil => simp [splitSlash, joinSlash_singleton]
  | cons c s ih =>
    by_cases hc : c = '/'
    · subst hc
      rw [splitSlash_cons_slash]
      obtain ⟨a, L, hL⟩ := List.exists_cons_of_ne_nil (splitSlash_ne_nil s)
      rw [hL, joinSlash_cons_cons, ← hL, ih]
      rfl
    · rw [splitSlash_cons_of_ne c s hc]
      obtain ⟨a, L, hL⟩ := List.exists_cons_of_ne_nil (splitSlash_ne_nil s)
      rw [hL] at ih ⊢
      simp only [List.headD_cons, List.tail_cons]
      cases L with
      | nil =>
        rw [joinSlash_singleton] at ih ⊢
        rw [ih]
      | cons b L =>
        rw [joinSlash_cons_cons] at ih ⊢
        rw [← ih]
        rfl

/-- The elements of a split text and the separators between them make up its length. -/
theorem weight_splitSlash (s : GoString) :
    ((splitSlash s).map (fun e => e.length + 1)).sum = s.length + 1 := by
  induction s with
  | nil => simp [splitSlash]
  | cons c s ih =>
    by_cases hc : c = '/'
    · subst hc
      rw [splitSlash_cons_slash]
      simp only [List.map_cons, List.sum_cons, List.length_nil, List.length_cons, ih]
      omega
    · rw [splitSlash_cons_of_ne c s hc]
      obtain ⟨a, L, hL⟩ := List.exists_cons_of_ne_nil (splitSlash_ne_nil s)
      rw [hL] at ih ⊢
      simp only [List.headD_cons, List.tail_cons, List.map_cons, List.sum_cons,
        List.length_cons] at ih ⊢
      omega

theorem length_joinSlash (L : List GoString) (h : L ≠ []) :
    (joinSlash L).length + 1 = (L.map (fun e => e.length + 1)).sum := by
  induction L with
  | nil => exact absurd rfl h
  | cons a L ih =>
    cases L with
    | nil => simp [joinSlash_singleton]
    | cons b L =>
      rw [joinSlash_cons_cons]
      have := ih (by simp)
      simp only [List.map_cons, List.sum_cons, List.length_append, List.length_cons] at this ⊢
      omega

/-- Splitting distributes over a separator. -/
theorem splitSlash_append_slash (a b : GoString) :
    splitSlash (a ++ '/' :: b) = splitSlash a ++ splitSlash b := by
  induction a with
  | nil => simp [splitSlash]
  | cons c a ih =>
    by_cases hc : c = '/'
    · subst hc
      simp only [List.cons_append, splitSlash_cons_slash, ih]
    · simp only [List.cons_append]
      rw [splitSlash_cons_of_ne c _ hc, splitSlash_cons_of_ne c _ hc, ih]
      obtain ⟨x, L, hL⟩ := List.exists_cons_of_ne_nil (splitSlash_ne_nil a)
      rw [hL]
      simp

/-- The weight of the output of Clean and the empty elements dropped do not
exceed the weight of the input. -/
theorem weight_foldl_cleanStep (rooted : Bool) (L : List GoString) :
    ∀ st : List GoString,
      ((L.foldl (cleanStep rooted) st).map (fun e => e.length + 1)).sum + L.count []
        ≤ (st.map (fun e => e.length + 1)).sum + (L.map (fun e => e.length + 1)).sum := by
  induction L with
  | nil => intro st; simp
  | cons e L ih =>
    intro st
    simp only [List.foldl_cons, List.map_cons, List.sum_cons]
    have h := ih (cleanStep rooted st e)
    have hstep : ((cleanStep rooted st e).map (fun e => e.length + 1)).sum
        + (if e = [] then 1 else 0)
        ≤ (st.map (fun e => e.length + 1)).sum + (e.length + 1) := by
      unfold cleanStep
      by_cases h1 : e = []
      · simp [h1]
      · by_cases h2 : e = dot
        · simp [h2, dot]
        · by_cases h3 : e = dotdot
          · subst h3
            simp only [h1, h2, or_self, if_false, if_true]
            cases st with
            | nil => cases rooted <;> simp [dotdot]
            | cons top rest =>
              by_cases h4 : top = dotdot
              · simp [h4]; omega
              · simp only [h4, if_false, List.map_cons, List.sum_cons]; omega
          · simp [h1, h2, h3]
            omega
    have hcount : (e :: L).count [] = L.count [] + (if e = [] then 1 else 0) := by
      rw [List.count_cons]
      by_cases h1 : e = []
      · simp [h1]
      · simp [h1]
    omega

theorem weight_cleanElems (rooted : Bool) (s : GoString) :
    ((cleanElems rooted (splitSlash s)).map (fun e => e.length + 1)).sum
      + (splitSlash s).count [] ≤ s.length + 1 := by
  have h := weight_foldl_cleanStep rooted (splitSlash s) []
  rw [weight_splitSlash] at h
  unfold cleanElems
  rw [List.map_reverse, List.sum_reverse]
  simpa using h

/-- A text that ends in a separator has an empty last element; a rooted one has
an empty first element as well. -/
theorem count_empty_of_suffix (y : GoString) :
    1 ≤ (splitSlash (y ++ ['/'])).count [] ∧
    (HasPrefix (y ++ ['/']) slash = true → 2 ≤ (splitSlash (y ++ ['/'])).count []) := by
  have h1 : splitSlash (y ++ ['/']) = splitSlash y ++ [[]] := by
    rw [splitSlash_append_slash]; rfl
  constructor
  · rw [h1, List.count_append]; simp
  · intro hp
    cases y with
    | nil => decide
    | cons c y =>
      have hc : c = '/' := by
        obtain ⟨r, hr⟩ := (hasPrefix_iff _ _).mp hp
        simp only [slash, List.cons_append, List.nil_append, List.cons.injEq] at hr
        exact hr.1.symm
      subst hc
      rw [h1, splitSlash_cons_slash, List.count_append]
      simp

/-- Cleaning a text that ends in a separator gives "/" or a shorter text. -/
theorem clean_of_suffix_slash (y : GoString) :
    Clean (y ++ ['/']) = slash ∨ (Clean (y ++ ['/'])).length < (y ++ ['/']).length := by
  have hw := weight_cleanElems (HasPrefix (y ++ ['/']) slash) (y ++ ['/'])
  have hc := count_empty_of_suffix y
  unfold Clean
  rw [if_neg (by simp)]
  by_cases hr : HasPrefix (y ++ ['/']) slash = true
  · simp only [hr, if_true] at hw ⊢
    have h2 := hc.2 hr
    by_cases ho : cleanElems true (splitSlash (y ++ ['/'])) = []
    · left; rw [ho]; rfl
    · right
      have hl := length_joinSlash _ ho
      simp only [List.length_cons]
      omega
  · have hr' : HasPrefix (y ++ ['/']) slash = false := by simpa using hr
    simp only [hr', Bool.false_eq_true, if_false] at hw ⊢
    have h1 := hc.1
    by_cases ho : cleanElems false (splitSlash (y ++ ['/'])) = []
    · right
      rw [if_pos ho]
      cases y with
      | nil => simp [HasPrefix, slash] at hr'
      | cons c y => simp [dot]
    · right
      rw [if_neg ho]
      have hl := length_joinSlash _ ho
      omega

/-- The part of a path before its last element is empty or ends in a separator,
and is no longer than the path. -/
theorem dirPart_cases (d : GoString) :
    (dirPart d = [] ∨ ∃ y, dirPart d = y ++ ['/']) ∧ (dirPart d).length ≤ d.length := by
  unfold dirPart
  constructor
  · have h := List.head?_dropWhile_not (fun c => c != '/') d.reverse
    cases hd : d.reverse.dropWhile (fun c => c != '/') with
    | nil => left; rfl
    | cons c r =>
      right
      rw [hd] at h
      simp only [List.head?_cons, bne_eq_false_iff_eq] at h
      exact ⟨r.reverse, by simp [h]⟩
  · rw [List.length_reverse]
    have := (List.dropWhile_suffix (fun c => c != '/') (l := d.reverse)).length_le
    simpa using this

theorem dir_dot : Dir dot = dot := by decide

theorem dir_slash : Dir slash = slash := by decide

/-- One step up either reaches a directory that is its own parent or gives a
shorter path. -/
theorem dir_fix_or_shorter (d : GoString) :
    Dir (Dir d) = Dir d ∨ (Dir d).length < d.length := by
  obtain ⟨hc, hl⟩ := dirPart_cases d
  rcases hc with h | ⟨y, hy⟩
  · left
    have : Dir d = dot := by unfold Dir; rw [h]; rfl
    rw [this, dir_dot]
  · unfold Dir at *
    rw [hy] at hl ⊢
    rcases clean_of_suffix_slash y with h | h
    · left; rw [h]; exact dir_slash
    · right; omega

/-! ## rootDir -/

/-- When the marker is not seen from the working directory the loop of rootDir
ends with ErrNoRootDir, whatever bound it is given from `len(dir) + 3` on. -/
theorem rootDirLoop_no_marker (w : World) (hs : ∀ n, Stat w dotGong ≠ .ok n) :
    ∀ (k : Nat) (dir lastdir : GoString) (n : Nat), dir.length ≤ k → dir.length + 3 ≤ n →
      rootDirLoop w n dir lastdir = some (.error .ErrNoRootDir) := by
  have hstat : ∀ (n : Nat) (dir lastdir : GoString), lastdir ≠ dir →
      rootDirLoop w (n + 1) dir lastdir = rootDirLoop w n (Dir dir) dir := by
    intro n dir lastdir hne
    conv_lhs => unfold rootDirLoop
    rw [if_pos hne]
    cases h : Stat w dotGong with
    | ok nd => exact absurd h (hs nd)
    | error e => rfl
  have hstop : ∀ (n : Nat) (dir : GoString),
      rootDirLoop w (n + 1) dir dir = some (.error .ErrNoRootDir) := by
    intro n dir
    unfold rootDirLoop
    simp
  intro k
  induction k with
  | zero =>
    intro dir lastdir n hk hn
    obtain ⟨m, rfl⟩ : ∃ m, n = m + 3 := ⟨n - 3, by omega⟩
    by_cases h0 : lastdir = dir
    · subst h0; exact hstop _ _
    · rw [hstat _ _ _ h0]
      rcases dir_fix_or_shorter dir with hf | hlt
      · by_cases h1 : dir = Dir dir
        · rw [← h1]; exact hstop _ _
        · rw [hstat _ _ _ h1, hf]; exact hstop _ _
      · omega
  | succ k ih =>
    intro dir lastdir n hk hn
    obtain ⟨m, rfl⟩ : ∃ m, n = m + 3 := ⟨n - 3, by omega⟩
    by_cases h0 : lastdir = dir
    · subst h0; exact hstop _ _
    · rw [hstat _ _ _ h0]
      rcases dir_fix_or_shorter dir with hf | hlt
      · by_cases h1 : dir = Dir dir
        · rw [← h1]; exact hstop _ _
        · rw [hstat _ _ _ h1, hf]; exact hstop _ _
      · exact ih _ _ _ (by omega) (by omega)

/-- When the marker is seen from the working directory the loop of rootDir
returns the directory it starts with. -/
theorem rootDirLoop_marker (w : World) (nd : Node) (hs : Stat w dotGong = .ok nd)
    (n : Nat) (dir lastdir : GoString) (hne : lastdir ≠ dir) :
    rootDirLoop w (n + 1) dir lastdir = some (.ok dir) := by
  unfold rootDirLoop
  rw [if_pos hne, hs]

/-- The function rootDir in closed form: only the working directory is looked at. -/
theorem rootDir_eq (w : World) :
    rootDir w =
      match w.cwd with
      | .error e => some (.error (.getwd e))
      | .ok dir =>
        match Stat w dotGong with
        | .ok _ => if dir = [] then some (.error .ErrNoRootDir) else some (.ok dir)
        | .error _ => some (.error .ErrNoRootDir) := by
  unfold rootDir
  cases hc : w.cwd with
  | error e => rfl
  | ok dir =>
    simp only
    cases hs : Stat w dotGong with
    | ok nd =>
      simp only
      by_cases hd : dir = []
      · subst hd
        rw [if_pos rfl]
        unfold rootDirLoop
        simp
      · rw [if_neg hd]
        exact rootDirLoop_marker w nd hs _ dir [] (fun h => hd h.symm)
    | error e =>
      simp only
      exact rootDirLoop_no_marker w (by intro n; rw [hs]; simp) dir.length dir [] _
        (le_refl _) (le_refl _)

/-- The bound in rootDir is never reached: any larger bound gives the same result. -/
theorem rootDirFuel_stable (w : World) (dir : GoString) (hc : w.cwd = .ok dir) (n : Nat)
    (hn : dir.length + 3 ≤ n) : rootDirFuel n w = rootDir w := by
  rw [rootDir_eq]
  unfold rootDirFuel
  rw [hc]
  simp only
  obtain ⟨m, rfl⟩ : ∃ m, n = m + 1 := ⟨n - 1, by omega⟩
  cases hs : Stat w dotGong with
  | ok nd =>
    simp only
    by_cases hd : dir = []
    · subst hd
      rw [if_pos rfl]
      unfold rootDirLoop
      simp
    · rw [if_neg hd]
      exact rootDirLoop_marker w nd hs _ dir [] (fun h => hd h.symm)
  | error e =>
    simp only
    exact rootDirLoop_no_marker w (by intro n; rw [hs]; simp) dir.length dir [] _
      (le_refl _) hn

/-! ## Claims on rootDir (C1, C7) and on the early return of setup (C8) -/

/-- A relative name is looked up below the working directory: for an absolute
working directory the relative name and the joined path resolve alike. -/
theorem stat_relative (w : World) (cwd name : GoString) (hcwd : w.cwd = .ok cwd)
    (habs : HasPrefix cwd slash = true) (hn : name ≠ []) (hrel : HasPrefix name slash = false) :
    Stat w name = Stat w (cwd ++ '/' :: name) := by
  have h1 : resolve w true name = resolve w true (cwd ++ '/' :: name) := by
    have h2 : HasPrefix (cwd ++ '/' :: name) slash = true := by
      obtain ⟨r, hr⟩ := (hasPrefix_iff _ _).mp habs
      rw [hasPrefix_iff]
      exact ⟨r ++ '/' :: name, by rw [← hr]; simp⟩
    have h3 : cwd ++ '/' :: name ≠ [] := by simp
    unfold resolve
    simp only [hn, h3, hrel, h2, hcwd, Bool.false_eq_true, if_false, if_true]
    rw [splitSlash_append_slash]
  unfold Stat
  rw [h1]

/-- The parent walk reaches a directory that is its own parent. -/
theorem dir_iterate_fix (k : Nat) :
    ∀ d : GoString, d.length ≤ k → ∃ j, j ≤ d.length + 1 ∧ Dir (Dir^[j] d) = Dir^[j] d := by
  induction k with
  | zero =>
    intro d hd
    rcases dir_fix_or_shorter d with h | h
    · exact ⟨1, by omega, by simpa using h⟩
    · omega
  | succ k ih =>
    intro d hd
    rcases dir_fix_or_shorter d with h | h
    · exact ⟨1, by omega, by simpa using h⟩
    · obtain ⟨j, hj, hfix⟩ := ih (Dir d) (by omega)
      exact ⟨j + 1, by omega, by simpa [Function.iterate_succ_apply] using hfix⟩

/-- C1 fails on the code: with working directory /a/b and the marker in /a
only, the nearest directory with the marker is the parent /a, and rootDir
returns ErrNoRootDir, because the loop looks up the relative name ".gong" in
every iteration while `dir` goes up. -/
theorem C1_rootDir_marker_in_parent :
    worldAncestor.cwd = .ok ['/', 'a', '/', 'b'] ∧
    hasMarker worldAncestor ['/', 'a', '/', 'b'] = false ∧
    Dir ['/', 'a', '/', 'b'] = ['/', 'a'] ∧
    hasMarker worldAncestor ['/', 'a'] = true ∧
    rootDir worldAncestor = some (.error .ErrNoRootDir) ∧
    rootDir worldAncestor ≠ some (.ok ['/', 'a']) := by
  decide

/-- C7: when neither the working directory nor any of its ancestors holds the
marker, the parent walk reaches a directory that is its own parent and rootDir
ends with the error ErrNoRootDir, for every bound on the loop from
`len(cwd) + 3` on.  The function only reads the world. -/
theorem C7_rootDir_no_marker (w : World) (cwd : GoString) (hcwd : w.cwd = .ok cwd)
    (habs : HasPrefix cwd slash = true)
    (hno : ∀ k : Nat, hasMarker w (Dir^[k] cwd) = false) :
    (∃ j, j ≤ cwd.length + 1 ∧ Dir (Dir^[j] cwd) = Dir^[j] cwd) ∧
    rootDir w = some (.error .ErrNoRootDir) ∧
    (∀ n, cwd.length + 3 ≤ n → rootDirFuel n w = some (.error .ErrNoRootDir)) := by
  have hs : ∀ nd, Stat w dotGong ≠ .ok nd := by
    intro nd h
    have h0 := hno 0
    rw [stat_relative w cwd dotGong hcwd habs (by decide) (by decide)] at h
    simp only [Function.iterate_zero, id_eq, hasMarker, h] at h0
    exact Bool.noConfusion h0
  have hr : rootDir w = some (.error .ErrNoRootDir) := by
    rw [rootDir_eq, hcwd]
    simp only
    cases h : Stat w dotGong with
    | ok nd => exact absurd h (hs nd)
    | error e => rfl
  refine ⟨dir_iterate_fix cwd.length cwd (le_refl _), hr, ?_⟩
  intro n hn
  rw [rootDirFuel_stable w cwd hcwd n hn, hr]

theorem dir_iterate_bare (k : Nat) : Dir^[k + 2] ['/', 'a', '/', 'b'] = slash := by
  induction k with
  | zero => decide
  | succ k ih => rw [Function.iterate_succ_apply', ih]; decide

/-- C7 at the working directory /a/b of a tree without marker. -/
theorem C7_rootDir_no_marker_witness :
    rootDir worldBare = some (.error .ErrNoRootDir) :=
  (C7_rootDir_no_marker worldBare ['/', 'a', '/', 'b'] rfl (by decide)
    (fun k =>
      match k with
      | 0 => by decide
      | 1 => by decide
      | k + 2 => by rw [dir_iterate_bare k]; decide)).2.1

/-- With the marker in the working directory setup(false) returns at once and
leaves the world as it is. -/
theorem setup_false_marker_in_cwd (w : World) (cwd : GoString) (hcwd : w.cwd = .ok cwd)
    (habs : HasPrefix cwd slash = true) (hm : hasMarker w cwd = true) :
    rootDir w = some (.ok cwd) ∧ setup false w = .ret () w := by
  have hne : cwd ≠ [] := by
    intro h; subst h; exact Bool.noConfusion habs
  have hr : rootDir w = some (.ok cwd) := by
    rw [rootDir_eq, hcwd]
    simp only
    rw [stat_relative w cwd dotGong hcwd habs (by decide) (by decide)]
    unfold hasMarker at hm
    cases h : Stat w (cwd ++ '/' :: dotGong) with
    | ok nd => simp [hne]
    | error e => rw [h] at hm; exact Bool.noConfusion hm
  refine ⟨hr, ?_⟩
  unfold setup
  rw [hr]
  rfl

/-- C8 fails on the code: with working directory /a/b and the marker in the
ancestor /a (a project root exists for the working directory), setup(false)
does not return at once: it creates the marker /a/b/.gong and the workspace
below /a/b and reads the line on standard input.  A second call then changes
nothing. -/
theorem C8_setup_marker_in_parent :
    hasMarker worldAncestor ['/', 'a'] = true ∧
    worldAncestor.fs [['a'], ['b'], dotGong] = none ∧
    (setup false worldAncestor).world.fs [['a'], ['b'], dotGong] = some (.file []) ∧
    (setup false worldAncestor).world.fs [['a'], ['b'], dotGongDeps, srcName] = some .dir ∧
    worldAncestor.stdin = [.line ['x', '/', 'y']] ∧
    (setup false worldAncestor).world.stdin = [] ∧
    (setup false (setup false worldAncestor).world).value = some () ∧
    (setup false (setup false worldAncestor).world).world.out
      = (setup false worldAncestor).world.out := by
  decide

/-! ## Paths as lists of elements -/

theorem not_mem_slash_of_mem_splitSlash (s : GoString) :
    ∀ e ∈ splitSlash s, '/' ∉ e := by
  induction s with
  | nil => intro e he; simp [splitSlash] at he; simp [he]
  | cons c s ih =>
    intro e he
    by_cases hc : c = '/'
    · subst hc
      rw [splitSlash_cons_slash] at he
      rcases List.mem_cons.mp he with h | h
      · simp [h]
      · exact ih e h
    · rw [splitSlash_cons_of_ne c s hc] at he
      obtain ⟨a, L, hL⟩ := List.exists_cons_of_ne_nil (splitSlash_ne_nil s)
      rw [hL] at he ih
      simp only [List.headD_cons, List.tail_cons] at he
      rcases List.mem_cons.mp he with h | h
      · subst h
        have := ih a (List.mem_cons_self _ _)
        simp only [List.mem_cons, not_or]
        exact ⟨fun h => hc h.symm, this⟩
      · exact ih e (List.mem_cons_of_mem _ h)

theorem splitSlash_of_no_slash (e : GoString) (h : '/' ∉ e) : splitSlash e = [e] := by
  induction e with
  | nil => rfl
  | cons c e ih =>
    simp only [List.mem_cons, not_or] at h
    rw [splitSlash_cons_of_ne c e (fun hc => h.1 hc.symm), ih h.2]
    rfl

/-- Splitting a joined list gives the elements split one by one. -/
theorem splitSlash_joinSlash_flatMap (L : List GoString) (hne : L ≠ []) :
    splitSlash (joinSlash L) = L.flatMap splitSlash := by
  induction L with
  | nil => exact absurd rfl hne
  | cons a L ih =>
    cases L with
    | nil => simp [joinSlash_singleton]
    | cons b L =>
      rw [joinSlash_cons_cons, splitSlash_append_slash, ih (by simp)]
      simp [List.flatMap_cons]

theorem flatMap_splitSlash_of_no_slash (L : List GoString) (h : ∀ e ∈ L, '/' ∉ e) :
    L.flatMap splitSlash = L := by
  induction L with
  | nil => rfl
  | cons a L ih =>
    rw [List.flatMap_cons, splitSlash_of_no_slash a (h a (List.mem_cons_self _ _)),
      ih (fun e he => h e (List.mem_cons_of_mem _ he))]
    rfl

/-- Joining elements without separators and splitting again gives the elements back. -/
theorem splitSlash_joinSlash (L : List GoString) (hne : L ≠ []) (h : ∀ e ∈ L, '/' ∉ e) :
    splitSlash (joinSlash L) = L := by
  rw [splitSlash_joinSlash_flatMap L hne, flatMap_splitSlash_of_no_slash L h]

theorem joinSlash_append (A B : List GoString) (hA : A ≠ []) (hB : B ≠ []) :
    joinSlash (A ++ B) = joinSlash A ++ '/' :: joinSlash B := by
  induction A with
  | nil => exact absurd rfl hA
  | cons a A ih =>
    cases A with
    | nil =>
      obtain ⟨b, B', rfl⟩ := List.exists_cons_of_ne_nil hB
      simp [joinSlash_cons_cons, joinSlash_singleton]
    | cons a' A =>
      have := ih (by simp)
      simp only [List.cons_append] at this ⊢
      rw [joinSlash_cons_cons, this, joinSlash_cons_cons]
      simp

theorem hasPrefix_absPath (L : List GoString) : HasPrefix (absPath L) slash = true := by
  rw [hasPrefix_iff]
  exact ⟨joinSlash L, rfl⟩

theorem absPath_ne_nil (L : List GoString) : absPath L ≠ [] := by
  simp [absPath]

/-! ### Clean on lists of elements -/

theorem cleanStep_ordinary (rooted : Bool) (st : List GoString) (e : GoString)
    (h : ordinary e) : cleanStep rooted st e = e :: st := by
  unfold cleanStep
  simp [h.1, h.2.1, h.2.2.1]

theorem cleanStep_empty (rooted : Bool) (st : List GoString) : cleanStep rooted st [] = st := by
  simp [cleanStep]

theorem cleanStep_dotdot_pop (rooted : Bool) (top : GoString) (st : List GoString)
    (h : top ≠ dotdot) : cleanStep rooted (top :: st) dotdot = st := by
  unfold cleanStep
  rw [if_neg (by decide), if_pos rfl]
  simp [h]

theorem foldl_cleanStep_ordinary (rooted : Bool) (B : List GoString) :
    ∀ st : List GoString, (∀ e ∈ B, ordinary e) →
      B.foldl (cleanStep rooted) st = B.reverse ++ st := by
  induction B with
  | nil => intro st _; rfl
  | cons b B ih =>
    intro st h
    rw [List.foldl_cons, cleanStep_ordinary rooted st b (h b (List.mem_cons_self _ _)),
      ih _ (fun e he => h e (List.mem_cons_of_mem _ he))]
    simp

/-- As many ".." elements as there are ordinary elements on the stack remove them all. -/
theorem foldl_cleanStep_dotdots (rooted : Bool) (A : List GoString) :
    ∀ st : List GoString, (∀ e ∈ A, ordinary e) →
      (List.replicate A.length dotdot).foldl (cleanStep rooted) (A ++ st) = st := by
  induction A with
  | nil => intro st _; rfl
  | cons a A ih =>
    intro st h
    simp only [List.length_cons, List.replicate_succ, List.foldl_cons, List.cons_append]
    rw [cleanStep_dotdot_pop rooted a _ (h a (List.mem_cons_self _ _)).2.2.1]
    exact ih st (fun e he => h e (List.mem_cons_of_mem _ he))

/-- The elements Clean keeps for a rooted path are ordinary. -/
theorem foldl_cleanStep_rooted_ordinary (X : List GoString) :
    ∀ st : List GoString, (∀ e ∈ st, ordinary e) → (∀ e ∈ X, '/' ∉ e) →
      ∀ e ∈ X.foldl (cleanStep true) st, ordinary e := by
  induction X with
  | nil => intro st hst _; exact hst
  | cons x X ih =>
    intro st hst hX
    rw [List.foldl_cons]
    apply ih _ _ (fun e he => hX e (List.mem_cons_of_mem _ he))
    intro e he
    unfold cleanStep at he
    by_cases h1 : x = [] ∨ x = dot
    · rw [if_pos h1] at he; exact hst e he
    · rw [if_neg h1] at he
      by_cases h2 : x = dotdot
      · rw [if_pos h2] at he
        cases st with
        | nil => simp at he
        | cons top rest =>
          have htop := (hst top (List.mem_cons_self _ _)).2.2.1
          simp only [htop, if_false] at he
          exact hst e (List.mem_cons_of_mem _ he)
      · rw [if_neg h2] at he
        rcases List.mem_cons.mp he with h | h
        · subst h
          simp only [not_or] at h1
          exact ⟨h1.1, h1.2, h2, hX e (List.mem_cons_self _ _)⟩
        · exact hst e h

/-- The elements Clean keeps are never empty. -/
theorem foldl_cleanStep_ne_nil (rooted : Bool) (X : List GoString) :
    ∀ st : List GoString, (∀ e ∈ st, e ≠ []) →
      ∀ e ∈ X.foldl (cleanStep rooted) st, e ≠ [] := by
  induction X with
  | nil => intro st hst; exact hst
  | cons x X ih =>
    intro st hst
    rw [List.foldl_cons]
    apply ih
    intro e he
    unfold cleanStep at he
    by_cases h1 : x = [] ∨ x = dot
    · rw [if_pos h1] at he; exact hst e he
    · rw [if_neg h1] at he
      by_cases h2 : x = dotdot
      · rw [if_pos h2] at he
        cases st with
        | nil =>
          cases rooted
          · simp at he; subst he; decide
          · simp at he
        | cons top rest =>
          by_cases h3 : top = dotdot
          · simp only [h3, if_true] at he
            rcases List.mem_cons.mp he with h | h
            · subst h; decide
            · rw [← h3] at h; exact hst e h
          · simp only [h3, if_false] at he
            exact hst e (List.mem_cons_of_mem _ he)
      · rw [if_neg h2] at he
        rcases List.mem_cons.mp he with h | h
        · subst h
          simp only [not_or] at h1
          exact h1.1
        · exact hst e h

/-- A joined list of non-empty elements is not empty. -/
theorem joinSlash_ne_nil (L : List GoString) (hne : L ≠ []) (h : ∀ e ∈ L, e ≠ []) :
    joinSlash L ≠ [] := by
  obtain ⟨a, L', rfl⟩ := List.exists_cons_of_ne_nil hne
  cases L' with
  | nil => rw [joinSlash_singleton]; exact h a (List.mem_cons_self _ _)
  | cons b L' => rw [joinSlash_cons_cons]; simp

/-- Clean never returns the empty string. -/
theorem clean_ne_nil (x : GoString) : Clean x ≠ [] := by
  unfold Clean
  by_cases h0 : x = []
  · rw [if_pos h0]; decide
  · rw [if_neg h0]
    by_cases hr : HasPrefix x slash = true
    · simp [hr]
    · simp only [hr, Bool.false_eq_true, if_false]
      split
      · decide
      · rename_i ho
        apply joinSlash_ne_nil _ ho
        intro e he
        unfold cleanElems at he
        rw [List.mem_reverse] at he
        exact foldl_cleanStep_ne_nil false _ [] (by simp) e he

/-- Clean of a rooted text, by elements. -/
theorem clean_rooted (x : GoString) (h : HasPrefix x slash = true) :
    Clean x = absPath (cleanElems true (splitSlash x)) := by
  unfold Clean
  have h0 : x ≠ [] := by intro h0; subst h0; exact Bool.noConfusion h
  rw [if_neg h0]
  simp [h, absPath]

/-- The elements of an absolute path text, as Clean sees them. -/
theorem foldl_cleanStep_absPath (rc : List GoString) (hrc : ∀ e ∈ rc, ordinary e)
    (st : List GoString) :
    (splitSlash (absPath rc)).foldl (cleanStep true) st = rc.reverse ++ st := by
  unfold absPath
  rw [splitSlash_cons_slash, List.foldl_cons, cleanStep_empty]
  by_cases h : rc = []
  · subst h
    simp [joinSlash_nil, splitSlash, cleanStep_empty]
  · rw [splitSlash_joinSlash rc h (fun e he => (hrc e he).2.2.2)]
    exact foldl_cleanStep_ordinary true rc st hrc

theorem clean_absPath (rc : List GoString) (hrc : ∀ e ∈ rc, ordinary e) :
    Clean (absPath rc) = absPath rc := by
  rw [clean_rooted _ (hasPrefix_absPath rc)]
  unfold cleanElems
  rw [foldl_cleanStep_absPath rc hrc]
  simp

/-- A clean absolute path is the absolute path of its ordinary elements. -/
theorem absPath_of_clean (R : GoString) (habs : HasPrefix R slash = true) (hc : Clean R = R) :
    R = absPath (cleanElems true (splitSlash R)) ∧
    ∀ e ∈ cleanElems true (splitSlash R), ordinary e := by
  constructor
  · rw [← clean_rooted R habs, hc]
  · intro e he
    unfold cleanElems at he
    rw [List.mem_reverse] at he
    exact foldl_cleanStep_rooted_ordinary _ [] (by simp)
      (not_mem_slash_of_mem_splitSlash R) e he

/-- Join of an absolute first element, by elements. -/
theorem join_rooted (A : GoString) (rest : List GoString) (h : HasPrefix A slash = true) :
    Join (A :: rest) = absPath (cleanElems true ((A :: rest).flatMap splitSlash)) := by
  have h0 : A ≠ [] := by intro h0; subst h0; exact Bool.noConfusion h
  have hJ : Join (A :: rest) = Clean (joinSlash (A :: rest)) := by
    unfold Join
    have : (A :: rest).dropWhile (fun e => e.isEmpty) = A :: rest := by
      rw [List.dropWhile_cons_of_neg]
      simpa using h0
    rw [this]
  have hp : HasPrefix (joinSlash (A :: rest)) slash = true := by
    obtain ⟨r, hr⟩ := (hasPrefix_iff _ _).mp h
    rw [hasPrefix_iff]
    cases rest with
    | nil => rw [joinSlash_singleton]; exact ⟨r, hr⟩
    | cons b L =>
      rw [joinSlash_cons_cons, ← hr]
      exact ⟨r ++ '/' :: joinSlash (b :: L), by simp⟩
  rw [hJ, clean_rooted _ hp, splitSlash_joinSlash_flatMap _ (by simp)]

/-- Join of an absolute path with ordinary names and one more path text. -/
theorem join_absPath (rc names : List GoString) (x : GoString)
    (hrc : ∀ e ∈ rc, ordinary e) (hn : ∀ e ∈ names, ordinary e) :
    Join (absPath rc :: (names ++ [x]))
      = absPath (((splitSlash x).foldl (cleanStep true) (names.reverse ++ rc.reverse)).reverse) := by
  rw [join_rooted _ _ (hasPrefix_absPath rc)]
  unfold cleanElems
  rw [List.flatMap_cons, List.flatMap_append, List.foldl_append, List.foldl_append,
    foldl_cleanStep_absPath rc hrc,
    flatMap_splitSlash_of_no_slash names (fun e he => (hn e he).2.2.2),
    foldl_cleanStep_ordinary true names _ hn]
  simp

/-- Join of an absolute path with ordinary names. -/
theorem join_absPath_names (rc names : List GoString)
    (hrc : ∀ e ∈ rc, ordinary e) (hn : ∀ e ∈ names, ordinary e) :
    Join (absPath rc :: names) = absPath (rc ++ names) := by
  rw [join_rooted _ _ (hasPrefix_absPath rc)]
  unfold cleanElems
  rw [List.flatMap_cons, List.foldl_append, foldl_cleanStep_absPath rc hrc,
    flatMap_splitSlash_of_no_slash names (fun e he => (hn e he).2.2.2),
    foldl_cleanStep_ordinary true names _ hn]
  simp

/-! ## Dir and Rel on lists of elements -/

theorem joinSlash_concat (init : List GoString) (last : GoString) (hi : init ≠ []) :
    joinSlash (init ++ [last]) = joinSlash init ++ '/' :: last := by
  rw [joinSlash_append init [last] hi (by simp), joinSlash_singleton]

theorem dirPart_of_no_slash (last : GoString) (hl : '/' ∉ last) : dirPart last = [] := by
  unfold dirPart
  rw [List.reverse_eq_nil_iff, List.dropWhile_eq_nil_iff]
  intro c hc
  rw [List.mem_reverse] at hc
  simp only [bne_iff_ne, ne_eq]
  intro h; subst h; exact hl hc

theorem dirPart_append_slash (a last : GoString) (hl : '/' ∉ last) :
    dirPart (a ++ '/' :: last) = a ++ ['/'] := by
  unfold dirPart
  have h1 : (a ++ '/' :: last).reverse = last.reverse ++ '/' :: a.reverse := by simp
  rw [h1, List.dropWhile_append_of_pos, List.dropWhile_cons_of_neg (by simp)]
  · simp
  · intro c hc
    rw [List.mem_reverse] at hc
    simp only [bne_iff_ne, ne_eq]
    intro h; subst h; exact hl hc

/-- Dir of an absolute path drops the last element. -/
theorem dir_absPath (L : List GoString) (last : GoString) (hL : ∀ e ∈ L, ordinary e)
    (hl : '/' ∉ last) : Dir (absPath (L ++ [last])) = absPath L := by
  unfold Dir
  have h1 : absPath (L ++ [last]) = absPath L ++ (if L = [] then last else '/' :: last) := by
    by_cases h : L = []
    · subst h; simp [absPath, joinSlash_singleton, joinSlash_nil]
    · simp only [absPath, h, if_false]
      rw [joinSlash_concat L last h]; simp
  have h2 : dirPart (absPath (L ++ [last])) = absPath L ++ (if L = [] then [] else ['/']) := by
    by_cases h : L = []
    · subst h
      have : absPath ([] ++ [last]) = [] ++ '/' :: last := by
        simp [absPath, joinSlash_singleton]
      rw [this, dirPart_append_slash [] last hl]; rfl
    · rw [h1]
      simp only [h, if_false]
      exact dirPart_append_slash _ last hl
  rw [h2]
  have hp : HasPrefix (absPath L ++ (if L = [] then [] else ['/'])) slash = true := by
    rw [hasPrefix_iff]; exact ⟨joinSlash L ++ (if L = [] then [] else ['/']), rfl⟩
  rw [clean_rooted _ hp]
  congr 1
  unfold cleanElems
  by_cases h : L = []
  · subst h; decide
  · simp only [h, if_false]
    have : absPath L ++ ['/'] = absPath L ++ '/' :: [] := rfl
    rw [this, splitSlash_append_slash, List.foldl_append, foldl_cleanStep_absPath L hL]
    simp [splitSlash, cleanStep_empty]

/-- Dir of a relative path of ordinary elements: the elements before the last,
as Clean sees them in a later Join. -/
theorem foldl_cleanStep_dir (init : List GoString) (last : GoString)
    (hi : ∀ e ∈ init, ordinary e) (hl : '/' ∉ last) (st : List GoString) :
    (splitSlash (Dir (joinSlash (init ++ [last])))).foldl (cleanStep true) st
      = init.reverse ++ st := by
  unfold Dir
  by_cases h : init = []
  · subst h
    simp only [List.nil_append, joinSlash_singleton]
    rw [dirPart_of_no_slash last hl]
    simp [Clean, dot, splitSlash, cleanStep]
  · rw [joinSlash_concat init last h, dirPart_append_slash _ last hl]
    obtain ⟨a, init', rfl⟩ := List.exists_cons_of_ne_nil h
    have ha := hi a (List.mem_cons_self _ _)
    obtain ⟨c, a', rfl⟩ := List.exists_cons_of_ne_nil ha.1
    have hc : c ≠ '/' := by
      intro hc; subst hc; exact ha.2.2.2 (List.mem_cons_self _ _)
    have hnr : HasPrefix (joinSlash ((c :: a') :: init') ++ ['/']) slash = false := by
      cases init' with
      | nil => simp [joinSlash_singleton, HasPrefix, slash, List.isPrefixOf, Ne.symm hc]
      | cons b L => simp [joinSlash_cons_cons, HasPrefix, slash, List.isPrefixOf, Ne.symm hc]
    have hsplit : splitSlash (joinSlash ((c :: a') :: init') ++ ['/'])
        = ((c :: a') :: init') ++ [[]] := by
      have : joinSlash ((c :: a') :: init') ++ ['/']
          = joinSlash ((c :: a') :: init') ++ '/' :: [] := rfl
      rw [this, splitSlash_append_slash,
        splitSlash_joinSlash _ (by simp) (fun e he => (hi e he).2.2.2)]
      rfl
    have hce : cleanElems false (((c :: a') :: init') ++ [[]]) = (c :: a') :: init' := by
      unfold cleanElems
      rw [List.foldl_append, foldl_cleanStep_ordinary false _ _ hi]
      simp [cleanStep_empty]
    unfold Clean
    rw [if_neg (by simp)]
    simp only [hnr, Bool.false_eq_true, if_false, hsplit, hce]
    rw [if_neg (by simp), splitSlash_joinSlash _ (by simp) (fun e he => (hi e he).2.2.2)]
    exact foldl_cleanStep_ordinary true _ st hi

theorem relLoop_nil_right (n : Nat) (b : GoString) : relLoop n b [] = (b, [], []) := by
  cases n with
  | zero => rfl
  | succ n => simp [relLoop]

theorem takeWhile_no_slash (c rest : GoString) (hc : '/' ∉ c) :
    (c ++ '/' :: rest).takeWhile (fun x => x != '/') = c := by
  rw [List.takeWhile_append_of_pos]
  · simp
  · intro x hx
    simp only [bne_iff_ne, ne_eq]
    intro h; subst h; exact hc hx

theorem takeWhile_no_slash_self (c : GoString) (hc : '/' ∉ c) :
    c.takeWhile (fun x => x != '/') = c := by
  rw [List.takeWhile_eq_self_iff]
  intro x hx
  simp only [bne_iff_ne, ne_eq]
  intro h; subst h; exact hc hx

/-- An element common to both texts is skipped. -/
theorem relLoop_step (n : Nat) (c b t : GoString) (hc : '/' ∉ c) :
    relLoop (n + 1) (c ++ '/' :: b) (c ++ '/' :: t) = relLoop n b t := by
  conv_lhs => unfold relLoop
  rw [if_pos (by simp), takeWhile_no_slash c b hc, takeWhile_no_slash c t hc]
  simp

/-- The last element of the target is skipped and the loop ends. -/
theorem relLoop_last (n : Nat) (c b : GoString) (hc : '/' ∉ c) (hne : c ≠ []) :
    relLoop (n + 1) (c ++ '/' :: b) c = (b, [], []) := by
  conv_lhs => unfold relLoop
  rw [if_pos (by simp [hne]), takeWhile_no_slash c b hc, takeWhile_no_slash_self c hc]
  have hd : List.drop (c.length + 1) c = [] := List.drop_eq_nil_of_le (by omega)
  simp [hd, relLoop_nil_right]

theorem relLoop_common (B : List GoString) (hB : B ≠ []) :
    ∀ (rc : List GoString) (n : Nat), (∀ e ∈ rc, ordinary e) → rc.length ≤ n →
      relLoop n (joinSlash (rc ++ B)) (joinSlash rc) = (joinSlash B, [], []) := by
  intro rc
  induction rc with
  | nil => intro n _ _; simp [joinSlash_nil, relLoop_nil_right]
  | cons c rc ih =>
    intro n hrc hn
    obtain ⟨m, rfl⟩ : ∃ m, n = m + 1 := ⟨n - 1, by simp at hn; omega⟩
    have hc := hrc c (List.mem_cons_self _ _)
    obtain ⟨b, B', rfl⟩ := List.exists_cons_of_ne_nil hB
    cases rc with
    | nil =>
      simp only [List.singleton_append, joinSlash_cons_cons, joinSlash_singleton]
      exact relLoop_last m c _ hc.2.2.2 hc.1
    | cons c' rc' =>
      simp only [List.cons_append, joinSlash_cons_cons]
      rw [relLoop_step m c _ _ hc.2.2.2]
      have := ih m (fun e he => hrc e (List.mem_cons_of_mem _ he)) (by simp at hn ⊢; omega)
      simpa [joinSlash_cons_cons] using this

theorem count_slash_of_no_slash (e : GoString) (h : '/' ∉ e) : e.count '/' = 0 :=
  List.count_eq_zero.mpr h

theorem count_slash_joinSlash (B : List GoString) (h : ∀ e ∈ B, '/' ∉ e) :
    (joinSlash B).count '/' = B.length - 1 := by
  induction B with
  | nil => rfl
  | cons b B ih =>
    cases B with
    | nil => simp [joinSlash_singleton, count_slash_of_no_slash b (h b (List.mem_cons_self _ _))]
    | cons b' B' =>
      rw [joinSlash_cons_cons, List.count_append, List.count_cons_self,
        count_slash_of_no_slash b (h b (List.mem_cons_self _ _)),
        ih (fun e he => h e (List.mem_cons_of_mem _ he))]
      simp

theorem joinSlash_replicate_dotdot (n : Nat) :
    joinSlash (List.replicate (n + 1) dotdot)
      = dotdot ++ (List.replicate n ('/' :: dotdot)).flatten := by
  induction n with
  | zero => simp [joinSlash_singleton]
  | succ n ih =>
    rw [List.replicate_succ, List.replicate_succ, joinSlash_cons_cons,
      ← List.replicate_succ, ih]
    simp [List.replicate_succ]

theorem length_absPath_ge (L : List GoString) : L.length ≤ (absPath L).length := by
  by_cases h : L = []
  · subst h; simp
  · have h1 := length_joinSlash L h
    have h2 : L.length ≤ (L.map (fun e => e.length + 1)).sum := by
      clear h h1
      induction L with
      | nil => simp
      | cons a L ih => simp only [List.map_cons, List.sum_cons, List.length_cons]; omega
    simp only [absPath, List.length_cons]
    omega

theorem length_absPath_append (rc B : List GoString) (hB : B ≠ [])
    (h : ∀ e ∈ B, e ≠ []) : (absPath rc).length < (absPath (rc ++ B)).length := by
  have hw : 2 ≤ (B.map (fun e => e.length + 1)).sum := by
    obtain ⟨b, B', rfl⟩ := List.exists_cons_of_ne_nil hB
    have := List.length_pos.mpr (h b (List.mem_cons_self _ _))
    simp only [List.map_cons, List.sum_cons]
    omega
  have h2 := length_joinSlash (rc ++ B) (by simp [hB])
  rw [List.map_append, List.sum_append] at h2
  by_cases hr : rc = []
  · subst hr
    simp only [absPath, List.length_cons, joinSlash_nil, List.length_nil] at h2 ⊢
    simp only [List.map_nil, List.sum_nil] at h2
    omega
  · have h1 := length_joinSlash rc hr
    simp only [absPath, List.length_cons]
    omega

/-- Rel from a directory below an absolute path back to it: one ".." for each
element below. -/
theorem rel_absPath (rc B : List GoString) (hrc : ∀ e ∈ rc, ordinary e)
    (hB : ∀ e ∈ B, ordinary e) (hne : B ≠ []) :
    Rel (absPath (rc ++ B)) (absPath rc)
      = some (joinSlash (List.replicate B.length dotdot)) := by
  have hall : ∀ e ∈ rc ++ B, ordinary e := by
    intro e he
    rcases List.mem_append.mp he with h | h
    · exact hrc e h
    · exact hB e h
  have hlt := length_absPath_append rc B hne (fun e he => (hB e he).1)
  have hneq : absPath rc ≠ absPath (rc ++ B) := by
    intro h; rw [h] at hlt; exact lt_irrefl _ hlt
  have hnd : absPath (rc ++ B) ≠ dot := by simp [absPath, dot]
  have hloop : relLoop (absPath (rc ++ B)).length (absPath (rc ++ B)) (absPath rc)
      = (joinSlash B, [], []) := by
    have hlen := length_absPath_ge (rc ++ B)
    obtain ⟨m, hm⟩ : ∃ m, (absPath (rc ++ B)).length = m + 1 := ⟨_, rfl⟩
    rw [hm]
    have h1 : absPath (rc ++ B) = [] ++ '/' :: joinSlash (rc ++ B) := rfl
    have h2 : absPath rc = [] ++ '/' :: joinSlash rc := rfl
    rw [h1, h2, relLoop_step m [] _ _ (by simp)]
    apply relLoop_common B hne rc m hrc
    have : B.length ≠ 0 := by simpa using hne
    simp only [List.length_append] at hlen
    omega
  have hjb : joinSlash B ≠ [] := joinSlash_ne_nil B hne (fun e he => (hB e he).1)
  unfold Rel
  simp only [clean_absPath _ hall, clean_absPath _ hrc, hneq, hnd, if_false,
    hasPrefix_absPath, ne_eq, not_true_eq_false, hloop, hjb, not_false_eq_true, if_true]
  rw [count_slash_joinSlash B (fun e he => (hB e he).2.2.2)]
  obtain ⟨k, hk⟩ : ∃ k, B.length = k + 1 :=
    ⟨B.length - 1, by have : B.length ≠ 0 := by simpa using hne
                      omega⟩
  rw [hk, joinSlash_replicate_dotdot]
  simp [dotdot]

/-! ## The link target for paths of ordinary elements -/

theorem ordinary_dotGongDeps : ordinary dotGongDeps := by decide

theorem ordinary_srcName : ordinary srcName := by decide

theorem ordinary_dotGong : ordinary dotGong := by decide

theorem ordinary_dotdot_no_slash {n : Nat} : ∀ e ∈ List.replicate n dotdot, '/' ∉ e := by
  intro e he
  rw [List.eq_of_mem_replicate he]
  decide

/-- The location of the link, by elements. -/
theorem join_link (rc names pc : List GoString) (hrc : ∀ e ∈ rc, ordinary e)
    (hn : ∀ e ∈ names, ordinary e) (hpc : ∀ e ∈ pc, ordinary e) (hne : pc ≠ []) :
    Join (absPath rc :: (names ++ [joinSlash pc])) = absPath (rc ++ names ++ pc) := by
  rw [join_absPath rc names _ hrc hn,
    splitSlash_joinSlash pc hne (fun e he => (hpc e he).2.2.2),
    foldl_cleanStep_ordinary true pc _ hpc]
  simp

/-- The directory of the link, by elements. -/
theorem join_base (rc names init : List GoString) (last : GoString)
    (hrc : ∀ e ∈ rc, ordinary e) (hn : ∀ e ∈ names, ordinary e)
    (hi : ∀ e ∈ init, ordinary e) (hl : '/' ∉ last) :
    Join (absPath rc :: (names ++ [Dir (joinSlash (init ++ [last]))]))
      = absPath (rc ++ names ++ init) := by
  rw [join_absPath rc names _ hrc hn, foldl_cleanStep_dir init last hi hl]
  simp

/-- Going up once for every element below leads back. -/
theorem join_back (rc B : List GoString) (hrc : ∀ e ∈ rc, ordinary e)
    (hB : ∀ e ∈ B, ordinary e) (hne : B ≠ []) :
    Join [absPath (rc ++ B), joinSlash (List.replicate B.length dotdot)] = absPath rc := by
  have hall : ∀ e ∈ rc ++ B, ordinary e := by
    intro e he
    rcases List.mem_append.mp he with h | h
    · exact hrc e h
    · exact hB e h
  have hlen : List.replicate B.length dotdot ≠ [] := by
    have : B.length ≠ 0 := by simpa using hne
    simp [this]
  have := join_absPath (rc ++ B) [] (joinSlash (List.replicate B.length dotdot)) hall (by simp)
  simp only [List.nil_append] at this
  rw [this, splitSlash_joinSlash _ hlen ordinary_dotdot_no_slash]
  have h2 : ([] : List GoString).reverse ++ (rc ++ B).reverse = B.reverse ++ rc.reverse := by
    simp
  rw [h2]
  have h3 := foldl_cleanStep_dotdots true B.reverse rc.reverse
    (fun e he => hB e (List.mem_reverse.mp he))
  rw [List.length_reverse] at h3
  rw [h3]
  simp

/-- The link target in closed form, for a root and a path given by elements. -/
theorem link_target_elems (rc init : List GoString) (last : GoString)
    (hrc : ∀ e ∈ rc, ordinary e) (hi : ∀ e ∈ init, ordinary e) (hl : ordinary last) :
    Join [absPath rc, dotGongDeps, srcName, joinSlash (init ++ [last])]
      = absPath (rc ++ [dotGongDeps, srcName] ++ (init ++ [last])) ∧
    Join [absPath rc, dotGongDeps, srcName, Dir (joinSlash (init ++ [last]))]
      = absPath (rc ++ [dotGongDeps, srcName] ++ init) ∧
    Rel (Join [absPath rc, dotGongDeps, srcName, Dir (joinSlash (init ++ [last]))]) (absPath rc)
      = some (joinSlash (List.replicate (init.length + 2) dotdot)) ∧
    Join [Dir (Join [absPath rc, dotGongDeps, srcName, joinSlash (init ++ [last])]),
        joinSlash (List.replicate (init.length + 2) dotdot)] = absPath rc := by
  have hn : ∀ e ∈ [dotGongDeps, srcName], ordinary e := by
    intro e he
    simp only [List.mem_cons, List.mem_singleton, List.not_mem_nil, or_false] at he
    rcases he with h | h
    · subst h; exact ordinary_dotGongDeps
    · subst h; exact ordinary_srcName
  have hpc : ∀ e ∈ init ++ [last], ordinary e := by
    intro e he
    rcases List.mem_append.mp he with h | h
    · exact hi e h
    · rw [List.mem_singleton.mp h]; exact hl
  have hB : ∀ e ∈ [dotGongDeps, srcName] ++ init, ordinary e := by
    intro e he
    rcases List.mem_append.mp he with h | h
    · exact hn e h
    · exact hi e h
  have h1 := join_link rc [dotGongDeps, srcName] (init ++ [last]) hrc hn hpc (by simp)
  have h2 := join_base rc [dotGongDeps, srcName] init last hrc hn hi hl.2.2.2
  have hlenB : ([dotGongDeps, srcName] ++ init).length = init.length + 2 := by
    simp
  have h3 := rel_absPath rc ([dotGongDeps, srcName] ++ init) hrc hB (by simp)
  have h4 := join_back rc ([dotGongDeps, srcName] ++ init) hrc hB (by simp)
  rw [hlenB] at h3 h4
  simp only [List.cons_append, List.nil_append, List.singleton_append] at h1 h2
  refine ⟨by simpa using h1, by simpa using h2, ?_, ?_⟩
  · rw [h2]
    simpa [List.append_assoc] using h3
  · rw [h1]
    have hd : Dir (absPath (rc ++ dotGongDeps :: srcName :: (init ++ [last])))
        = absPath (rc ++ [dotGongDeps, srcName] ++ init) := by
      have := dir_absPath (rc ++ [dotGongDeps, srcName] ++ init) last
        (by
          intro e he
          rcases List.mem_append.mp he with h | h
          · rcases List.mem_append.mp h with h' | h'
            · exact hrc e h'
            · exact hn e h'
          · exact hi e h) hl.2.2.2
      simpa [List.append_assoc] using this
    have hd' : rc ++ [dotGongDeps, srcName] ++ (init ++ [last])
        = rc ++ dotGongDeps :: srcName :: (init ++ [last]) := by simp
    rw [hd'] at *
    rw [hd]
    simpa [List.append_assoc] using h4

/-! ## The dispatch in main (C10) -/

/-- The function rootDir always ends. -/
theorem rootDir_some (w : World) : ∃ r, rootDir w = some r := by
  rw [rootDir_eq]
  cases w.cwd with
  | error e => exact ⟨_, rfl⟩
  | ok dir =>
    simp only
    cases Stat w dotGong with
    | ok nd =>
      simp only
      by_cases h : dir = []
      · rw [if_pos h]; exact ⟨_, rfl⟩
      · rw [if_neg h]; exact ⟨_, rfl⟩
    | error e => exact ⟨_, rfl⟩

/-- The function gopath always ends, with a path that is not empty. -/
theorem gopath_some (w : World) : ∃ gp, gopath w = some gp ∧ gp ≠ [] := by
  have hj : ∀ root : GoString, Join [root, dotGongDeps] ≠ [] := by
    intro root
    unfold Join
    by_cases h : root = []
    · subst h
      have : ([[], dotGongDeps] : List GoString).dropWhile (fun e => e.isEmpty) = [dotGongDeps] := by
        decide
      rw [this]
      exact clean_ne_nil _
    · have : ([root, dotGongDeps] : List GoString).dropWhile (fun e => e.isEmpty)
          = [root, dotGongDeps] := by
        rw [List.dropWhile_cons_of_neg]
        simpa using h
      rw [this]
      exact clean_ne_nil _
  obtain ⟨r, hr⟩ := rootDir_some w
  unfold gopath
  rw [hr]
  cases r with
  | ok root => exact ⟨_, rfl, hj root⟩
  | error e => exact ⟨_, rfl, hj []⟩

/-- What execGo does once the environment is rewritten. -/
theorem execGo_of_env (gp : GoString) (args env : List GoString) (w : World)
    (henv : childEnv w.environ gp = some env) :
    ∃ w1, execGo gp args w = .ret (execGoCode (cmdRun (w.child args env))) w1 ∧
      Msg.child args env ∈ w1.out ∧ w1.fs = w.fs ∧ w1.stdin = w.stdin := by
  unfold execGo
  rw [henv]
  simp only
  cases h : cmdRun (w.child args env) with
  | none => exact ⟨_, rfl, by simp [World.print], rfl, rfl⟩
  | some e =>
    cases e with
    | other => exact ⟨_, rfl, by simp [World.print], rfl, rfl⟩
    | exitError sys =>
      cases sys with
      | none => exact ⟨_, rfl, by simp [World.print], rfl, rfl⟩
      | some st => exact ⟨_, rfl, by simp [World.print], rfl, rfl⟩

/-- The function help prints, runs `go help` and ends the process with the
status asked for. -/
theorem help_eq (failed : Bool) (w : World) :
    ∃ w0 : World, Msg.helpHeader ∈ w0.out ∧ Msg.usage ∈ w0.out ∧ w0.fs = w.fs ∧
      w0.stdin = w.stdin ∧ w0.environ = w.environ ∧ w0.child = w.child ∧
      help failed w = (execGo [] [helpName] w0).bind
        (fun _ w1 => .exit (if failed then 2 else 0) w1) := by
  obtain ⟨r, hr⟩ := rootDir_some (w.print .helpHeader)
  unfold help
  simp only [hr]
  cases r with
  | ok str =>
    refine ⟨((w.print .helpHeader).print (.inProject str)).print .usage,
      by simp [World.print], by simp [World.print], rfl, rfl, rfl, rfl, ?_⟩
    cases failed <;> rfl
  | error e =>
    refine ⟨(w.print .helpHeader).print .usage,
      by simp [World.print], by simp [World.print], rfl, rfl, rfl, rfl, ?_⟩
    cases failed <;> rfl

/-- C10 as stated fails: with the argument "setup" in a provisioned root whose
link for "a/b" exists and the line "a/b" on standard input, setup(true) is run
and the process exits with status 2, not 0. -/
theorem C10_counterexample :
    (main [setupName] (worldProvisioned [['a', '/', 'b']])).exitCode = some 2 ∧
    (main [setupName] (worldProvisioned [['a', '/', 'b']])).exitCode ≠ some 0 := by
  decide

/-- C10 (amended): main decides on the arguments as follows.  No argument:
help is printed, `go help` is run and, when execGo returns, the process exits
with status 2.  First argument "setup": setup(true) is run and, when it
returns, the process exits with status 0.  The single argument "help": help is
printed without setup being run (file tree and standard input are those of the
start) and, when execGo returns, the process exits with status 0.  Every other
case: setup(false) is run and, when it returns, the go tool is run with exactly
the arguments given and the environment ending in GOPATH=gopath(), and the
process exits with the status execGo returned. -/
theorem C10_main_dispatch (args : List GoString) (w : World) :
    (args = [] →
      ∃ w0 : World, Msg.helpHeader ∈ w0.out ∧ Msg.usage ∈ w0.out ∧ w0.fs = w.fs ∧
        w0.stdin = w.stdin ∧
        ∀ env, childEnv w.environ [] = some env →
          ∃ w1, main args w = .exit 2 w1 ∧ Msg.child [helpName] env ∈ w1.out ∧
            execGo [] [helpName] w0
              = .ret (execGoCode (cmdRun (w.child [helpName] env))) w1) ∧
    (∀ rest, args = setupName :: rest →
      main args w = (setup true w).bind (fun _ w1 => .exit 0 w1) ∧
      ∀ w1, setup true w = .ret () w1 → main args w = .exit 0 w1) ∧
    (args = [helpName] →
      ∃ w0 : World, Msg.helpHeader ∈ w0.out ∧ Msg.usage ∈ w0.out ∧ w0.fs = w.fs ∧
        w0.stdin = w.stdin ∧
        ∀ env, childEnv w.environ [] = some env →
          ∃ w1, main args w = .exit 0 w1 ∧ Msg.child [helpName] env ∈ w1.out ∧
            w1.fs = w.fs ∧ w1.stdin = w.stdin) ∧
    (∀ cmd rest, args = cmd :: rest → cmd ≠ setupName → ¬ (cmd = helpName ∧ rest = []) →
      ∀ w1, setup false w = .ret () w1 →
        ∃ gp, gopath w1 = some gp ∧ gp ≠ [] ∧
          (∀ rc w2, execGo gp args w1 = .ret rc w2 → main args w = .exit rc w2) ∧
          ∀ env0, stripGopath w1.environ = some env0 →
            ∃ w2, execGo gp args w1
                = .ret (execGoCode (cmdRun (w1.child args (env0 ++ [gopathEq ++ gp])))) w2 ∧
              Msg.child args (env0 ++ [gopathEq ++ gp]) ∈ w2.out) := by
  refine ⟨?_, ?_, ?_, ?_⟩
  · intro ha
    subst ha
    obtain ⟨w0, h1, h2, h3, h4, h5, h6, h7⟩ := help_eq true w
    refine ⟨w0, h1, h2, h3, h4, ?_⟩
    intro env henv
    obtain ⟨w1, hx, hm, _, _⟩ := execGo_of_env [] [helpName] env w0 (by rw [h5]; exact henv)
    rw [h6] at hx
    refine ⟨w1, ?_, hm, hx⟩
    show help true w = _
    rw [h7, hx]
    rfl
  · intro rest ha
    subst ha
    have hm : main (setupName :: rest) w = (setup true w).bind (fun _ w1 => .exit 0 w1) := by
      simp [main]
    refine ⟨hm, ?_⟩
    intro w1 h
    rw [hm, h]
    rfl
  · intro ha
    subst ha
    obtain ⟨w0, h1, h2, h3, h4, h5, h6, h7⟩ := help_eq false w
    refine ⟨w0, h1, h2, h3, h4, ?_⟩
    intro env henv
    obtain ⟨w1, hx, hm, hf, hs⟩ := execGo_of_env [] [helpName] env w0 (by rw [h5]; exact henv)
    refine ⟨w1, ?_, hm, hf.trans h3, hs.trans h4⟩
    have hne : helpName ≠ setupName := by decide
    have : main [helpName] w = help false w := by
      simp [main, hne]
    rw [this, h7, hx]
    rfl
  · intro cmd rest ha hns hnh w1 hset
    subst ha
    obtain ⟨gp, hgp, hne⟩ := gopath_some w1
    have hm : main (cmd :: rest) w
        = (execGo gp (cmd :: rest) w1).bind (fun retcode w2 => .exit retcode w2) := by
      unfold main
      simp only [hns, hnh, if_false, hset, Outcome.bind, hgp]
    refine ⟨gp, hgp, hne, ?_, ?_⟩
    · intro rc w2 hx
      rw [hm, hx]
      rfl
    · intro env0 h0
      have henv : childEnv w1.environ gp = some (env0 ++ [gopathEq ++ gp]) := by
        unfold childEnv
        rw [h0]
        simp [hne]
      obtain ⟨w2, hx, hmem, _, _⟩ := execGo_of_env gp (cmd :: rest) _ w1 henv
      exact ⟨w2, hx, hmem⟩

/-- C10 (amended) at the arguments ["build"] in a provisioned root: the go tool
runs with GOPATH=/r/.gong.deps and its status 0 is the status of the process. -/
theorem C10_main_dispatch_witness :
    gopath (worldProvisioned [['a']]) = some (['/', 'r', '/'] ++ dotGongDeps) ∧
    main [['b', 'u', 'i', 'l', 'd']] (worldProvisioned [['a']])
      = .exit 0 ((worldProvisioned [['a']]).print
          (.child [['b', 'u', 'i', 'l', 'd']]
            [['H', '=', '1'], gopathEq ++ (['/', 'r', '/'] ++ dotGongDeps)])) := by
  obtain ⟨gp, hgp, _, hx, _⟩ :=
    (C10_main_dispatch [['b', 'u', 'i', 'l', 'd']] (worldProvisioned [['a']])).2.2.2
      ['b', 'u', 'i', 'l', 'd'] [] rfl (by decide) (by decide)
      (worldProvisioned [['a']])
      (setup_false_marker_in_cwd (worldProvisioned [['a']]) ['/', 'r'] rfl (by decide)
        (by decide)).2
  have hg : gopath (worldProvisioned [['a']]) = some (['/', 'r', '/'] ++ dotGongDeps) := by
    decide
  rw [hg] at hgp
  injection hgp with hgp
  subst hgp
  exact ⟨hg, hx _ _ rfl⟩

/-! ## Path resolution along real directories -/

/-- Along directories that exist, resolution follows the elements one by one. -/
theorem walkFrom_ok (t : Tree) (follow : PPath → GoString → List GoString → Except Errno PPath)
    (fl : Bool) :
    ∀ (elems : List GoString) (cur : PPath), (∀ e ∈ elems, ordinary e) →
      (∀ k, k < elems.length → t (cur ++ elems.take k) = some .dir) →
      (∀ tg, t (cur ++ elems) ≠ some (.symlink tg)) →
      walkFrom t follow fl cur elems = .ok (cur ++ elems) := by
  intro elems
  induction elems with
  | nil => intro cur _ _ _; simp [walkFrom]
  | cons c rest ih =>
    intro cur hord hdir hfin
    have h0 : t cur = some .dir := by simpa using hdir 0 (by simp)
    have hc := hord c (List.mem_cons_self _ _)
    have hrec : walkFrom t follow fl (cur ++ [c]) rest = .ok (cur ++ c :: rest) := by
      have := ih (cur ++ [c]) (fun e he => hord e (List.mem_cons_of_mem _ he))
        (by
          intro k hk
          have := hdir (k + 1) (by simp; omega)
          simpa using this)
        (by simpa using hfin)
      simpa using this
    unfold walkFrom
    simp only [h0, hc.1, hc.2.1, hc.2.2.1, or_self, if_false]
    cases hn : t (cur ++ [c]) with
    | none => simpa using hrec
    | some nd =>
      cases nd with
      | file d => simpa using hrec
      | dir => simpa using hrec
      | symlink tg =>
        exfalso
        cases rest with
        | nil => exact hfin tg hn
        | cons c' rest' =>
          have := hdir 1 (by simp)
          simp only [List.take_succ_cons, List.take_zero] at this
          rw [hn] at this
          exact Node.noConfusion (Option.some.inj this)

/-- Resolution stops with ENOENT at a missing directory in the middle of a path. -/
theorem walkFrom_enoent (t : Tree)
    (follow : PPath → GoString → List GoString → Except Errno PPath) (fl : Bool) :
    ∀ (elems : List GoString) (cur : PPath) (j : Nat), (∀ e ∈ elems, ordinary e) →
      1 ≤ j → j < elems.length →
      (∀ k, k < j → t (cur ++ elems.take k) = some .dir) →
      t (cur ++ elems.take j) = none →
      walkFrom t follow fl cur elems = .error .ENOENT := by
  intro elems
  induction elems with
  | nil => intro cur j _ _ hj; simp at hj
  | cons c rest ih =>
    intro cur j hord h1 hj hdir hnone
    have h0 : t cur = some .dir := by simpa using hdir 0 (by omega)
    have hc := hord c (List.mem_cons_self _ _)
    obtain ⟨i, rfl⟩ : ∃ i, j = i + 1 := ⟨j - 1, by omega⟩
    unfold walkFrom
    simp only [h0, hc.1, hc.2.1, hc.2.2.1, or_self, if_false]
    by_cases hi : i = 0
    · subst hi
      simp only [List.take_succ_cons, List.take_zero, zero_add] at hnone
      rw [hnone]
      simp only
      cases rest with
      | nil => simp at hj
      | cons c' rest' =>
        unfold walkFrom
        rw [hnone]
    · have hd1 := hdir 1 (by omega)
      simp only [List.take_succ_cons, List.take_zero] at hd1
      rw [hd1]
      simp only
      apply ih (cur ++ [c]) i (fun e he => hord e (List.mem_cons_of_mem _ he)) (by omega)
        (by simpa using hj)
      · intro k hk
        have := hdir (k + 1) (by omega)
        simpa using this
      · simpa using hnone

/-- Resolution of an absolute path text starts below the root directory. -/
theorem resolve_absPath (w : World) (fl : Bool) (L : List GoString)
    (hL : ∀ e ∈ L, ordinary e) (hroot : w.fs [] = some .dir) :
    ∃ follow, resolve w fl (absPath L) = walkFrom w.fs follow fl [] L := by
  unfold resolve
  rw [if_neg (absPath_ne_nil L)]
  simp only [hasPrefix_absPath, if_true]
  have hw : ∀ n, ∃ follow, walk w.fs fl (n + 1) = walkFrom w.fs follow fl := fun n => ⟨_, rfl⟩
  obtain ⟨follow, hf⟩ := hw 39
  have h40 : maxSymlinks = 39 + 1 := rfl
  refine ⟨follow, ?_⟩
  rw [h40, hf]
  unfold absPath
  rw [splitSlash_cons_slash]
  conv_lhs => unfold walkFrom
  simp only [hroot, true_or, if_true]
  by_cases h : L = []
  · subst h
    simp only [joinSlash_nil, splitSlash]
    unfold walkFrom
    simp only [hroot, true_or, if_true]
    simp [walkFrom]
  · rw [splitSlash_joinSlash L h (fun e he => (hL e he).2.2.2)]

/-- An absolute path whose ancestors are directories resolves to its elements. -/
theorem resolve_ok (w : World) (fl : Bool) (L : List GoString) (hL : ∀ e ∈ L, ordinary e)
    (hroot : w.fs [] = some .dir) (hdir : ∀ k, k < L.length → w.fs (L.take k) = some .dir)
    (hfin : ∀ tg, w.fs L ≠ some (.symlink tg)) :
    resolve w fl (absPath L) = .ok L := by
  obtain ⟨follow, hf⟩ := resolve_absPath w fl L hL hroot
  rw [hf]
  have := walkFrom_ok w.fs follow fl L [] hL (by simpa using hdir) (by simpa using hfin)
  simpa using this

/-- An absolute path with a missing directory in the middle does not resolve. -/
theorem resolve_enoent (w : World) (fl : Bool) (L : List GoString) (j : Nat)
    (hL : ∀ e ∈ L, ordinary e) (h1 : 1 ≤ j) (hj : j < L.length)
    (hdir : ∀ k, k < j → w.fs (L.take k) = some .dir) (hnone : w.fs (L.take j) = none) :
    resolve w fl (absPath L) = .error .ENOENT := by
  have hroot : w.fs [] = some .dir := by simpa using hdir 0 (by omega)
  obtain ⟨follow, hf⟩ := resolve_absPath w fl L hL hroot
  rw [hf]
  exact walkFrom_enoent w.fs follow fl L [] j hL h1 hj (by simpa using hdir)
    (by simpa using hnone)

theorem realDirs_root (t : Tree) (P : PPath) (h : realDirs t P) : t [] = some .dir := by
  simpa using h 0 (Nat.zero_le _)

theorem realDirs_self (t : Tree) (P : PPath) (h : realDirs t P) : t P = some .dir := by
  simpa using h P.length (le_refl _)

/-- Stat of a directory whose ancestors are directories. -/
theorem stat_dir (w : World) (P : PPath) (hP : ∀ e ∈ P, ordinary e) (h : realDirs w.fs P) :
    Stat w (absPath P) = .ok .dir := by
  unfold Stat
  rw [resolve_ok w true P hP (realDirs_root _ _ h) (fun k hk => h k (le_of_lt hk))
    (by intro tg; rw [realDirs_self _ _ h]; simp)]
  simp only [realDirs_self _ _ h]

/-- Stat of a path below a real directory whose first element is missing fails. -/
theorem stat_absent (w : World) (P G : List GoString) (hP : ∀ e ∈ P, ordinary e)
    (hG : ∀ e ∈ G, ordinary e) (hne : G ≠ []) (h : realDirs w.fs P)
    (hnone : w.fs (P ++ G.take 1) = none) :
    ∃ e, Stat w (absPath (P ++ G)) = .error e := by
  have hall : ∀ e ∈ P ++ G, ordinary e := by
    intro e he
    rcases List.mem_append.mp he with h' | h'
    · exact hP e h'
    · exact hG e h'
  obtain ⟨g, G', rfl⟩ := List.exists_cons_of_ne_nil hne
  simp only [List.take_succ_cons, List.take_zero] at hnone
  have hpre : ∀ k, k < P.length + 1 → w.fs ((P ++ g :: G').take k) = some .dir := by
    intro k hk
    rw [List.take_append_of_le_length (by omega)]
    exact h k (by omega)
  unfold Stat
  by_cases hG' : G' = []
  · subst hG'
    rw [resolve_ok w true (P ++ [g]) hall (realDirs_root _ _ h)
      (by simpa using hpre) (by intro tg; rw [hnone]; simp)]
    simp only [hnone]
    exact ⟨_, rfl⟩
  · have hlen : 0 < G'.length := List.length_pos.mpr hG'
    rw [resolve_enoent w true (P ++ g :: G') (P.length + 1) hall (by omega)
      (by simp; omega) hpre
      (by
        have : (P ++ g :: G').take (P.length + 1) = P ++ [g] := by
          rw [List.take_append_eq_append_take]
          simp
        rw [this]; exact hnone)]
    exact ⟨_, rfl⟩

/-! ## The system calls along real directories -/

theorem Tree.set_self (t : Tree) (p : PPath) (n : Node) : (t.set p n) p = some n := by
  simp [Tree.set]

theorem Tree.set_other (t : Tree) (p q : PPath) (n : Node) (h : q ≠ p) :
    (t.set p n) q = t q := by
  simp [Tree.set, h]

theorem Tree.set_same (t : Tree) (p : PPath) (n : Node) (h : t p = some n) :
    t.set p n = t := by
  funext q
  by_cases hq : q = p
  · subst hq; simp [Tree.set, h]
  · simp [Tree.set, hq]

/-- Truncating a file that is empty already leaves the world as it is. -/
theorem openFileTrunc_empty (w : World) (L : List GoString) (hL : ∀ e ∈ L, ordinary e)
    (hroot : w.fs [] = some .dir) (hdir : ∀ k, k < L.length → w.fs (L.take k) = some .dir)
    (hfile : w.fs L = some (.file [])) :
    OpenFileTrunc w (absPath L) = .ok w := by
  unfold OpenFileTrunc
  rw [resolve_ok w true L hL hroot hdir (by intro tg; rw [hfile]; simp)]
  simp only [hfile, Tree.set_same _ _ _ hfile]

/-- MkdirAll on a directory that exists leaves the world as it is. -/
theorem mkdirAllFuel_existing (w : World) (P : PPath) (hP : ∀ e ∈ P, ordinary e)
    (h : realDirs w.fs P) (n : Nat) : MkdirAllFuel (n + 1) w (absPath P) = (w, none) := by
  unfold MkdirAllFuel
  rw [stat_dir w P hP h]

theorem parentPart_append_slash (a f : GoString) (hne : f ≠ []) (hf : '/' ∉ f) :
    parentPart (a ++ '/' :: f) = a ++ ['/'] := by
  unfold parentPart
  have h1 : (a ++ '/' :: f).reverse = f.reverse ++ '/' :: a.reverse := by simp
  have hall : ∀ c ∈ f.reverse, c ≠ '/' := by
    intro c hc h
    subst h
    exact hf (List.mem_reverse.mp hc)
  obtain ⟨c, r, hr⟩ := List.exists_cons_of_ne_nil (by simpa using hne : f.reverse ≠ [])
  have h2 : (f.reverse ++ '/' :: a.reverse).dropWhile (fun c => c == '/')
      = f.reverse ++ '/' :: a.reverse := by
    rw [hr, List.cons_append, List.dropWhile_cons_of_neg]
    have := hall c (by rw [hr]; exact List.mem_cons_self _ _)
    simpa using this
  rw [h1, h2, List.dropWhile_append_of_pos, List.dropWhile_cons_of_neg (by simp)]
  · simp
  · intro c hc
    simpa using hall c hc

theorem absPath_concat (L : List GoString) (f : GoString) (hL : L ≠ []) :
    absPath (L ++ [f]) = absPath L ++ '/' :: f := by
  simp [absPath, joinSlash_concat L f hL]

/-- Mkdir at a free name below real directories makes the directory. -/
theorem mkdir_fresh (w : World) (L : List GoString) (hL : ∀ e ∈ L, ordinary e)
    (hroot : w.fs [] = some .dir) (hdir : ∀ k, k < L.length → w.fs (L.take k) = some .dir)
    (hnone : w.fs L = none) :
    Mkdir w (absPath L) = .ok { w with fs := w.fs.set L .dir } := by
  unfold Mkdir
  rw [resolve_ok w false L hL hroot hdir (by intro tg; rw [hnone]; simp)]
  simp only [hnone]

/-- Symlink at a free name below real directories makes the link. -/
theorem symlink_fresh (w : World) (target : GoString) (L : List GoString)
    (hL : ∀ e ∈ L, ordinary e) (hroot : w.fs [] = some .dir)
    (hdir : ∀ k, k < L.length → w.fs (L.take k) = some .dir) (hnone : w.fs L = none) :
    Symlink w target (absPath L) = .ok { w with fs := w.fs.set L (.symlink target) } := by
  unfold Symlink
  rw [resolve_ok w false L hL hroot hdir (by intro tg; rw [hnone]; simp)]
  simp only [hnone]

/-- MkdirAll below a real directory `P`, for new names `F` one below the
other: the directories are made, nothing else changes. -/
theorem mkdirAllFuel_chain (P : PPath) (hP : ∀ e ∈ P, ordinary e) (hPne : P ≠ []) :
    ∀ (F : List GoString) (w : World) (fuel : Nat), (∀ e ∈ F, ordinary e) →
      realDirs w.fs P → (∀ k, 1 ≤ k → k ≤ F.length → w.fs (P ++ F.take k) = none) →
      F.length + 1 ≤ fuel →
      ∃ t' : Tree, MkdirAllFuel fuel w (absPath (P ++ F)) = ({ w with fs := t' }, none) ∧
        realDirs t' (P ++ F) ∧
        (∀ x, (∀ k, 1 ≤ k → k ≤ F.length → x ≠ P ++ F.take k) → t' x = w.fs x) := by
  intro F
  induction F using List.reverseRecOn with
  | nil =>
    intro w fuel _ hreal _ hfuel
    obtain ⟨n, rfl⟩ : ∃ n, fuel = n + 1 := ⟨fuel - 1, by omega⟩
    refine ⟨w.fs, ?_, by simpa using hreal, fun x _ => rfl⟩
    rw [List.append_nil, mkdirAllFuel_existing w P hP hreal n]
  | append_singleton F' f ih =>
    intro w fuel hF hreal hnone hfuel
    obtain ⟨n, rfl⟩ : ∃ n, fuel = n + 1 := ⟨fuel - 1, by omega⟩
    have hF' : ∀ e ∈ F', ordinary e := fun e he => hF e (List.mem_append_left _ he)
    have hf : ordinary f := hF f (by simp)
    have hlenF : (F' ++ [f]).length = F'.length + 1 := by simp
    have hnone' : ∀ k, 1 ≤ k → k ≤ F'.length → w.fs (P ++ F'.take k) = none := by
      intro k h1 hk
      have := hnone k h1 (by rw [hlenF]; omega)
      rwa [List.take_append_of_le_length hk] at this
    obtain ⟨t1, hrec, hreal1, hframe1⟩ := ih w n hF' hreal hnone' (by rw [hlenF] at hfuel; omega)
    have hall : ∀ e ∈ P ++ (F' ++ [f]), ordinary e := by
      intro e he
      rcases List.mem_append.mp he with h | h
      · exact hP e h
      · exact hF e h
    obtain ⟨err, hstat⟩ := stat_absent w P (F' ++ [f]) hP hF (by simp) hreal
      (hnone 1 (le_refl _) (by rw [hlenF]; omega))
    have hLne : P ++ F' ≠ [] := by simp [hPne]
    have hpath : absPath (P ++ (F' ++ [f])) = absPath (P ++ F') ++ '/' :: f := by
      rw [← List.append_assoc, absPath_concat _ f hLne]
    have hparent : parentPart (absPath (P ++ (F' ++ [f]))) = absPath (P ++ F') ++ ['/'] := by
      rw [hpath, parentPart_append_slash _ f hf.1 hf.2.2.2]
    have hplen : (absPath (P ++ F') ++ ['/']).length > 1 := by
      simp [absPath]
    have hdrop : (absPath (P ++ F') ++ ['/']).dropLast = absPath (P ++ F') := by
      simp
    have hfull : P ++ (F' ++ [f]) = (P ++ F') ++ [f] := by simp
    have hLnone : t1 (P ++ (F' ++ [f])) = none := by
      rw [hframe1]
      · have := hnone (F'.length + 1) (by omega) (by rw [hlenF])
        rwa [List.take_of_length_le (by rw [hlenF])] at this
      · intro k _ hk h
        have := congrArg List.length h
        simp [List.length_take] at this
        omega
    have hdir1 : ∀ k, k < (P ++ (F' ++ [f])).length →
        t1 ((P ++ (F' ++ [f])).take k) = some .dir := by
      intro k hk
      rw [hfull, List.take_append_of_le_length (by
        simp only [List.length_append, List.length_singleton] at hk
        simp only [List.length_append]; omega)]
      exact hreal1 k (by
        simp only [List.length_append, List.length_singleton] at hk
        simp only [List.length_append]; omega)
    have hmk := mkdir_fresh { w with fs := t1 } (P ++ (F' ++ [f])) hall
      (realDirs_root _ _ hreal1) hdir1 hLnone
    refine ⟨t1.set (P ++ (F' ++ [f])) .dir, ?_, ?_, ?_⟩
    · unfold MkdirAllFuel
      rw [hstat]
      simp only [hparent, hplen, if_true, hdrop, hrec, hmk]
    · intro k hk
      by_cases hk' : k = (P ++ (F' ++ [f])).length
      · rw [hk', List.take_length, Tree.set_self]
      · have hlt : k < (P ++ (F' ++ [f])).length := lt_of_le_of_ne hk hk'
        rw [Tree.set_other _ _ _ _ (by
          intro h
          have := congrArg List.length h
          rw [List.length_take] at this
          omega)]
        exact hdir1 k hlt
    · intro x hx
      have hxL : x ≠ P ++ (F' ++ [f]) := by
        have := hx (F'.length + 1) (by omega) (by rw [hlenF])
        rwa [List.take_of_length_le (by rw [hlenF])] at this
      rw [Tree.set_other _ _ _ _ hxL]
      apply hframe1
      intro k h1 hk
      have := hx k h1 (by rw [hlenF]; omega)
      rwa [List.take_append_of_le_length hk] at this

/-! ## The provisioning steps in a provisioned root -/

theorem realDirs_prefix (t : Tree) (A B : PPath) (h : realDirs t (A ++ B)) : realDirs t A := by
  intro k hk
  have := h k (by simp only [List.length_append]; omega)
  rwa [List.take_append_of_le_length hk] at this

theorem realDirs_concat (t : Tree) (A : PPath) (x : GoString) (h : realDirs t A)
    (hx : t (A ++ [x]) = some .dir) : realDirs t (A ++ [x]) := by
  intro k hk
  by_cases hk' : k ≤ A.length
  · rw [List.take_append_of_le_length hk']
    exact h k hk'
  · simp only [List.length_append, List.length_singleton] at hk
    have : k = (A ++ [x]).length := by simp; omega
    rw [this, List.take_length]
    exact hx

/-- A relative name is resolved below the elements of the working directory. -/
theorem resolve_name (w : World) (fl : Bool) (rc : List GoString) (name : GoString)
    (hcwd : w.cwd = .ok (absPath rc)) (hrc : ∀ e ∈ rc, ordinary e) (hn : ordinary name)
    (hroot : w.fs [] = some .dir) :
    ∃ follow, resolve w fl name = walkFrom w.fs follow fl [] (rc ++ [name]) := by
  have hrel : HasPrefix name slash = false := by
    obtain ⟨c, r, rfl⟩ := List.exists_cons_of_ne_nil hn.1
    have hc : c ≠ '/' := by
      intro h; subst h; exact hn.2.2.2 (List.mem_cons_self _ _)
    simp [HasPrefix, slash, List.isPrefixOf, Ne.symm hc]
  unfold resolve
  rw [if_neg hn.1]
  simp only [hrel, Bool.false_eq_true, if_false, hcwd]
  have hw : ∀ n, ∃ follow, walk w.fs fl (n + 1) = walkFrom w.fs follow fl := fun n => ⟨_, rfl⟩
  obtain ⟨follow, hf⟩ := hw 39
  have h40 : maxSymlinks = 39 + 1 := rfl
  refine ⟨follow, ?_⟩
  rw [h40, hf, splitSlash_of_no_slash name hn.2.2.2]
  unfold absPath
  rw [splitSlash_cons_slash, List.cons_append]
  conv_lhs => unfold walkFrom
  simp only [hroot, true_or, if_true]
  by_cases h : rc = []
  · subst h
    simp only [joinSlash_nil, splitSlash, List.nil_append, List.singleton_append]
    conv_lhs => unfold walkFrom
    simp only [hroot, true_or, if_true]
  · rw [splitSlash_joinSlash rc h (fun e he => (hrc e he).2.2.2)]

/-- In a root with the marker rootDir returns the working directory. -/
theorem rootDir_provisioned (w : World) (rc : List GoString)
    (hcwd : w.cwd = .ok (absPath rc)) (hrc : ∀ e ∈ rc, ordinary e)
    (hreal : realDirs w.fs rc) (hmarker : w.fs (rc ++ [dotGong]) = some (.file [])) :
    rootDir w = some (.ok (absPath rc)) := by
  have hroot := realDirs_root _ _ hreal
  obtain ⟨follow, hf⟩ := resolve_name w true rc dotGong hcwd hrc ordinary_dotGong hroot
  have hall : ∀ e ∈ rc ++ [dotGong], ordinary e := by
    intro e he
    rcases List.mem_append.mp he with h | h
    · exact hrc e h
    · rw [List.mem_singleton.mp h]; exact ordinary_dotGong
  have hwalk := walkFrom_ok w.fs follow true (rc ++ [dotGong]) [] hall
    (by
      intro k hk
      simp only [List.length_append, List.length_singleton] at hk
      rw [List.nil_append, List.take_append_of_le_length (by omega)]
      exact hreal k (by omega))
    (by intro tg; rw [List.nil_append, hmarker]; simp)
  have hstat : Stat w dotGong = .ok (.file []) := by
    unfold Stat
    rw [hf, hwalk]
    simp only [List.nil_append, hmarker]
  rw [rootDir_eq, hcwd]
  simp only [hstat, absPath_ne_nil, if_false]

/-- A pass over a line changes nothing but the messages. -/
theorem promptCheck_frame (w : World) (l : GoString) :
    (promptCheck w l).2.fs = w.fs ∧ (promptCheck w l).2.stdin = w.stdin ∧
    (promptCheck w l).2.cwd = w.cwd := by
  unfold promptCheck
  simp only
  split <;> split <;> exact ⟨rfl, rfl, rfl⟩

/-- Lines that are rejected are passed over; the first valid line ends the loop. -/
theorem promptLoop_skip (s : GoString) (rest : List ScanEvent)
    (hval : specValid (specNormalize s)) :
    ∀ (pre : List GoString) (w : World), (∀ l ∈ pre, ¬ specValid (specNormalize l)) →
      ∃ w2 : World, promptLoop w (pre.map ScanEvent.line ++ .line s :: rest)
          = .ret (specNormalize s) w2 ∧
        w2.fs = w.fs ∧ w2.stdin = rest ∧ w2.cwd = w.cwd := by
  intro pre
  induction pre with
  | nil =>
    intro w _
    exact ⟨_, promptLoop_accept w s rest hval, rfl, rfl, rfl⟩
  | cons l pre ih =>
    intro w hpre
    have hrej := promptLoop_reject w l (pre.map ScanEvent.line ++ .line s :: rest)
      (hpre l (List.mem_cons_self _ _))
    obtain ⟨w2, h1, h2, h3, h4⟩ := ih
      (promptCheck { (w.print .promptMark) with
        stdin := pre.map ScanEvent.line ++ .line s :: rest } l).2
      (fun x hx => hpre x (List.mem_cons_of_mem _ hx))
    have hf := promptCheck_frame { (w.print .promptMark) with
        stdin := pre.map ScanEvent.line ++ .line s :: rest } l
    refine ⟨w2, ?_, h2.trans hf.1, h3, h4.trans hf.2.2⟩
    simp only [List.map_cons, List.cons_append]
    rw [hrej.2, h1]

/-- The steps of provision in a root that is provisioned already, for a first
accepted line that is a path of ordinary elements: the directories `E` of the
path exist, the directories `F` and the link `last` do not. -/
theorem provision_ok (w : World) (rc E F : List GoString) (last s : GoString)
    (pre : List GoString) (rest : List ScanEvent)
    (hrc : ∀ e ∈ rc, ordinary e) (hE : ∀ e ∈ E, ordinary e) (hF : ∀ e ∈ F, ordinary e)
    (hlast : ordinary last)
    (hreal : realDirs w.fs (rc ++ [dotGongDeps, srcName] ++ E))
    (hmarker : w.fs (rc ++ [dotGong]) = some (.file []))
    (hbin : w.fs (rc ++ [dotGongDeps, binName]) = some .dir)
    (hpkg : w.fs (rc ++ [dotGongDeps, pkgName]) = some .dir)
    (hfree : ∀ k, 1 ≤ k → k ≤ F.length + 1 →
      w.fs (rc ++ [dotGongDeps, srcName] ++ E ++ (F ++ [last]).take k) = none)
    (hin : w.stdin = pre.map ScanEvent.line ++ .line s :: rest)
    (hpre : ∀ l ∈ pre, ¬ specValid (specNormalize l))
    (hval : specValid (specNormalize s))
    (hsplit : splitSlash (specNormalize s) = E ++ F ++ [last]) :
    ∃ w' : World, provision (absPath rc) w = .ret () w' ∧
      w'.fs (rc ++ [dotGongDeps, srcName] ++ (E ++ F ++ [last]))
        = some (.symlink (joinSlash (List.replicate ((E ++ F ++ [last]).length + 1) dotdot))) ∧
      realDirs w'.fs (rc ++ [dotGongDeps, srcName] ++ E ++ F) ∧
      (∀ x, w.fs x ≠ none → w'.fs x = w.fs x) ∧
      w'.stdin = rest := by
  -- the paths, by elements
  have hp : specNormalize s = joinSlash ((E ++ F) ++ [last]) := by
    rw [← hsplit, joinSlash_splitSlash]
  have hEF : ∀ e ∈ E ++ F, ordinary e := by
    intro e he
    rcases List.mem_append.mp he with h | h
    · exact hE e h
    · exact hF e h
  obtain ⟨hj1, hj2, hrel, _⟩ := link_target_elems rc (E ++ F) last hrc hEF hlast
  have hD : ∀ e ∈ rc ++ [dotGongDeps, srcName], ordinary e := by
    intro e he
    rcases List.mem_append.mp he with h | h
    · exact hrc e h
    · simp only [List.mem_cons, List.mem_singleton, List.not_mem_nil, or_false] at h
      rcases h with h | h
      · rw [h]; exact ordinary_dotGongDeps
      · rw [h]; exact ordinary_srcName
  have hP : ∀ e ∈ rc ++ [dotGongDeps, srcName] ++ E, ordinary e := by
    intro e he
    rcases List.mem_append.mp he with h | h
    · exact hD e h
    · exact hE e h
  have hrealD : realDirs w.fs (rc ++ [dotGongDeps, srcName]) := realDirs_prefix _ _ _ hreal
  have hrealDeps : realDirs w.fs (rc ++ [dotGongDeps]) := by
    have : rc ++ [dotGongDeps, srcName] = (rc ++ [dotGongDeps]) ++ [srcName] := by simp
    rw [this] at hrealD
    exact realDirs_prefix _ _ _ hrealD
  have hrealR : realDirs w.fs rc := realDirs_prefix _ _ _ hrealDeps
  have hroot := realDirs_root _ _ hrealR
  have hordDeps : ∀ e ∈ rc ++ [dotGongDeps], ordinary e := by
    intro e he
    rcases List.mem_append.mp he with h | h
    · exact hrc e h
    · rw [List.mem_singleton.mp h]; exact ordinary_dotGongDeps
  have hrealBin : realDirs w.fs (rc ++ [dotGongDeps, binName]) := by
    have : rc ++ [dotGongDeps, binName] = (rc ++ [dotGongDeps]) ++ [binName] := by simp
    rw [this]
    exact realDirs_concat _ _ _ hrealDeps (by rw [← this]; exact hbin)
  have hrealPkg : realDirs w.fs (rc ++ [dotGongDeps, pkgName]) := by
    have : rc ++ [dotGongDeps, pkgName] = (rc ++ [dotGongDeps]) ++ [pkgName] := by simp
    rw [this]
    exact realDirs_concat _ _ _ hrealDeps (by rw [← this]; exact hpkg)
  -- the four steps before the prompt change nothing
  have hJm : Join [absPath rc, dotGong] = absPath (rc ++ [dotGong]) :=
    join_absPath_names rc [dotGong] hrc (by simp [ordinary_dotGong])
  have hJs : Join [absPath rc, dotGongDeps, srcName] = absPath (rc ++ [dotGongDeps, srcName]) :=
    join_absPath_names rc [dotGongDeps, srcName] hrc
      (by simp [ordinary_dotGongDeps, ordinary_srcName])
  have hJb : Join [absPath rc, dotGongDeps, binName] = absPath (rc ++ [dotGongDeps, binName]) :=
    join_absPath_names rc [dotGongDeps, binName] hrc
      (by simp only [List.mem_cons, List.mem_singleton, List.not_mem_nil, or_false]
          rintro e (h | h) <;> subst h <;> decide)
  have hJp : Join [absPath rc, dotGongDeps, pkgName] = absPath (rc ++ [dotGongDeps, pkgName]) :=
    join_absPath_names rc [dotGongDeps, pkgName] hrc
      (by simp only [List.mem_cons, List.mem_singleton, List.not_mem_nil, or_false]
          rintro e (h | h) <;> subst h <;> decide)
  have hOpen : ∀ v : World, v.fs = w.fs → OpenFileTrunc v (absPath (rc ++ [dotGong])) = .ok v := by
    intro v hv
    apply openFileTrunc_empty v (rc ++ [dotGong])
    · intro e he
      rcases List.mem_append.mp he with h | h
      · exact hrc e h
      · rw [List.mem_singleton.mp h]; exact ordinary_dotGong
    · rw [hv]; exact hroot
    · intro k hk
      simp only [List.length_append, List.length_singleton] at hk
      rw [hv, List.take_append_of_le_length (by omega)]
      exact hrealR k (by omega)
    · rw [hv]; exact hmarker
  have hMk : ∀ (v : World) (P : PPath), v.fs = w.fs → (∀ e ∈ P, ordinary e) →
      realDirs w.fs P → MkdirAll v (absPath P) = (v, none) := by
    intro v P hv hPo hPr
    unfold MkdirAll
    exact mkdirAllFuel_existing v P hPo (by rw [hv]; exact hPr) _
  have hordBin : ∀ e ∈ rc ++ [dotGongDeps, binName], ordinary e := by
    intro e he
    rcases List.mem_append.mp he with h | h
    · exact hrc e h
    · simp only [List.mem_cons, List.mem_singleton, List.not_mem_nil, or_false] at h
      rcases h with h | h <;> subst h <;> decide
  have hordPkg : ∀ e ∈ rc ++ [dotGongDeps, pkgName], ordinary e := by
    intro e he
    rcases List.mem_append.mp he with h | h
    · exact hrc e h
    · simp only [List.mem_cons, List.mem_singleton, List.not_mem_nil, or_false] at h
      rcases h with h | h <;> subst h <;> decide
  -- the directories of the path
  have hfreeF : ∀ k, 1 ≤ k → k ≤ F.length →
      w.fs (rc ++ [dotGongDeps, srcName] ++ E ++ F.take k) = none := by
    intro k h1 hk
    have := hfree k h1 (by omega)
    rwa [List.take_append_of_le_length hk] at this
  have hMkF : ∀ v : World, v.fs = w.fs →
      ∃ t' : Tree, MkdirAll v (absPath (rc ++ [dotGongDeps, srcName] ++ E ++ F))
          = ({ v with fs := t' }, none) ∧
        realDirs t' (rc ++ [dotGongDeps, srcName] ++ E ++ F) ∧
        (∀ x, (∀ k, 1 ≤ k → k ≤ F.length → x ≠ rc ++ [dotGongDeps, srcName] ++ E ++ F.take k) →
          t' x = w.fs x) := by
    intro v hv
    have := mkdirAllFuel_chain (rc ++ [dotGongDeps, srcName] ++ E) hP (by simp) F v
      ((absPath (rc ++ [dotGongDeps, srcName] ++ E ++ F)).length + 1) hF
      (by rw [hv]; exact hreal) (by rw [hv]; exact hfreeF)
      (by
        have := length_absPath_ge (rc ++ [dotGongDeps, srcName] ++ E ++ F)
        simp only [List.length_append] at this ⊢
        omega)
    rw [hv] at this
    exact this
  obtain ⟨w2, hloop, hfs2, hstd2, _⟩ := promptLoop_skip s rest hval pre
    (((w.print (.settingUp (absPath rc))).print .done).print .askPath) hpre
  obtain ⟨t', hmk, hreal', hframe⟩ := hMkF (w2.print .creatingSymlinks) hfs2
  -- the link
  have hfull : rc ++ [dotGongDeps, srcName] ++ (E ++ F ++ [last])
      = (rc ++ [dotGongDeps, srcName] ++ E ++ F) ++ [last] := by simp
  have hfullne : ∀ k, k ≤ F.length →
      rc ++ [dotGongDeps, srcName] ++ (E ++ F ++ [last])
        ≠ rc ++ [dotGongDeps, srcName] ++ E ++ F.take k := by
    intro k hk h
    have := congrArg List.length h
    simp [List.length_take] at this
    omega
  have hwfull : w.fs (rc ++ [dotGongDeps, srcName] ++ (E ++ F ++ [last])) = none := by
    have := hfree (F.length + 1) (by omega) (le_refl _)
    rw [List.take_of_length_le (by simp)] at this
    rw [hfull]
    simpa [List.append_assoc] using this
  have hnone' : t' (rc ++ [dotGongDeps, srcName] ++ (E ++ F ++ [last])) = none := by
    rw [hframe _ (fun k _ hk => hfullne k hk)]
    exact hwfull
  have hordfull : ∀ e ∈ rc ++ [dotGongDeps, srcName] ++ (E ++ F ++ [last]), ordinary e := by
    intro e he
    rcases List.mem_append.mp he with h | h
    · exact hD e h
    · rcases List.mem_append.mp h with h' | h'
      · exact hEF e h'
      · rw [List.mem_singleton.mp h']; exact hlast
  have hdir' : ∀ k, k < (rc ++ [dotGongDeps, srcName] ++ (E ++ F ++ [last])).length →
      t' ((rc ++ [dotGongDeps, srcName] ++ (E ++ F ++ [last])).take k) = some .dir := by
    intro k hk
    rw [hfull] at hk ⊢
    simp only [List.length_append, List.length_singleton] at hk
    rw [List.take_append_of_le_length (by simp only [List.length_append]; omega)]
    exact hreal' k (by simp only [List.length_append]; omega)
  have hsym : ∀ (v : World) (tg : GoString), v.fs = t' →
      Symlink v tg (absPath (rc ++ [dotGongDeps, srcName] ++ (E ++ F ++ [last])))
        = .ok { v with fs := (t'.set (rc ++ [dotGongDeps, srcName] ++ (E ++ F ++ [last]))
            (.symlink tg)) } := by
    intro v tg hv
    have := symlink_fresh v tg _ hordfull (by rw [hv]; exact realDirs_root _ _ hreal')
      (by rw [hv]; exact hdir') (by rw [hv]; exact hnone')
    rw [hv] at this
    exact this
  -- put together
  have hlen : (E ++ F ++ [last]).length + 1 = (E ++ F).length + 2 := by
    simp only [List.length_append, List.length_singleton]
  apply Exists.intro
  refine ⟨?heq, ?h2, ?h3, ?h4, ?h5⟩
  case heq =>
    unfold provision
    simp only [hJm, hJs, hJb, hJp]
    have e1 := hOpen (w.print (.settingUp (absPath rc))) rfl
    have e2 := hMk (w.print (.settingUp (absPath rc))) _ rfl hD hrealD
    have e3 := hMk (w.print (.settingUp (absPath rc))) _ rfl hordBin hrealBin
    have e4 := hMk (w.print (.settingUp (absPath rc))) _ rfl hordPkg hrealPkg
    simp only [e1, e2, e3, e4, orFail, orFailAll]
    have hstd : (((w.print (.settingUp (absPath rc))).print .done).print .askPath).stdin
        = pre.map ScanEvent.line ++ .line s :: rest := hin
    rw [hstd, hloop]
    simp only [Outcome.bind, hp, hj1, hj2]
    have hj2' : rc ++ [dotGongDeps, srcName] ++ (E ++ F)
        = rc ++ [dotGongDeps, srcName] ++ E ++ F := by simp
    rw [hj2, hj2'] at hrel
    rw [hj2', hmk]
    simp only [orFail, orFailAll]
    rw [hrel]
    simp only
    rw [hsym _ _ rfl]
  case h2 =>
    show (t'.set _ _) _ = _
    rw [Tree.set_self, hlen]
  case h3 =>
    intro k hk
    have hne : (rc ++ [dotGongDeps, srcName] ++ E ++ F).take k
        ≠ rc ++ [dotGongDeps, srcName] ++ (E ++ F ++ [last]) := by
      intro h
      have := congrArg List.length h
      simp [List.length_take] at this
      omega
    show (t'.set _ _) _ = _
    rw [Tree.set_other _ _ _ _ hne]
    exact hreal' k hk
  case h4 =>
    intro x hx
    have hne : x ≠ rc ++ [dotGongDeps, srcName] ++ (E ++ F ++ [last]) := by
      intro h; rw [h] at hx; exact hx hwfull
    show (t'.set _ _) _ = _
    rw [Tree.set_other _ _ _ _ hne]
    apply hframe
    intro k h1 hk h
    rw [h] at hx
    exact hx (hfreeF k h1 hk)
  case h5 => exact hstd2

/-! ## Forced setup in a provisioned root (C9) -/

/-- C9 as stated fails: in the provisioned root /r with the link of the earlier
path "a/b", the path "a" is accepted, differs from "a/b" and has no link, yet
setup(true) ends the process with status 2: the link location
/r/.gong.deps/src/a is the directory made for "a/b". -/
theorem C9_counterexample :
    (promptLoop (worldProvisioned [['a']]) [.line ['a']]).value = some ['a'] ∧
    (['a'] : GoString) ≠ ['a', '/', 'b'] ∧
    (worldProvisioned [['a']]).fs [['r'], dotGongDeps, srcName, ['a'], ['b']]
      = some (.symlink ['.', '.', '/', '.', '.', '/', '.', '.']) ∧
    (worldProvisioned [['a']]).fs [['r'], dotGongDeps, srcName, ['a']] = some .dir ∧
    (setup true (worldProvisioned [['a']])).exitCode = some 2 ∧
    (setup true (worldProvisioned [['a']])).value = none := by
  decide

/-- C9 (amended): let R = /r1/.../rn be a provisioned root (R and its ancestors
are directories, the empty marker and the directories .gong.deps/src, bin and
pkg are there) and the working directory.  Let standard input hold any number
of rejected lines and then a line accepted as a path p of ordinary elements
E ++ F ++ [last], where the directories E exist below src, and nothing exists
at the locations of F and of the link.  Then setup(true) returns, the link is
at R/.gong.deps/src/p with one ".." for each element of p and one more as
target, the directories of p are there, everything that existed before (marker,
workspace directories, earlier links) is as it was, and the lines are consumed. -/
theorem C9_setup_force (w : World) (rc E F : List GoString) (last s : GoString)
    (pre : List GoString) (rest : List ScanEvent)
    (hcwd : w.cwd = .ok (absPath rc))
    (hrc : ∀ e ∈ rc, ordinary e) (hE : ∀ e ∈ E, ordinary e) (hF : ∀ e ∈ F, ordinary e)
    (hlast : ordinary last)
    (hreal : realDirs w.fs (rc ++ [dotGongDeps, srcName] ++ E))
    (hmarker : w.fs (rc ++ [dotGong]) = some (.file []))
    (hbin : w.fs (rc ++ [dotGongDeps, binName]) = some .dir)
    (hpkg : w.fs (rc ++ [dotGongDeps, pkgName]) = some .dir)
    (hfree : ∀ k, 1 ≤ k → k ≤ F.length + 1 →
      w.fs (rc ++ [dotGongDeps, srcName] ++ E ++ (F ++ [last]).take k) = none)
    (hin : w.stdin = pre.map ScanEvent.line ++ .line s :: rest)
    (hpre : ∀ l ∈ pre, ¬ specValid (specNormalize l))
    (hval : specValid (specNormalize s))
    (hsplit : splitSlash (specNormalize s) = E ++ F ++ [last]) :
    Join [absPath rc, dotGongDeps, srcName, specNormalize s]
      = absPath (rc ++ [dotGongDeps, srcName] ++ (E ++ F ++ [last])) ∧
    ∃ w' : World, setup true w = .ret () w' ∧
      w'.fs (rc ++ [dotGongDeps, srcName] ++ (E ++ F ++ [last]))
        = some (.symlink (joinSlash (List.replicate ((E ++ F ++ [last]).length + 1) dotdot))) ∧
      realDirs w'.fs (rc ++ [dotGongDeps, srcName] ++ E ++ F) ∧
      (∀ x, w.fs x ≠ none → w'.fs x = w.fs x) ∧
      w'.stdin = rest := by
  constructor
  · have hEF : ∀ e ∈ E ++ F, ordinary e := by
      intro e he
      rcases List.mem_append.mp he with h | h
      · exact hE e h
      · exact hF e h
    have hp : specNormalize s = joinSlash ((E ++ F) ++ [last]) := by
      rw [← hsplit, joinSlash_splitSlash]
    rw [hp]
    exact (link_target_elems rc (E ++ F) last hrc hEF hlast).1
  · have hrealR : realDirs w.fs rc := by
      have h1 : rc ++ [dotGongDeps, srcName] ++ E = rc ++ ([dotGongDeps, srcName] ++ E) := by
        simp
      rw [h1] at hreal
      exact realDirs_prefix _ _ _ hreal
    have hroot := rootDir_provisioned w rc hcwd hrc hrealR hmarker
    have hset : setup true w
        = provision (absPath rc) (w.print (.runningAgain (absPath rc))) := by
      unfold setup
      rw [hroot]
      rfl
    rw [hset]
    exact provision_ok (w.print (.runningAgain (absPath rc))) rc E F last s pre rest hrc hE hF
      hlast hreal hmarker hbin hpkg hfree hin hpre hval hsplit

/-- C9 (amended) in the provisioned root /r with the earlier link for "a/b",
for the rejected line "/x" followed by the new path "a/c": setup(true) returns,
the link is made with target "../../..", and the earlier link and the marker
are as they were. -/
theorem C9_setup_force_witness :
    ∃ w' : World, setup true (worldProvisioned [['/', 'x'], ['a', '/', 'c']]) = .ret () w' ∧
      w'.fs [['r'], dotGongDeps, srcName, ['a'], ['c']]
        = some (.symlink ['.', '.', '/', '.', '.', '/', '.', '.']) ∧
      w'.fs [['r'], dotGongDeps, srcName, ['a'], ['b']]
        = some (.symlink ['.', '.', '/', '.', '.', '/', '.', '.']) ∧
      w'.fs [['r'], dotGong] = some (.file []) := by
  obtain ⟨_, w', h1, h2, _, h4, _⟩ :=
    C9_setup_force (worldProvisioned [['/', 'x'], ['a', '/', 'c']]) [['r']] [['a']] [] ['c']
      ['a', '/', 'c'] [['/', 'x']] [] rfl (by decide) (by decide) (by decide) (by decide)
      (by
        intro k hk
        have hk' : k ≤ 4 := hk
        interval_cases k <;> decide)
      (by decide) (by decide) (by decide)
      (by
        intro k h1 h2
        have hk : k = 1 := by
          simp only [List.length_nil, zero_add] at h2
          omega
        subst hk
        decide)
      rfl (by decide) (by decide) (by decide)
  refine ⟨w', h1, ?_, ?_, ?_⟩
  · rw [show ([['r'], dotGongDeps, srcName, ['a'], ['c']] : PPath)
        = [['r']] ++ [dotGongDeps, srcName] ++ ([['a']] ++ [] ++ [['c']]) from rfl, h2]
    decide
  · rw [h4 _ (by decide)]
    decide
  · rw [h4 _ (by decide)]
    decide

/-! ## The bounds on the loops are never reached -/

/-- The loop of Rel gives the same result for every bound from `len(base)` on. -/
theorem relLoop_stable :
    ∀ (n m : Nat) (b t : GoString), b.length ≤ n → b.length ≤ m →
      relLoop n b t = relLoop m b t := by
  intro n
  induction n with
  | zero =>
    intro m b t hn _
    have hb : b = [] := List.length_eq_zero.mp (Nat.le_zero.mp hn)
    subst hb
    cases m with
    | zero => rfl
    | succ m => simp [relLoop]
  | succ n ih =>
    intro m b t hn hm
    cases m with
    | zero =>
      have hb : b = [] := List.length_eq_zero.mp (Nat.le_zero.mp hm)
      subst hb
      simp [relLoop]
    | succ m =>
      unfold relLoop
      by_cases hc : b ≠ [] ∧ t ≠ []
      · rw [if_pos hc, if_pos hc]
        simp only
        split
        · rfl
        · have hpos : 0 < b.length := List.length_pos.mpr hc.1
          apply ih
          · rw [List.length_drop]; omega
          · rw [List.length_drop]; omega
      · rw [if_neg hc, if_neg hc]

theorem parentPart_length_le (path : GoString) : (parentPart path).length ≤ path.length := by
  unfold parentPart
  rw [List.length_reverse]
  have h1 := (List.dropWhile_suffix (fun c => c != '/')
    (l := path.reverse.dropWhile (fun c => c == '/'))).length_le
  have h2 := (List.dropWhile_suffix (fun c => c == '/') (l := path.reverse)).length_le
  rw [List.length_reverse] at h2
  omega

/-- MkdirAll gives the same result for every bound above `len(path)`. -/
theorem mkdirAllFuel_stable :
    ∀ (n m : Nat) (w : World) (path : GoString), path.length < n → path.length < m →
      MkdirAllFuel n w path = MkdirAllFuel m w path := by
  intro n
  induction n with
  | zero => intro m w path hn _; omega
  | succ n ih =>
    intro m w path hn hm
    cases m with
    | zero => omega
    | succ m =>
      unfold MkdirAllFuel
      have hlen := parentPart_length_le path
      by_cases hp : (parentPart path).length > 1
      · have hrec : MkdirAllFuel n w (parentPart path).dropLast
            = MkdirAllFuel m w (parentPart path).dropLast := by
          apply ih
          · rw [List.length_dropLast]; omega
          · rw [List.length_dropLast]; omega
        simp only [hp, if_true, hrec]
      · simp only [hp, if_false]

/-! ## Paths with "." and ".." among their elements -/

/-- Without "//" only the first and the last element of a path can be empty. -/
theorem splitSlash_inner_ne_nil (s : GoString) (h : ¬ slash2 <:+: s) :
    ∀ e ∈ (splitSlash s).tail.dropLast, e ≠ [] := by
  induction s with
  | nil => simp [splitSlash]
  | cons c s ih =>
    have hs : ¬ slash2 <:+: s := fun hh => h (hh.trans (List.suffix_cons c s).isInfix)
    by_cases hc : c = '/'
    · subst hc
      rw [splitSlash_cons_slash]
      simp only [List.tail_cons]
      cases s with
      | nil => simp [splitSlash]
      | cons d s' =>
        have hd : d ≠ '/' := by
          intro hd; subst hd
          exact h ⟨[], s', rfl⟩
        have ih' := ih hs
        rw [splitSlash_cons_of_ne d s' hd] at ih' ⊢
        simp only [List.tail_cons] at ih'
        intro e he
        by_cases ht : (splitSlash s').tail = []
        · rw [ht] at he; simp at he
        · rw [List.dropLast_cons_of_ne_nil ht] at he
          rcases List.mem_cons.mp he with h1 | h1
          · rw [h1]; simp
          · exact ih' e h1
    · rw [splitSlash_cons_of_ne c s hc]
      simpa using ih hs

/-- In a path the prompt accepts every element but the last is non-empty. -/
theorem splitSlash_dropLast_ne_nil (p : GoString) (hv : specValid p) :
    ∀ e ∈ (splitSlash p).dropLast, e ≠ [] := by
  obtain ⟨hne, hpre, hcon⟩ := hv
  obtain ⟨c, s, rfl⟩ := List.exists_cons_of_ne_nil hne
  have hc : c ≠ '/' := by
    intro hc; subst hc
    have : HasPrefix ('/' :: s) slash = true := by
      rw [hasPrefix_iff]; exact ⟨s, rfl⟩
    rw [this] at hpre; exact Bool.noConfusion hpre
  have h2 : ¬ slash2 <:+: c :: s := by
    intro hh
    rw [← contains_iff] at hh
    rw [hh] at hcon; exact Bool.noConfusion hcon
  have hin := splitSlash_inner_ne_nil (c :: s) h2
  rw [splitSlash_cons_of_ne c s hc] at hin ⊢
  simp only [List.tail_cons] at hin
  intro e he
  by_cases ht : (splitSlash s).tail = []
  · rw [ht] at he; simp at he
  · rw [List.dropLast_cons_of_ne_nil ht] at he
    rcases List.mem_cons.mp he with h1 | h1
    · rw [h1]; simp
    · exact hin e h1

theorem cleanStep_keeps_names (rooted : Bool) (S : List GoString) (e : GoString)
    (hS : ∀ x ∈ S, x ≠ [] ∧ x ≠ dot) : ∀ x ∈ cleanStep rooted S e, x ≠ [] ∧ x ≠ dot := by
  unfold cleanStep
  by_cases h1 : e = [] ∨ e = dot
  · rw [if_pos h1]; exact hS
  · rw [if_neg h1]
    by_cases h2 : e = dotdot
    · rw [if_pos h2]
      cases S with
      | nil =>
        cases rooted
        · intro x hx
          simp only [Bool.false_eq_true, if_false, List.mem_singleton] at hx
          subst hx; decide
        · simp
      | cons top rest =>
        simp only
        by_cases h3 : top = dotdot
        · rw [if_pos h3]
          intro x hx
          rcases List.mem_cons.mp hx with h | h
          · subst h; decide
          · exact hS x h
        · rw [if_neg h3]
          intro x hx
          exact hS x (List.mem_cons_of_mem _ hx)
    · rw [if_neg h2]
      intro x hx
      rcases List.mem_cons.mp hx with h | h
      · subst h
        exact ⟨fun hh => h1 (Or.inl hh), fun hh => h1 (Or.inr hh)⟩
      · exact hS x h

theorem cleanStep_no_slash (rooted : Bool) (S : List GoString) (e : GoString)
    (hS : ∀ x ∈ S, '/' ∉ x) (he : '/' ∉ e) : ∀ x ∈ cleanStep rooted S e, '/' ∉ x := by
  unfold cleanStep
  by_cases h1 : e = [] ∨ e = dot
  · rw [if_pos h1]; exact hS
  · rw [if_neg h1]
    by_cases h2 : e = dotdot
    · rw [if_pos h2]
      cases S with
      | nil =>
        cases rooted
        · intro x hx
          simp only [Bool.false_eq_true, if_false, List.mem_singleton] at hx
          subst hx; decide
        · simp
      | cons top rest =>
        simp only
        by_cases h3 : top = dotdot
        · rw [if_pos h3]
          intro x hx
          rcases List.mem_cons.mp hx with h | h
          · subst h; decide
          · exact hS x h
        · rw [if_neg h3]
          intro x hx
          exact hS x (List.mem_cons_of_mem _ hx)
    · rw [if_neg h2]
      intro x hx
      rcases List.mem_cons.mp hx with h | h
      · subst h; exact he
      · exact hS x h

theorem foldl_cleanStep_no_slash (rooted : Bool) (X : List GoString) :
    ∀ st : List GoString, (∀ e ∈ st, '/' ∉ e) → (∀ e ∈ X, '/' ∉ e) →
      ∀ e ∈ X.foldl (cleanStep rooted) st, '/' ∉ e := by
  induction X with
  | nil => intro st hst _; exact hst
  | cons x X ih =>
    intro st hst hX
    simp only [List.foldl_cons]
    exact ih _ (cleanStep_no_slash rooted st x hst (hX x (List.mem_cons_self _ _)))
      (fun e he => hX e (List.mem_cons_of_mem _ he))

theorem cleanStep_skip (rooted : Bool) (st : List GoString) (e : GoString)
    (h : e = [] ∨ e = dot) : cleanStep rooted st e = st := by
  unfold cleanStep; rw [if_pos h]

theorem cleanStep_push (rooted : Bool) (st : List GoString) (e : GoString)
    (h1 : ¬ (e = [] ∨ e = dot)) (h2 : e ≠ dotdot) : cleanStep rooted st e = e :: st := by
  unfold cleanStep; rw [if_neg h1, if_neg h2]

theorem cleanStep_dotdot_keep (rest : List GoString) :
    cleanStep false (dotdot :: rest) dotdot = dotdot :: dotdot :: rest := by
  unfold cleanStep; rw [if_neg (by decide), if_pos rfl]; simp

/-- One step of the comparison in `foldl_cleanStep_relative`. -/
theorem cleanStep_relative (st S : List GoString) (e : GoString)
    (hS : ∀ x ∈ S, x ≠ [] ∧ x ≠ dot) :
    (cleanStep false S e).reverse.foldl (cleanStep true) st
      = cleanStep true (S.reverse.foldl (cleanStep true) st) e := by
  by_cases h1 : e = [] ∨ e = dot
  · rw [cleanStep_skip false S e h1, cleanStep_skip true _ e h1]
  · by_cases h2 : e = dotdot
    · subst h2
      cases S with
      | nil => rfl
      | cons top rest =>
        have ht := hS top (List.mem_cons_self _ _)
        by_cases h3 : top = dotdot
        · subst h3
          rw [cleanStep_dotdot_keep]
          simp only [List.reverse_cons, List.foldl_append, List.foldl_cons, List.foldl_nil]
        · rw [cleanStep_dotdot_pop false top rest h3]
          simp only [List.reverse_cons, List.foldl_append, List.foldl_cons, List.foldl_nil]
          rw [cleanStep_push true _ top (by simp [ht.1, ht.2]) h3,
            cleanStep_dotdot_pop true top _ h3]
    · rw [cleanStep_push false S e h1 h2]
      simp only [List.reverse_cons, List.foldl_append, List.foldl_cons, List.foldl_nil]

/-- Cleaning a relative list of elements first and applying the result to a
rooted path is the same as applying the elements themselves. -/
theorem foldl_cleanStep_relative (st : List GoString) (L : List GoString) :
    ∀ S : List GoString, (∀ x ∈ S, x ≠ [] ∧ x ≠ dot) →
      (L.foldl (cleanStep false) S).reverse.foldl (cleanStep true) st
        = L.foldl (cleanStep true) (S.reverse.foldl (cleanStep true) st) := by
  induction L with
  | nil => intro S _; rfl
  | cons e L ih =>
    intro S hS
    simp only [List.foldl_cons]
    rw [ih (cleanStep false S e) (cleanStep_keeps_names false S e hS),
      cleanStep_relative st S e hS]

theorem foldl_cleanStep_cleanElems (st : List GoString) (L : List GoString) :
    (cleanElems false L).foldl (cleanStep true) st = L.foldl (cleanStep true) st := by
  have := foldl_cleanStep_relative st L [] (by simp)
  simpa [cleanElems] using this


/-- Dir of a relative path whose elements before the last are not empty: in a
later Join the result acts as those elements themselves. -/
theorem foldl_cleanStep_dir_general (init : List GoString) (last : GoString)
    (hi : ∀ e ∈ init, e ≠ [] ∧ '/' ∉ e) (hl : '/' ∉ last) (st : List GoString) :
    (splitSlash (Dir (joinSlash (init ++ [last])))).foldl (cleanStep true) st
      = init.foldl (cleanStep true) st := by
  unfold Dir
  by_cases h : init = []
  · subst h
    simp only [List.nil_append, joinSlash_singleton]
    rw [dirPart_of_no_slash last hl]
    simp [Clean, dot, splitSlash, cleanStep]
  · rw [joinSlash_concat init last h, dirPart_append_slash _ last hl]
    obtain ⟨a, init', rfl⟩ := List.exists_cons_of_ne_nil h
    have ha := hi a (List.mem_cons_self _ _)
    obtain ⟨c, a', rfl⟩ := List.exists_cons_of_ne_nil ha.1
    have hc : c ≠ '/' := by
      intro hc; subst hc; exact ha.2 (List.mem_cons_self _ _)
    have hnr : HasPrefix (joinSlash ((c :: a') :: init') ++ ['/']) slash = false := by
      cases init' with
      | nil => simp [joinSlash_singleton, HasPrefix, slash, List.isPrefixOf, Ne.symm hc]
      | cons b L => simp [joinSlash_cons_cons, HasPrefix, slash, List.isPrefixOf, Ne.symm hc]
    have hsplit : splitSlash (joinSlash ((c :: a') :: init') ++ ['/'])
        = ((c :: a') :: init') ++ [[]] := by
      have : joinSlash ((c :: a') :: init') ++ ['/']
          = joinSlash ((c :: a') :: init') ++ '/' :: [] := rfl
      rw [this, splitSlash_append_slash,
        splitSlash_joinSlash _ (by simp) (fun e he => (hi e he).2)]
      rfl
    have hce : cleanElems false (((c :: a') :: init') ++ [[]])
        = cleanElems false ((c :: a') :: init') := by
      unfold cleanElems
      rw [List.foldl_append]
      simp [cleanStep_empty]
    have hns : ∀ e ∈ cleanElems false ((c :: a') :: init'), '/' ∉ e := by
      intro e he
      unfold cleanElems at he
      rw [List.mem_reverse] at he
      exact foldl_cleanStep_no_slash false _ [] (by simp) (fun x hx => (hi x hx).2) e he
    have hrel := foldl_cleanStep_cleanElems st ((c :: a') :: init')
    unfold Clean
    rw [if_neg (by simp)]
    simp only [hnr, Bool.false_eq_true, if_false, hsplit, hce]
    by_cases ho : cleanElems false ((c :: a') :: init') = []
    · rw [if_pos ho]
      rw [ho] at hrel
      rw [← hrel]
      simp [dot, splitSlash, cleanStep]
    · rw [if_neg ho, splitSlash_joinSlash _ ho hns]
      exact hrel

theorem ordinary_names : ∀ e ∈ [dotGongDeps, srcName], ordinary e := by
  intro e he
  simp only [List.mem_cons, List.mem_singleton, List.not_mem_nil, or_false] at he
  rcases he with h | h
  · subst h; exact ordinary_dotGongDeps
  · subst h; exact ordinary_srcName

/-- The elements of the directory in which setup makes the link, for the root
with elements `rc` and a path whose elements before the last are `init`. -/
theorem linkDir_ordinary (rc init : List GoString) (hrc : ∀ e ∈ rc, ordinary e)
    (hi : ∀ e ∈ init, '/' ∉ e) :
    ∀ e ∈ (init.foldl (cleanStep true) (srcName :: dotGongDeps :: rc.reverse)).reverse,
      ordinary e := by
  intro e he
  rw [List.mem_reverse] at he
  refine foldl_cleanStep_rooted_ordinary init _ ?_ hi e he
  intro x hx
  rcases List.mem_cons.mp hx with h | h
  · subst h; exact ordinary_srcName
  · rcases List.mem_cons.mp h with h' | h'
    · subst h'; exact ordinary_dotGongDeps
    · exact hrc x (List.mem_reverse.mp h')

/-- The location of the link, by elements, for a path with an ordinary last
element. -/
theorem join_link_general (rc init : List GoString) (last p : GoString)
    (hrc : ∀ e ∈ rc, ordinary e) (hsplit : splitSlash p = init ++ [last])
    (hl : ordinary last) :
    Join [absPath rc, dotGongDeps, srcName, p]
      = absPath ((init.foldl (cleanStep true) (srcName :: dotGongDeps :: rc.reverse)).reverse
          ++ [last]) := by
  have := join_absPath rc [dotGongDeps, srcName] p hrc ordinary_names
  simp only [List.cons_append, List.nil_append] at this
  rw [this, hsplit, List.foldl_append]
  simp only [List.foldl_cons, List.foldl_nil, List.reverse_cons, List.reverse_nil,
    List.nil_append, List.cons_append]
  rw [cleanStep_ordinary true _ last hl]
  simp

/-- The directory made for the link, by elements. -/
theorem join_base_general (rc init : List GoString) (last p : GoString)
    (hrc : ∀ e ∈ rc, ordinary e) (hsplit : splitSlash p = init ++ [last])
    (hi : ∀ e ∈ init, e ≠ []) :
    Join [absPath rc, dotGongDeps, srcName, Dir p]
      = absPath ((init.foldl (cleanStep true) (srcName :: dotGongDeps :: rc.reverse)).reverse)
      := by
  have hns : ∀ e ∈ init ++ [last], '/' ∉ e := by
    intro e he
    rw [← hsplit] at he
    exact not_mem_slash_of_mem_splitSlash p e he
  have hp : p = joinSlash (init ++ [last]) := by
    rw [← hsplit, joinSlash_splitSlash]
  have := join_absPath rc [dotGongDeps, srcName] (Dir p) hrc ordinary_names
  simp only [List.cons_append, List.nil_append] at this
  rw [this, hp, foldl_cleanStep_dir_general init last
    (fun e he => ⟨hi e he, hns e (List.mem_append_left _ he)⟩)
    (hns last (by simp))]
  simp


theorem takeWhile_joinSlash (b : GoString) (X : List GoString) (hb : '/' ∉ b) :
    (joinSlash (b :: X)).takeWhile (fun x => x != '/') = b := by
  cases X with
  | nil => rw [joinSlash_singleton]; exact takeWhile_no_slash_self b hb
  | cons x X => rw [joinSlash_cons_cons]; exact takeWhile_no_slash b _ hb

theorem drop_joinSlash (b : GoString) (X : List GoString) :
    (joinSlash (b :: X)).drop (b.length + 1) = joinSlash X := by
  cases X with
  | nil =>
    rw [joinSlash_singleton, joinSlash_nil]
    exact List.drop_eq_nil_of_le (by omega)
  | cons x X =>
    rw [joinSlash_cons_cons]
    have : b ++ '/' :: joinSlash (x :: X) = (b ++ ['/']) ++ joinSlash (x :: X) := by simp
    rw [this]
    exact List.drop_left' (by simp)

theorem joinSlash_cons_ne_nil (b : GoString) (X : List GoString) (hb : b ≠ []) :
    joinSlash (b :: X) ≠ [] := by
  cases X with
  | nil => rw [joinSlash_singleton]; exact hb
  | cons x X => rw [joinSlash_cons_cons]; simp [hb]

/-- A first element common to both texts is skipped. -/
theorem relLoop_cons (n : Nat) (x : GoString) (X Y : List GoString) (hx : '/' ∉ x)
    (hne : x ≠ []) :
    relLoop (n + 1) (joinSlash (x :: X)) (joinSlash (x :: Y))
      = relLoop n (joinSlash X) (joinSlash Y) := by
  conv_lhs => unfold relLoop
  rw [if_pos ⟨joinSlash_cons_ne_nil x X hne, joinSlash_cons_ne_nil x Y hne⟩,
    takeWhile_joinSlash x X hx, takeWhile_joinSlash x Y hx]
  simp only [ne_eq, not_true_eq_false, if_false, drop_joinSlash]

/-- At first elements that differ the loop stops. -/
theorem relLoop_diverge (n : Nat) (b t : GoString) (X Y : List GoString)
    (hb : '/' ∉ b) (ht : '/' ∉ t) (hbne : b ≠ []) (htne : t ≠ []) (hne : b ≠ t) :
    relLoop (n + 1) (joinSlash (b :: X)) (joinSlash (t :: Y))
      = (joinSlash (b :: X), joinSlash (t :: Y), b) := by
  conv_lhs => unfold relLoop
  rw [if_pos ⟨joinSlash_cons_ne_nil b X hbne, joinSlash_cons_ne_nil t Y htne⟩,
    takeWhile_joinSlash b X hb, takeWhile_joinSlash t Y ht]
  simp only [ne_eq, Ne.symm hne, not_false_eq_true, if_true]

theorem relLoop_nil_left (n : Nat) (t : GoString) : relLoop n [] t = ([], t, []) := by
  cases n with
  | zero => rfl
  | succ n => simp [relLoop]

/-- The loop of Rel on two lists of elements with the common start `c`: it
stops with what follows `c` on either side. -/
theorem relLoop_strip (c : List GoString) :
    ∀ (n : Nat) (Bd Td : List GoString), (∀ e ∈ c, ordinary e) → (∀ e ∈ Bd, ordinary e) →
      (∀ e ∈ Td, ordinary e) →
      (∀ b t, Bd.head? = some b → Td.head? = some t → b ≠ t) →
      c.length ≤ n → (Bd ≠ [] → Td ≠ [] → c.length + 1 ≤ n) →
      ∃ stop, relLoop n (joinSlash (c ++ Bd)) (joinSlash (c ++ Td))
          = (joinSlash Bd, joinSlash Td, stop) ∧ (stop = [] ∨ stop ∈ Bd) := by
  induction c with
  | nil =>
    intro n Bd Td _ hB hT hdiff _ hn2
    cases Bd with
    | nil => exact ⟨[], by simp [joinSlash_nil, relLoop_nil_left], Or.inl rfl⟩
    | cons b Bd =>
      cases Td with
      | nil => exact ⟨[], by simp [joinSlash_nil, relLoop_nil_right], Or.inl rfl⟩
      | cons t Td =>
        have hn := hn2 (by simp) (by simp)
        obtain ⟨m, rfl⟩ : ∃ m, n = m + 1 := ⟨n - 1, by simp at hn; omega⟩
        have hb := hB b (List.mem_cons_self _ _)
        have ht := hT t (List.mem_cons_self _ _)
        refine ⟨b, ?_, Or.inr (List.mem_cons_self _ _)⟩
        simp only [List.nil_append]
        exact relLoop_diverge m b t Bd Td hb.2.2.2 ht.2.2.2 hb.1 ht.1 (hdiff b t rfl rfl)
  | cons x c ih =>
    intro n Bd Td hc hB hT hdiff hn1 hn2
    obtain ⟨m, rfl⟩ : ∃ m, n = m + 1 := ⟨n - 1, by simp at hn1; omega⟩
    have hx := hc x (List.mem_cons_self _ _)
    simp only [List.cons_append]
    rw [relLoop_cons m x _ _ hx.2.2.2 hx.1]
    exact ih m Bd Td (fun e he => hc e (List.mem_cons_of_mem _ he)) hB hT hdiff
      (by simp at hn1; omega)
      (fun h1 h2 => by have := hn2 h1 h2; simp at this; omega)

theorem two_mul_length_le (L : List GoString) (h : ∀ e ∈ L, e ≠ []) :
    2 * L.length ≤ (L.map (fun e => e.length + 1)).sum := by
  induction L with
  | nil => simp
  | cons a L ih =>
    have ha := List.length_pos.mpr (h a (List.mem_cons_self _ _))
    have := ih (fun e he => h e (List.mem_cons_of_mem _ he))
    simp only [List.map_cons, List.sum_cons, List.length_cons]
    omega

theorem absPath_inj (X Y : List GoString) (hX : ∀ e ∈ X, ordinary e)
    (hY : ∀ e ∈ Y, ordinary e) (h : absPath X = absPath Y) : X = Y := by
  have h1 := foldl_cleanStep_absPath X hX []
  have h2 := foldl_cleanStep_absPath Y hY []
  rw [h] at h1
  rw [h1] at h2
  simpa using h2

/-- Two lists of names split into a common start and two rests that differ at
their first elements (when both have one). -/
theorem exists_common_start (B : List GoString) :
    ∀ T : List GoString, ∃ c Bd Td : List GoString, B = c ++ Bd ∧ T = c ++ Td ∧
      ∀ b t, Bd.head? = some b → Td.head? = some t → b ≠ t := by
  induction B with
  | nil => intro T; exact ⟨[], [], T, rfl, rfl, by simp⟩
  | cons b B ih =>
    intro T
    cases T with
    | nil => exact ⟨[], b :: B, [], rfl, rfl, by simp⟩
    | cons t T =>
      by_cases h : b = t
      · subst h
        obtain ⟨c, Bd, Td, h1, h2, h3⟩ := ih T
        exact ⟨b :: c, Bd, Td, by rw [h1]; rfl, by rw [h2]; rfl, h3⟩
      · refine ⟨[], b :: B, t :: T, rfl, rfl, ?_⟩
        intro b' t' hb ht
        simp only [List.head?_cons, Option.some.injEq] at hb ht
        subst hb; subst ht; exact h

/-- Rel between two absolute paths of ordinary names that differ: one ".." for
each element of the base below the common start, then the elements of the
target below it. -/
theorem rel_absPath_general (c Bd Td : List GoString) (hc : ∀ e ∈ c, ordinary e)
    (hB : ∀ e ∈ Bd, ordinary e) (hT : ∀ e ∈ Td, ordinary e)
    (hdiff : ∀ b t, Bd.head? = some b → Td.head? = some t → b ≠ t)
    (hne : Bd ≠ [] ∨ Td ≠ []) :
    Rel (absPath (c ++ Bd)) (absPath (c ++ Td))
      = some (joinSlash (List.replicate Bd.length dotdot ++ Td)) := by
  have hallB : ∀ e ∈ c ++ Bd, ordinary e := by
    intro e he
    rcases List.mem_append.mp he with h | h
    · exact hc e h
    · exact hB e h
  have hallT : ∀ e ∈ c ++ Td, ordinary e := by
    intro e he
    rcases List.mem_append.mp he with h | h
    · exact hc e h
    · exact hT e h
  have hneq : absPath (c ++ Td) ≠ absPath (c ++ Bd) := by
    intro h
    have h1 := absPath_inj _ _ hallT hallB h
    have h2 : Td = Bd := List.append_cancel_left h1
    subst h2
    cases Td with
    | nil => simp at hne
    | cons t Td => exact hdiff t t rfl rfl rfl
  have hnd : absPath (c ++ Bd) ≠ dot := by simp [absPath, dot]
  obtain ⟨stop, hloop, hstop⟩ : ∃ stop,
      relLoop (absPath (c ++ Bd)).length (absPath (c ++ Bd)) (absPath (c ++ Td))
        = (joinSlash Bd, joinSlash Td, stop) ∧ (stop = [] ∨ stop ∈ Bd) := by
    obtain ⟨m, hm⟩ : ∃ m, (absPath (c ++ Bd)).length = m + 1 := ⟨_, rfl⟩
    rw [hm]
    have h1 : absPath (c ++ Bd) = [] ++ '/' :: joinSlash (c ++ Bd) := rfl
    have h2 : absPath (c ++ Td) = [] ++ '/' :: joinSlash (c ++ Td) := rfl
    have hmm : m = (joinSlash (c ++ Bd)).length := by
      simp only [absPath, List.length_cons] at hm; omega
    have hw := two_mul_length_le (c ++ Bd) (fun e he => (hallB e he).1)
    rw [h1, h2, relLoop_step m [] _ _ (by simp)]
    by_cases hcb : c ++ Bd = []
    · have hc0 : c = [] := (List.append_eq_nil.mp hcb).1
      have hb0 : Bd = [] := (List.append_eq_nil.mp hcb).2
      subst hc0; subst hb0
      exact relLoop_strip [] m [] Td hc hB hT hdiff (by simp) (fun h => absurd rfl h)
    · have hl := length_joinSlash (c ++ Bd) hcb
      have hlen : (c ++ Bd).length = c.length + Bd.length := List.length_append _ _
      apply relLoop_strip c m Bd Td hc hB hT hdiff
      · have : c.length ≠ 0 ∨ Bd.length ≠ 0 := by
          by_contra hh
          push_neg at hh
          apply hcb
          rw [List.length_eq_zero] at hh
          rw [hh.1, List.length_eq_zero.mp hh.2]
          rfl
        omega
      · intro hb _
        have : Bd.length ≠ 0 := by simpa using hb
        omega
  have hsd : stop ≠ dotdot := by
    rcases hstop with h | h
    · subst h; decide
    · exact (hB stop h).2.2.1
  unfold Rel
  simp only [clean_absPath _ hallB, clean_absPath _ hallT, hneq, hnd, if_false,
    hasPrefix_absPath, ne_eq, not_true_eq_false, hloop, hsd]
  by_cases hb : Bd = []
  · subst hb
    simp [joinSlash_nil]
  · have hjb : joinSlash Bd ≠ [] := joinSlash_ne_nil Bd hb (fun e he => (hB e he).1)
    simp only [hjb, not_false_eq_true, if_true]
    rw [count_slash_joinSlash Bd (fun e he => (hB e he).2.2.2)]
    obtain ⟨k, hk⟩ : ∃ k, Bd.length = k + 1 :=
      ⟨Bd.length - 1, by have : Bd.length ≠ 0 := by simpa using hb
                         omega⟩
    rw [hk]
    simp only [Nat.add_sub_cancel]
    rw [← joinSlash_replicate_dotdot]
    by_cases ht : Td = []
    · subst ht; simp [joinSlash_nil]
    · have hjt : joinSlash Td ≠ [] := joinSlash_ne_nil Td ht (fun e he => (hT e he).1)
      simp only [hjt, not_false_eq_true, if_true]
      rw [joinSlash_append _ _ (by simp) ht]

theorem rel_absPath_self (B : List GoString) : Rel (absPath B) (absPath B) = some dot := by
  unfold Rel
  simp

/-- The relative path of `rel_absPath_general` joined to the base gives the
target. -/
theorem foldl_cleanStep_rel (c Bd Td : List GoString) (hB : ∀ e ∈ Bd, ordinary e)
    (hT : ∀ e ∈ Td, ordinary e) :
    (List.replicate Bd.length dotdot ++ Td).foldl (cleanStep true) ((c ++ Bd).reverse)
      = (c ++ Td).reverse := by
  rw [List.foldl_append, List.reverse_append]
  have h3 := foldl_cleanStep_dotdots true Bd.reverse c.reverse
    (fun e he => hB e (List.mem_reverse.mp he))
  rw [List.length_reverse] at h3
  rw [h3, foldl_cleanStep_ordinary true Td _ hT]
  simp

/-! ## Resolution through a link made by setup -/

theorem walk_eq_walkFrom (t : Tree) (fl : Bool) (n : Nat) :
    ∃ follow, walk t fl n = walkFrom t follow fl := by
  cases n with
  | zero => exact ⟨_, rfl⟩
  | succ n => exact ⟨_, rfl⟩

/-- Resolution of an absolute path text of ordinary names, as a walk over its
elements from the root directory. -/
theorem resolve_absPath_walk (w : World) (fl : Bool) (L : List GoString)
    (hL : ∀ e ∈ L, ordinary e) (hroot : w.fs [] = some .dir) (hne : L ≠ []) :
    resolve w fl (absPath L) = walk w.fs fl maxSymlinks [] L := by
  unfold resolve
  rw [if_neg (absPath_ne_nil L)]
  simp only [hasPrefix_absPath, if_true]
  obtain ⟨follow, hf⟩ := walk_eq_walkFrom w.fs fl maxSymlinks
  rw [hf]
  unfold absPath
  rw [splitSlash_cons_slash, splitSlash_joinSlash L hne (fun e he => (hL e he).2.2.2)]
  conv_lhs => unfold walkFrom
  simp only [hroot, true_or, if_true]

/-- Along real directories a walk whose last element names a link, with final
links followed, hands the target of the link to `follow`. -/
theorem walkFrom_to_link (t : Tree)
    (follow : PPath → GoString → List GoString → Except Errno PPath) (last tg : GoString)
    (hlast : ordinary last) :
    ∀ (elems : List GoString) (cur : PPath), (∀ e ∈ elems, ordinary e) →
      (∀ k, k ≤ elems.length → t (cur ++ elems.take k) = some .dir) →
      t (cur ++ elems ++ [last]) = some (.symlink tg) →
      walkFrom t follow true cur (elems ++ [last]) = follow (cur ++ elems) tg [] := by
  intro elems
  induction elems with
  | nil =>
    intro cur _ hdir hlink
    have h0 : t cur = some .dir := by simpa using hdir 0 (by simp)
    simp only [List.append_nil] at hlink
    simp only [List.nil_append, List.append_nil]
    unfold walkFrom
    simp only [h0, hlast.1, hlast.2.1, hlast.2.2.1, or_self, if_false, hlink]
    simp
  | cons c rest ih =>
    intro cur hord hdir hlink
    have h0 : t cur = some .dir := by simpa using hdir 0 (by simp)
    have h1 : t (cur ++ [c]) = some .dir := by simpa using hdir 1 (by simp)
    have hc := hord c (List.mem_cons_self _ _)
    have hrec := ih (cur ++ [c]) (fun e he => hord e (List.mem_cons_of_mem _ he))
      (by
        intro k hk
        have := hdir (k + 1) (by simp; omega)
        simpa using this)
      (by simpa using hlink)
    simp only [List.cons_append]
    unfold walkFrom
    simp only [h0, hc.1, hc.2.1, hc.2.2.1, or_self, if_false, h1]
    simpa using hrec

/-- Along real directories a walk that does not follow a final link ends at
the location its elements name, whatever is there. -/
theorem walkFrom_nofollow (t : Tree)
    (follow : PPath → GoString → List GoString → Except Errno PPath) (last : GoString)
    (hlast : ordinary last) :
    ∀ (elems : List GoString) (cur : PPath), (∀ e ∈ elems, ordinary e) →
      (∀ k, k ≤ elems.length → t (cur ++ elems.take k) = some .dir) →
      walkFrom t follow false cur (elems ++ [last]) = .ok (cur ++ elems ++ [last]) := by
  intro elems
  induction elems with
  | nil =>
    intro cur _ hdir
    have h0 : t cur = some .dir := by simpa using hdir 0 (by simp)
    simp only [List.nil_append, List.append_nil]
    unfold walkFrom
    simp only [h0, hlast.1, hlast.2.1, hlast.2.2.1, or_self, if_false]
    cases hn : t (cur ++ [last]) with
    | none => simp [walkFrom]
    | some nd =>
      cases nd with
      | file d => simp [walkFrom]
      | dir => simp [walkFrom]
      | symlink tg => simp
  | cons c rest ih =>
    intro cur hord hdir
    have h0 : t cur = some .dir := by simpa using hdir 0 (by simp)
    have h1 : t (cur ++ [c]) = some .dir := by simpa using hdir 1 (by simp)
    have hc := hord c (List.mem_cons_self _ _)
    have hrec := ih (cur ++ [c]) (fun e he => hord e (List.mem_cons_of_mem _ he))
      (by
        intro k hk
        have := hdir (k + 1) (by simp; omega)
        simpa using this)
    simp only [List.cons_append]
    unfold walkFrom
    simp only [h0, hc.1, hc.2.1, hc.2.2.1, or_self, if_false, h1]
    simpa using hrec

/-- Each ".." leads one real directory up. -/
theorem walkFrom_up (t : Tree)
    (follow : PPath → GoString → List GoString → Except Errno PPath) (fl : Bool)
    (c : PPath) (more : List GoString) :
    ∀ Bd : List GoString, (∀ k, 1 ≤ k → k ≤ Bd.length → t (c ++ Bd.take k) = some .dir) →
      walkFrom t follow fl (c ++ Bd) (List.replicate Bd.length dotdot ++ more)
        = walkFrom t follow fl c more := by
  intro Bd
  induction Bd using List.reverseRecOn with
  | nil => intro _; simp
  | append_singleton Bd x ih =>
    intro hdir
    have htop : t (c ++ (Bd ++ [x])) = some .dir := by
      have := hdir (Bd.length + 1) (by omega) (by simp)
      rw [List.take_of_length_le (by simp)] at this
      exact this
    have hrec := ih (by
      intro k h1 hk
      have := hdir k h1 (by simp; omega)
      rw [List.take_append_of_le_length hk] at this
      exact this)
    have hlen : (Bd ++ [x]).length = Bd.length + 1 := by simp
    rw [hlen, List.replicate_succ, List.cons_append]
    conv_lhs => unfold walkFrom
    have hdl : (c ++ (Bd ++ [x])).dropLast = c ++ Bd := by
      rw [← List.append_assoc, List.dropLast_concat]
    have hd1 : ¬ (dotdot = [] ∨ dotdot = dot) := by decide
    simp only [htop, hd1, if_false, if_true, hdl]
    exact hrec

/-- The link made by setup, resolved: from the directory `c ++ Bd` of the link
the target leads up to `c` and down to `c ++ Td`. -/
theorem resolve_link (w : World) (c Bd Td : List GoString) (last : GoString)
    (hc : ∀ e ∈ c, ordinary e) (hB : ∀ e ∈ Bd, ordinary e) (hT : ∀ e ∈ Td, ordinary e)
    (hlast : ordinary last) (hne : Bd ≠ [] ∨ Td ≠ [])
    (hrealB : realDirs w.fs (c ++ Bd)) (hrealT : realDirs w.fs (c ++ Td))
    (hlink : w.fs (c ++ Bd ++ [last])
      = some (.symlink (joinSlash (List.replicate Bd.length dotdot ++ Td)))) :
    resolve w true (absPath (c ++ Bd ++ [last])) = .ok (c ++ Td) := by
  have hroot := realDirs_root _ _ hrealB
  have hallB : ∀ e ∈ c ++ Bd, ordinary e := by
    intro e he
    rcases List.mem_append.mp he with h | h
    · exact hc e h
    · exact hB e h
  have hall : ∀ e ∈ c ++ Bd ++ [last], ordinary e := by
    intro e he
    rcases List.mem_append.mp he with h | h
    · exact hallB e h
    · rw [List.mem_singleton.mp h]; exact hlast
  have hX : List.replicate Bd.length dotdot ++ Td ≠ [] := by
    rcases hne with h | h
    · have : Bd.length ≠ 0 := by simpa using h
      simp [this]
    · simp [h]
  have hXs : ∀ e ∈ List.replicate Bd.length dotdot ++ Td, '/' ∉ e := by
    intro e he
    rcases List.mem_append.mp he with h | h
    · exact ordinary_dotdot_no_slash e h
    · exact (hT e h).2.2.2
  have hXn : ∀ e ∈ List.replicate Bd.length dotdot ++ Td, e ≠ [] := by
    intro e he
    rcases List.mem_append.mp he with h | h
    · rw [List.eq_of_mem_replicate h]; decide
    · exact (hT e h).1
  have htg : joinSlash (List.replicate Bd.length dotdot ++ Td) ≠ [] :=
    joinSlash_ne_nil _ hX hXn
  have hrelp : HasPrefix (joinSlash (List.replicate Bd.length dotdot ++ Td)) slash = false := by
    obtain ⟨x, X, hx⟩ := List.exists_cons_of_ne_nil hX
    have hx1 := hXn x (by rw [hx]; exact List.mem_cons_self _ _)
    have hx2 := hXs x (by rw [hx]; exact List.mem_cons_self _ _)
    obtain ⟨a, x', rfl⟩ := List.exists_cons_of_ne_nil hx1
    have ha : a ≠ '/' := by
      intro ha; subst ha; exact hx2 (List.mem_cons_self _ _)
    rw [hx]
    cases X with
    | nil => simp [joinSlash_singleton, HasPrefix, slash, List.isPrefixOf, Ne.symm ha]
    | cons b L => simp [joinSlash_cons_cons, HasPrefix, slash, List.isPrefixOf, Ne.symm ha]
  rw [resolve_absPath_walk w true _ hall hroot (by simp)]
  have h40 : maxSymlinks = 39 + 1 := rfl
  rw [h40]
  unfold walk
  rw [walkFrom_to_link w.fs _ last _ hlast (c ++ Bd) [] hallB
    (by simpa [realDirs] using hrealB) (by simpa using hlink)]
  simp only [htg, if_false, hrelp, Bool.false_eq_true, List.nil_append, List.append_nil]
  rw [splitSlash_joinSlash _ hX hXs]
  obtain ⟨follow, hf⟩ := walk_eq_walkFrom w.fs true 39
  rw [hf, walkFrom_up w.fs follow true c Td Bd (by
    intro k _ hk
    have := hrealB (c.length + k) (by simp; omega)
    rw [List.take_append] at this
    exact this)]
  exact walkFrom_ok w.fs follow true Td c hT
    (by
      intro k hk
      have := hrealT (c.length + k) (by simp; omega)
      rw [List.take_append] at this
      exact this)
    (by
      intro tg h
      rw [realDirs_self _ _ hrealT] at h
      exact Node.noConfusion (Option.some.inj h))

/-- The link made by setup in the directory that is the root itself (target
"."), resolved. -/
theorem resolve_link_self (w : World) (B : List GoString) (last : GoString)
    (hB : ∀ e ∈ B, ordinary e) (hlast : ordinary last) (hrealB : realDirs w.fs B)
    (hlink : w.fs (B ++ [last]) = some (.symlink dot)) :
    resolve w true (absPath (B ++ [last])) = .ok B := by
  have hroot := realDirs_root _ _ hrealB
  have hall : ∀ e ∈ B ++ [last], ordinary e := by
    intro e he
    rcases List.mem_append.mp he with h | h
    · exact hB e h
    · rw [List.mem_singleton.mp h]; exact hlast
  rw [resolve_absPath_walk w true _ hall hroot (by simp)]
  have h40 : maxSymlinks = 39 + 1 := rfl
  rw [h40]
  unfold walk
  rw [walkFrom_to_link w.fs _ last _ hlast B [] hB
    (by simpa [realDirs] using hrealB) (by simpa using hlink)]
  have h1 : dot ≠ [] := by decide
  have h2 : HasPrefix dot slash = false := by decide
  have h3 : splitSlash dot = [dot] := by decide
  simp only [h1, if_false, h2, Bool.false_eq_true, List.nil_append, List.append_nil, h3]
  obtain ⟨follow, hf⟩ := walk_eq_walkFrom w.fs true 39
  rw [hf]
  unfold walkFrom
  simp only [realDirs_self _ _ hrealB, or_true, if_true]
  simp [walkFrom]


/-! ## What a run of setup that returns has done -/

theorem outcome_of_value {α : Type} (o : Outcome α) (a : α) (h : o.value = some a) :
    o = .ret a o.world := by
  cases o with
  | ret b w => simp only [Outcome.value, Option.some.injEq] at h; subst h; rfl
  | exit c w => simp [Outcome.value] at h
  | hang w => simp [Outcome.value] at h
  | crash w => simp [Outcome.value] at h

theorem orFail_value (r : Except Errno World) (w : World) (k : World → Outcome Unit)
    (h : (orFail r w k).value = some ()) : ∃ w1, r = .ok w1 ∧ orFail r w k = k w1 := by
  cases r with
  | error e => simp [orFail, Outcome.value] at h
  | ok w1 => exact ⟨w1, rfl, rfl⟩

theorem orFailAll_value (r : World × Option Errno) (k : World → Outcome Unit)
    (h : (orFailAll r k).value = some ()) : r.2 = none ∧ orFailAll r k = k r.1 := by
  unfold orFailAll at h ⊢
  cases hr : r.2 with
  | some e => rw [hr] at h; simp [Outcome.value] at h
  | none => exact ⟨rfl, rfl⟩

theorem bind_value {α : Type} (o : Outcome α) (k : α → World → Outcome Unit)
    (h : (o.bind k).value = some ()) : ∃ a w1, o = .ret a w1 ∧ o.bind k = k a w1 := by
  cases o with
  | ret a w1 => exact ⟨a, w1, rfl, rfl⟩
  | exit c w => simp [Outcome.bind, Outcome.value] at h
  | hang w => simp [Outcome.bind, Outcome.value] at h
  | crash w => simp [Outcome.bind, Outcome.value] at h

theorem openFileTrunc_stdin (w w1 : World) (path : GoString)
    (h : OpenFileTrunc w path = .ok w1) : w1.stdin = w.stdin := by
  unfold OpenFileTrunc at h
  split at h
  · exact Except.noConfusion h
  · split at h
    · exact Except.noConfusion h
    · exact Except.noConfusion h
    · injection h with h; rw [← h]

theorem mkdir_stdin (w w1 : World) (path : GoString) (h : Mkdir w path = .ok w1) :
    w1.stdin = w.stdin := by
  unfold Mkdir at h
  split at h
  · exact Except.noConfusion h
  · split at h
    · exact Except.noConfusion h
    · injection h with h; rw [← h]

theorem mkdirAllFuel_stdin :
    ∀ (n : Nat) (w : World) (path : GoString), (MkdirAllFuel n w path).1.stdin = w.stdin := by
  intro n
  induction n with
  | zero => intro w path; rfl
  | succ n ih =>
    intro w path
    unfold MkdirAllFuel
    split
    · rfl
    · rfl
    · have hmade : (if (parentPart path).length > 1
          then MkdirAllFuel n w (parentPart path).dropLast else (w, none)).1.stdin = w.stdin := by
        split
        · exact ih _ _
        · rfl
      simp only
      split
      · exact hmade
      · split
        · rename_i w2 hm
          rw [mkdir_stdin _ _ _ hm]; exact hmade
        · split
          · exact hmade
          · exact hmade

theorem mkdirAll_stdin (w : World) (path : GoString) : (MkdirAll w path).1.stdin = w.stdin :=
  mkdirAllFuel_stdin _ w path

/-- The path the prompt loop returns depends on the lines only. -/
theorem promptLoop_value_indep (inp : List ScanEvent) :
    ∀ w1 w2 : World, (promptLoop w1 inp).value = (promptLoop w2 inp).value := by
  induction inp with
  | nil => intro w1 w2; rfl
  | cons e rest ih =>
    intro w1 w2
    cases e with
    | fail => rfl
    | line text =>
      simp only [promptLoop]
      have e : (promptCheck { (w1.print .promptMark) with stdin := rest } text).1
          = (promptCheck { (w2.print .promptMark) with stdin := rest } text).1 := by
        rw [promptCheck_fst, promptCheck_fst]
      rw [e]
      split
      · exact ih _ _
      · rfl

theorem symlink_ok (v v1 : World) (tg link : GoString) (h : Symlink v tg link = .ok v1) :
    ∃ P, resolve v false link = .ok P ∧ v.fs P = none ∧ v1.fs = v.fs.set P (.symlink tg) := by
  unfold Symlink at h
  split at h
  · exact Except.noConfusion h
  · rename_i P hP
    split at h
    · exact Except.noConfusion h
    · rename_i hn
      injection h with h
      exact ⟨P, hP, hn, by rw [← h]⟩

/-- A run of provision that returns: the prompt accepted a path `p`, Rel gave
a target, and the last step made the link with that target at the location the
path Join(root, ".gong.deps", "src", p) resolved to. -/
theorem provision_ret (root : GoString) (w : World)
    (h : (provision root w).value = some ()) :
    ∃ (v : World) (p relDir : GoString) (P : PPath),
      (promptLoop w w.stdin).value = some p ∧
      Rel (Join [root, dotGongDeps, srcName, Dir p]) root = some relDir ∧
      resolve v false (Join [root, dotGongDeps, srcName, p]) = .ok P ∧
      v.fs P = none ∧
      (provision root w).world.fs = v.fs.set P (.symlink relDir) := by
  have hw : provision root w = provision root w := rfl
  conv at hw => rhs; unfold provision
  rw [hw] at h
  simp only [] at h hw
  obtain ⟨w1, h1, e1⟩ := orFail_value _ _ _ h
  rw [e1] at h hw
  obtain ⟨h2, e2⟩ := orFailAll_value _ _ h
  rw [e2] at h hw
  obtain ⟨h3, e3⟩ := orFailAll_value _ _ h
  rw [e3] at h hw
  obtain ⟨h4, e4⟩ := orFailAll_value _ _ h
  rw [e4] at h hw
  obtain ⟨p, w5, h5, e5⟩ := bind_value _ _ h
  rw [e5] at h hw
  obtain ⟨h6, e6⟩ := orFailAll_value _ _ h
  rw [e6] at h hw
  cases hrel : Rel (Join [root, dotGongDeps, srcName, Dir p]) root with
  | none =>
    rw [hrel] at h
    simp [Outcome.value] at h
  | some relDir =>
    rw [hrel] at h hw
    simp only [] at h hw
    obtain ⟨w7, h7, e7⟩ := orFail_value _ _ _ h
    rw [e7] at hw
    obtain ⟨P, hP, hnone, hfs⟩ := symlink_ok _ _ _ _ h7
    refine ⟨_, p, relDir, P, ?_, hrel, hP, hnone, ?_⟩
    · have hs1 := openFileTrunc_stdin _ _ _ h1
      have hv := congrArg Outcome.value h5
      simp only [Outcome.value] at hv
      rw [← hv]
      have hst : ∀ x : World, x.stdin = w.stdin → (promptLoop x x.stdin).value
          = (promptLoop w w.stdin).value := by
        intro x hx
        rw [hx]
        exact promptLoop_value_indep _ _ _
      symm
      apply hst
      simp only [World.print, mkdirAll_stdin]
      rw [hs1]
      rfl
    · rw [hw]
      simp only [Outcome.world, World.print]
      exact hfs

/-- When setup provisions, it does so for the working directory. -/
theorem setup_provisions (force : Bool) (w : World) (R : GoString) (hcwd : w.cwd = .ok R)
    (hR : R ≠ []) (hrun : force = true ∨ rootDir w = some (.error .ErrNoRootDir)) :
    ∃ w0 : World, setup force w = provision R w0 ∧ w0.stdin = w.stdin := by
  have hroot := rootDir_eq w
  rw [hcwd] at hroot
  simp only [hR, if_false] at hroot
  cases hs : Stat w dotGong with
  | ok nd =>
    rw [hs] at hroot
    simp only at hroot
    rcases hrun with hf | hf
    · subst hf
      refine ⟨w.print (.runningAgain R), ?_, rfl⟩
      unfold setup
      rw [hroot]
      simp
    · rw [hroot] at hf
      simp at hf
  | error e =>
    rw [hs] at hroot
    simp only at hroot
    refine ⟨w, ?_, rfl⟩
    unfold setup
    rw [hroot]
    simp only [hcwd]

/-! ## The link target (C2) -/

theorem pathElems_absPath (X : List GoString) (hX : ∀ e ∈ X, ordinary e) :
    pathElems (absPath X) = X := by
  unfold pathElems cleanElems
  rw [foldl_cleanStep_absPath X hX]
  simp

/-- The location of the link, by elements, whatever the last element is. -/
theorem join_link_any (rc init : List GoString) (last p : GoString)
    (hrc : ∀ e ∈ rc, ordinary e) (hsplit : splitSlash p = init ++ [last]) :
    Join [absPath rc, dotGongDeps, srcName, p]
      = absPath ((cleanStep true
          (init.foldl (cleanStep true) (srcName :: dotGongDeps :: rc.reverse)) last).reverse) := by
  have := join_absPath rc [dotGongDeps, srcName] p hrc ordinary_names
  simp only [List.cons_append, List.nil_append] at this
  rw [this, hsplit, List.foldl_append]
  simp

/-- A last element that is empty, "." or ".." adds no name: the cleaned path
is the directory before it or an ancestor of that directory. -/
theorem cleanStep_not_name (st : List GoString) (hst : ∀ e ∈ st, ordinary e)
    (last : GoString) (h : last = [] ∨ last = dot ∨ last = dotdot) :
    ∃ j, j ≤ st.length ∧ (cleanStep true st last).reverse = st.reverse.take j := by
  rcases h with h | h | h
  · refine ⟨st.length, le_refl _, ?_⟩
    rw [cleanStep_skip true st last (Or.inl h)]
    simp
  · refine ⟨st.length, le_refl _, ?_⟩
    rw [cleanStep_skip true st last (Or.inr h)]
    simp
  · subst h
    cases st with
    | nil => exact ⟨0, le_refl _, rfl⟩
    | cons top rest =>
      refine ⟨rest.length, by simp, ?_⟩
      rw [cleanStep_dotdot_pop true top rest (hst top (List.mem_cons_self _ _)).2.2.1]
      simp

/-- C2 as stated fails.  In the provisioned root /r with the link of the
earlier path "a/b" (a link to /r), the path "a/b/c" is accepted and setup(true)
returns.  The target computed is "../../../..".  The directory of the link
location /r/.gong.deps/src/a/b/c is, in the file tree, /r itself, so the link
is made at /r/c, and the link location resolves to the root directory "/", not
to /r.  At the accepted path ".." the target computed is "../..", which joined
to the directory of the link location /r/.gong.deps gives "/" as well; there
setup makes no link and ends the process with status 2. -/
theorem C2_counterexample :
    (promptLoop (worldProvisioned [['a', '/', 'b', '/', 'c']])
      (worldProvisioned [['a', '/', 'b', '/', 'c']]).stdin).value
        = some ['a', '/', 'b', '/', 'c'] ∧
    (setup true (worldProvisioned [['a', '/', 'b', '/', 'c']])).value = some () ∧
    Join [['/', 'r'], dotGongDeps, srcName, ['a', '/', 'b', '/', 'c']]
      = "/r/.gong.deps/src/a/b/c".toList ∧
    Rel (Join [['/', 'r'], dotGongDeps, srcName, Dir ['a', '/', 'b', '/', 'c']]) ['/', 'r']
      = some "../../../..".toList ∧
    Lstat (setup true (worldProvisioned [['a', '/', 'b', '/', 'c']])).world
      "/r/.gong.deps/src/a/b/c".toList = .ok (.symlink "../../../..".toList) ∧
    (setup true (worldProvisioned [['a', '/', 'b', '/', 'c']])).world.fs
      [['r'], dotGongDeps, srcName, ['a'], ['b']] = some (.symlink "../../..".toList) ∧
    (setup true (worldProvisioned [['a', '/', 'b', '/', 'c']])).world.fs [['r'], ['c']]
      = some (.symlink "../../../..".toList) ∧
    resolve (setup true (worldProvisioned [['a', '/', 'b', '/', 'c']])).world true
      "/r/.gong.deps/src/a/b".toList = .ok [['r']] ∧
    resolve (setup true (worldProvisioned [['a', '/', 'b', '/', 'c']])).world true
      "/r/.gong.deps/src/a/b/c".toList = .ok [] ∧
    resolve (setup true (worldProvisioned [['a', '/', 'b', '/', 'c']])).world true
      ['/', 'r'] = .ok [['r']] ∧
    (promptLoop (worldProvisioned [dotdot]) (worldProvisioned [dotdot]).stdin).value
      = some dotdot ∧
    Rel (Join [['/', 'r'], dotGongDeps, srcName, Dir dotdot]) ['/', 'r']
      = some "../..".toList ∧
    Join [Dir (Join [['/', 'r'], dotGongDeps, srcName, dotdot]), "../..".toList] = ['/'] ∧
    (setup true (worldProvisioned [dotdot])).exitCode = some 2 := by
  decide

/-- C2 (amended): let R be the clean absolute working directory and p the path
that the prompt accepts from standard input.  Whenever setup provisions
(forced, or no marker found) and returns, and in the file tree it leaves R and
the directory Join(R, ".gong.deps", "src", Dir(p)) made for the link are
reached through directories only (no symbolic link on the way), then the last
element of p is a name (not empty, "." or ".."), the link location
Join(R, ".gong.deps", "src", p) holds a link whose target is the relDir that
Rel computes, relDir joined to the directory of the link location is R, and
the link location resolved through the file tree is where R is. -/
theorem C2_link_resolves_to_root (force : Bool) (w : World) (R p : GoString)
    (habs : HasPrefix R slash = true) (hclean : Clean R = R)
    (hcwd : w.cwd = .ok R)
    (hrun : force = true ∨ rootDir w = some (.error .ErrNoRootDir))
    (hret : (setup force w).value = some ())
    (hp : (promptLoop w w.stdin).value = some p)
    (hrealR : realDirs (setup force w).world.fs (pathElems R))
    (hrealB : realDirs (setup force w).world.fs
      (pathElems (Join [R, dotGongDeps, srcName, Dir p]))) :
    (lastElem p ≠ [] ∧ lastElem p ≠ dot ∧ lastElem p ≠ dotdot) ∧
    ∃ relDir : GoString,
      Rel (Join [R, dotGongDeps, srcName, Dir p]) R = some relDir ∧
      Lstat (setup force w).world (Join [R, dotGongDeps, srcName, p])
        = .ok (.symlink relDir) ∧
      Join [Dir (Join [R, dotGongDeps, srcName, p]), relDir] = R ∧
      resolve (setup force w).world true (Join [R, dotGongDeps, srcName, p])
        = .ok (pathElems R) ∧
      resolve (setup force w).world true R = .ok (pathElems R) := by
  obtain ⟨hR, hrc⟩ := absPath_of_clean R habs hclean
  obtain ⟨rc, hrcdef⟩ : ∃ rc, rc = cleanElems true (splitSlash R) := ⟨_, rfl⟩
  rw [← hrcdef] at hR hrc
  have hpe : pathElems R = rc := by rw [hrcdef]; rfl
  rw [hpe] at hrealR ⊢
  clear hpe hrcdef
  subst hR
  -- the run of setup is a run of provision for the working directory
  obtain ⟨w0, hs, hst⟩ := setup_provisions force w _ hcwd (absPath_ne_nil rc) hrun
  rw [hs] at hret hrealR hrealB ⊢
  obtain ⟨v, p', relDir, P, hp', hrel, hP, hnone, hfs⟩ := provision_ret _ w0 hret
  have hpp : p' = p := by
    rw [hst, promptLoop_value_indep _ w0 w, hp] at hp'
    exact (Option.some.inj hp').symm
  subst hpp
  have hvalid : specValid p' :=
    promptLoop_ret_valid _ _ _ _ (outcome_of_value _ _ hp)
  -- the elements of the path
  have hsplit := List.dropLast_append_getLast (splitSlash_ne_nil p')
  have hinne := splitSlash_dropLast_ne_nil p' hvalid
  generalize (splitSlash p').dropLast = init at hsplit hinne
  generalize (splitSlash p').getLast (splitSlash_ne_nil p') = last at hsplit
  have hle : lastElem p' = last := by
    unfold lastElem; rw [← hsplit]; simp
  rw [hle]
  have hns : ∀ e ∈ init ++ [last], '/' ∉ e := by
    intro e he
    rw [hsplit] at he
    exact not_mem_slash_of_mem_splitSlash p' e he
  have hB := linkDir_ordinary rc init hrc (fun e he => hns e (List.mem_append_left _ he))
  have hany := join_link_any rc init last p' hrc hsplit.symm
  have hlk := join_link_general rc init last p' hrc hsplit.symm
  have hbs := join_base_general rc init last p' hrc hsplit.symm hinne
  generalize init.foldl (cleanStep true) (srcName :: dotGongDeps :: rc.reverse)
    = Brev at hB hany hlk hbs
  obtain ⟨B, rfl⟩ : ∃ B : List GoString, Brev = B.reverse := ⟨Brev.reverse, by simp⟩
  simp only [List.reverse_reverse] at hB hlk hbs
  rw [hbs] at hrel hrealB ⊢
  rw [pathElems_absPath B hB] at hrealB
  have hset : ∀ x, (provision (absPath rc) w0).world.fs x = some .dir → v.fs x = some .dir := by
    intro x hx
    rw [hfs] at hx
    by_cases hxp : x = P
    · subst hxp
      rw [Tree.set_self] at hx
      exact Node.noConfusion (Option.some.inj hx)
    · rw [Tree.set_other _ _ _ _ hxp] at hx
      exact hx
  have hvB : realDirs v.fs B := fun k hk => hset _ (hrealB k hk)
  -- the last element is a name: otherwise the link location is a directory
  have hl : ordinary last := by
    by_contra hno
    have hcase : last = [] ∨ last = dot ∨ last = dotdot := by
      by_contra hh
      push_neg at hh
      exact hno ⟨hh.1, hh.2.1, hh.2.2, hns last (by simp)⟩
    obtain ⟨j, hj, hrev⟩ := cleanStep_not_name B.reverse
      (fun e he => hB e (List.mem_reverse.mp he)) last hcase
    rw [List.length_reverse] at hj
    rw [hrev, List.reverse_reverse] at hany
    rw [hany] at hP
    have hres : resolve v false (absPath (B.take j)) = .ok (B.take j) := by
      apply resolve_ok v false (B.take j) (fun e he => hB e (List.mem_of_mem_take he))
        (realDirs_root _ _ hvB)
      · intro k _
        rw [List.take_take]
        exact hvB _ (le_trans (min_le_right _ _) hj)
      · intro tg h
        rw [hvB j hj] at h
        exact Node.noConfusion (Option.some.inj h)
    rw [hres] at hP
    have hPj := (Except.ok.inj hP).symm
    subst hPj
    rw [hvB j hj] at hnone
    exact Option.noConfusion hnone
  refine ⟨⟨hl.1, hl.2.1, hl.2.2.1⟩, ?_⟩
  have hlk := hlk hl
  rw [hlk] at hP ⊢
  have hallL : ∀ e ∈ B ++ [last], ordinary e := by
    intro e he
    rcases List.mem_append.mp he with h | h
    · exact hB e h
    · rw [List.mem_singleton.mp h]; exact hl
  -- the link is at the location the path names
  have hPeq : P = B ++ [last] := by
    rw [resolve_absPath_walk v false _ hallL (realDirs_root _ _ hvB) (by simp)] at hP
    obtain ⟨follow, hf⟩ := walk_eq_walkFrom v.fs false maxSymlinks
    rw [hf, walkFrom_nofollow v.fs follow last hl B [] hB
      (by simpa [realDirs] using hvB)] at hP
    simpa using (Except.ok.inj hP).symm
  subst hPeq
  have hlink : (provision (absPath rc) w0).world.fs (B ++ [last])
      = some (.symlink relDir) := by
    rw [hfs, Tree.set_self]
  have hlstat : Lstat (provision (absPath rc) w0).world (absPath (B ++ [last]))
      = .ok (.symlink relDir) := by
    unfold Lstat
    rw [resolve_absPath_walk _ false _ hallL (realDirs_root _ _ hrealB) (by simp)]
    obtain ⟨follow, hf⟩ := walk_eq_walkFrom (provision (absPath rc) w0).world.fs false
      maxSymlinks
    rw [hf, walkFrom_nofollow _ follow last hl B [] hB (by simpa [realDirs] using hrealB)]
    simp only [List.nil_append, hlink]
  have hroot : resolve (provision (absPath rc) w0).world true (absPath rc) = .ok rc :=
    resolve_ok _ true rc hrc (realDirs_root _ _ hrealR)
      (fun k hk => hrealR k (by omega))
      (by
        intro tg h
        rw [realDirs_self _ _ hrealR] at h
        exact Node.noConfusion (Option.some.inj h))
  have hdir : Dir (absPath (B ++ [last])) = absPath B := dir_absPath B last hB hl.2.2.2
  have hjoin : ∀ x : GoString, Join [absPath B, x]
      = absPath (((splitSlash x).foldl (cleanStep true) B.reverse).reverse) := by
    intro x
    have := join_absPath B [] x hB (by simp)
    simpa using this
  rw [hdir]
  -- the common start of the directory of the link and the root
  obtain ⟨c, Bd, Td, hBc, hTc, hdiff⟩ := exists_common_start B rc
  subst hBc; subst hTc
  have hc : ∀ e ∈ c, ordinary e := fun e he => hrc e (List.mem_append_left _ he)
  have hBd : ∀ e ∈ Bd, ordinary e := fun e he => hB e (List.mem_append_right _ he)
  have hTd : ∀ e ∈ Td, ordinary e := fun e he => hrc e (List.mem_append_right _ he)
  by_cases hne : Bd ≠ [] ∨ Td ≠ []
  · rw [rel_absPath_general c Bd Td hc hBd hTd hdiff hne] at hrel
    have hrd := (Option.some.inj hrel).symm
    subst hrd
    have hX : List.replicate Bd.length dotdot ++ Td ≠ [] := by
      rcases hne with h | h
      · have : Bd.length ≠ 0 := by simpa using h
        simp [this]
      · simp [h]
    have hXs : ∀ e ∈ List.replicate Bd.length dotdot ++ Td, '/' ∉ e := by
      intro e he
      rcases List.mem_append.mp he with h | h
      · exact ordinary_dotdot_no_slash e h
      · exact (hTd e h).2.2.2
    refine ⟨_, rel_absPath_general c Bd Td hc hBd hTd hdiff hne, hlstat, ?_, ?_, hroot⟩
    · rw [hjoin, splitSlash_joinSlash _ hX hXs, foldl_cleanStep_rel c Bd Td hBd hTd]
      simp
    · exact resolve_link _ c Bd Td last hc hBd hTd hl hne hrealB hrealR hlink
  · push_neg at hne
    obtain ⟨hb0, ht0⟩ := hne
    subst hb0; subst ht0
    simp only [List.append_nil] at *
    rw [rel_absPath_self] at hrel
    have hrd := (Option.some.inj hrel).symm
    subst hrd
    refine ⟨_, rel_absPath_self _, hlstat, ?_, ?_, hroot⟩
    · have h3 : splitSlash dot = [dot] := by decide
      rw [hjoin, h3]
      simp [cleanStep_skip]
    · exact resolve_link_self _ c last hc hl hrealB hlink

/-- C2 (amended) in the provisioned root /r for the path "example.com/u/proj":
the target is "../../../..", the link is at /r/.gong.deps/src/example.com/u/proj
and resolves to /r. -/
theorem C2_link_resolves_to_root_witness :
    Rel (Join [['/', 'r'], dotGongDeps, srcName, Dir examplePath]) ['/', 'r']
      = some "../../../..".toList ∧
    Lstat (setup true (worldProvisioned [examplePath])).world
      (Join [['/', 'r'], dotGongDeps, srcName, examplePath])
        = .ok (.symlink "../../../..".toList) ∧
    Join [Dir (Join [['/', 'r'], dotGongDeps, srcName, examplePath]), "../../../..".toList]
      = ['/', 'r'] ∧
    resolve (setup true (worldProvisioned [examplePath])).world true
      (Join [['/', 'r'], dotGongDeps, srcName, examplePath]) = .ok [['r']] := by
  obtain ⟨_, relDir, h1, h2, h3, h4, _⟩ :=
    C2_link_resolves_to_root true (worldProvisioned [examplePath]) ['/', 'r'] examplePath
      (by decide) (by decide) rfl (Or.inl rfl) (by decide) (by decide)
      (by
        intro k hk
        have hk' : k ≤ 1 := hk
        interval_cases k <;> decide)
      (by
        intro k hk
        have hk' : k ≤ 5 := hk
        interval_cases k <;> decide)
  have hr : Rel (Join [['/', 'r'], dotGongDeps, srcName, Dir examplePath]) ['/', 'r']
      = some "../../../..".toList := by decide
  rw [hr] at h1
  have hrd := (Option.some.inj h1).symm
  subst hrd
  exact ⟨hr, h2, h3, h4⟩

/-- A path with ".." and "." among its elements: the line "../lib/./x" in the
provisioned root /r.  The link is made at /r/.gong.deps/lib/x with the target
"../.." and resolves to /r. -/
theorem link_resolves_dotdot_path :
    (setup true (worldProvisioned ["../lib/./x".toList])).value = some () ∧
    Lstat (setup true (worldProvisioned ["../lib/./x".toList])).world
      "/r/.gong.deps/lib/x".toList = .ok (.symlink "../..".toList) ∧
    resolve (setup true (worldProvisioned ["../lib/./x".toList])).world true
      (Join [['/', 'r'], dotGongDeps, srcName, "../lib/./x".toList]) = .ok [['r']] := by
  decide

end Gong
